import Mathlib

/-!
Verification development for the `langcodes` core: a shallow embedding of
`langcodes/tag_parser.py` (BCP 47 syntax parsing) and `langcodes/semantics.py`
(meaning records and normalization), together with theorems settling the
specification claims.

Conventions of the embedding:
- Python strings are Lean `String`s; the string operations used by the source
  (`lower`, `upper`, `title`, `isalpha`, `isdigit`, `split('-')`, `'-'.join`)
  are modelled character-by-character for the ASCII range, which is the range
  BCP 47 tags inhabit.
- Python exceptions become `Except Err`; `Err` distinguishes the source's
  `LanguageTagError`, Python's built-in `KeyError`, and `RuntimeError`.
- Python dictionaries holding a meaning become the fixed-shape record
  `Meaning` with `Option`-valued fields ("key absent" = `none`); the
  set-valued fields are `Option (Finset String)`.
- Recursion through replacement tables (`tag_to_meaning` calling itself on a
  replacement string) is expressed with a fuel parameter; the fuel used by the
  top-level wrappers is sufficient for every input over the modelled tables.
-/

/-! ## Character-level models of the Python string methods -/

/-- Lower-case one character as Python `str.lower` does on ASCII. -/
def pyCharLower (c : Char) : Char :=
  if 'A' ≤ c ∧ c ≤ 'Z' then Char.ofNat (c.toNat + 32) else c

/-- Upper-case one character as Python `str.upper` does on ASCII. -/
def pyCharUpper (c : Char) : Char :=
  if 'a' ≤ c ∧ c ≤ 'z' then Char.ofNat (c.toNat - 32) else c

/-- ASCII letter test, the range Python's `str.isalpha` accepts for tags. -/
def pyCharIsAlpha (c : Char) : Bool :=
  ('a' ≤ c && c ≤ 'z') || ('A' ≤ c && c ≤ 'Z')

/-- ASCII digit test matching Python's `str.isdigit` on the tag alphabet. -/
def pyCharIsDigit (c : Char) : Bool :=
  '0' ≤ c && c ≤ '9'

/-- Python `s.lower()`. -/
def pyLower (s : String) : String := ⟨s.data.map pyCharLower⟩

/-- Python `s.upper()`. -/
def pyUpper (s : String) : String := ⟨s.data.map pyCharUpper⟩

/-- Python `s.isalpha()`: nonempty and all alphabetic. -/
def pyIsAlpha (s : String) : Bool :=
  !s.data.isEmpty && s.data.all pyCharIsAlpha

/-- Python `s.isdigit()`: nonempty and all digits. -/
def pyIsDigit (s : String) : Bool :=
  !s.data.isEmpty && s.data.all pyCharIsDigit

/-- One step of Python `str.title`: `prev` records whether the previous
character was alphabetic. -/
def pyTitleChars : List Char → Bool → List Char
  | [], _ => []
  | c :: rest, prev =>
      (if pyCharIsAlpha c then (if prev then pyCharLower c else pyCharUpper c) else c)
        :: pyTitleChars rest (pyCharIsAlpha c)

/-- Python `s.title()` (ASCII): upper-case each letter that follows a
non-letter, lower-case the other letters. -/
def pyTitle (s : String) : String := ⟨pyTitleChars s.data false⟩

/-- Split a character list at every occurrence of `sep`, keeping empty
pieces, as Python `str.split(sep)` does for a one-character separator. -/
def splitChars (sep : Char) : List Char → List (List Char)
  | [] => [[]]
  | c :: rest =>
      let r := splitChars sep rest
      if c = sep then [] :: r
      else
        match r with
        | [] => [[c]]
        | h :: t => (c :: h) :: t

/-- Python `tag.split('-')`. -/
def splitHyphen (s : String) : List String :=
  (splitChars '-' s.data).map String.mk

/-- Python `'-'.join(subtags)`. -/
def joinHyphen : List String → String
  | [] => ""
  | [x] => x
  | x :: rest => x ++ "-" ++ joinHyphen rest

/-! ## tag_parser.py -/

/-- Errors raised by the embedded code: the module's `LanguageTagError`,
Python's `KeyError`, and `RuntimeError`.  `fuelExhausted` is an artifact of
the fueled embedding and is unreachable at the fuel used by the wrappers. -/
inductive Err where
  | languageTagError (msg : String)
  | keyError (key : String)
  | runtimeError (msg : String)
  | fuelExhausted
deriving DecidableEq, Repr

/-- Grandfathered tags from RFC 3066 (`EXCEPTIONS` in tag_parser.py). -/
def EXCEPTIONS : List String :=
  ["en-gb-oed", "i-ami", "i-bnn", "i-default", "i-enochian", "i-hak",
   "i-klingon", "i-lux", "i-mingo", "i-navajo", "i-pwn", "i-tao", "i-tay",
   "i-tsu", "sgn-be-fr", "sgn-be-nl", "sgn-ch-de",
   "art-lojban", "cel-gaulish", "no-bok", "no-nyn", "zh-guoyu", "zh-hakka",
   "zh-min", "zh-min-nan", "zh-xiang"]

/-- Subtag order constants (`EXTLANG, SCRIPT, REGION, VARIANT, EXTENSION = range(5)`). -/
def EXTLANG : Nat := 0
/-- Order constant for scripts. -/
def SCRIPT : Nat := 1
/-- Order constant for regions. -/
def REGION : Nat := 2
/-- Order constant for variants. -/
def VARIANT : Nat := 3
/-- Order constant for extensions. -/
def EXTENSION : Nat := 4

/-- `SUBTAG_TYPES`: names of the subtag types, for error messages. -/
def SUBTAG_TYPES : List String :=
  ["extlang", "script", "region", "variant", "extension", "end of string"]

/-- The kinds of classified subtags appearing in a parse result. -/
inductive SubtagKind where
  | language
  | extlang
  | script
  | region
  | variant
  | extension
  | privateUse
  | grandfathered
deriving DecidableEq, Repr

/-- Map an order constant to the kind it classifies. -/
def tagtypeKind (t : Nat) : SubtagKind :=
  if t = EXTLANG then .extlang
  else if t = SCRIPT then .script
  else if t = REGION then .region
  else if t = VARIANT then .variant
  else .extension

/-- `normalize_characters`: lower-case and turn underscores into hyphens. -/
def normalize_characters (tag : String) : String :=
  ⟨tag.data.map (fun c => if pyCharLower c = '_' then '-' else pyCharLower c)⟩

/-- `order_error`: the `LanguageTagError` reporting an out-of-order subtag,
with the English-style disjunction of the still-acceptable kinds. -/
def order_error (subtag : String) (got expected : Nat) : Err :=
  let options := SUBTAG_TYPES.drop expected
  let expect_str :=
    if options.length = 1 then options.headD ""
    else if options.length = 2 then
      options.headD "" ++ " or " ++ (options.drop 1).headD ""
    else
      joinAnd options
  .languageTagError ("This " ++ SUBTAG_TYPES.getD got "" ++ " subtag, '" ++ subtag ++
    "', is out of place. Expected " ++ expect_str ++ ".")
where
  /-- Python `'%s, or %s' % (', '.join(options[:-1]), options[-1])`. -/
  joinAnd (options : List String) : String :=
    String.intercalate ", " (options.dropLast) ++ ", or " ++ options.getLastD ""

/-- `subtag_error`: the `LanguageTagError` for a malformed subtag. -/
def subtag_error (subtag : String) (expected : String := "a valid subtag") : Err :=
  .languageTagError ("Expected " ++ expected ++ ", got '" ++ subtag ++ "'")

/-- The number of leading subtags the `parse_extlang` while-loop consumes
when entered with `index = i`: it stops at the first subtag whose length is
not 3, or once three subtags have been taken. -/
def extlangCountFrom : List String → Nat → Nat
  | [], _ => 0
  | s :: rest, i =>
      if s.length = 3 ∧ i < 3 then extlangCountFrom rest (i + 1) + 1 else 0

/-- Number of subtags consumed by `parse_extlang`'s loop from the start. -/
def extlangCount (l : List String) : Nat := extlangCountFrom l 0

/-- The scan in `parse_extension` looking for the next singleton: number of
leading subtags whose length is not 1. -/
def countNonSingleton : List String → Nat
  | [] => 0
  | s :: rest => if s.length ≠ 1 then countNonSingleton rest + 1 else 0

/-- Fueled form of `parse_subtags`, the recursive-descent sequencer for
everything after the language subtag.  The bodies of `parse_extension` and
`parse_extlang` are inlined at their single call sites (the standalone
functions below restate them); fuel only bounds the recursion depth and
`subtags.length + 1` is always enough. -/
def parse_subtagsF : Nat → List String → Nat → Except Err (List (SubtagKind × String))
  | 0, _, _ => .error .fuelExhausted
  | fuel + 1, subtags, expect =>
    match subtags with
    | [] => .ok []
    | subtag :: rest =>
      if subtag.length = 0 ∨ subtag.length > 8 then
        .error (subtag_error subtag "1-8 characters")
      else if subtag.length = 1 then
        -- body of parse_extension
        if rest.isEmpty then
          .error (.languageTagError ("The subtag '" ++ subtag ++ "' must be followed by something"))
        else if subtag = "x" then
          .ok [(.privateUse, joinHyphen (subtag :: rest))]
        else
          let bk := countNonSingleton rest
          (fun more => (.extension, joinHyphen (subtag :: rest.take bk)) :: more) <$>
            parse_subtagsF fuel (rest.drop bk) EXTENSION
      else if subtag.length = 3 ∧ pyIsAlpha subtag then
        if expect ≤ EXTLANG then
          -- body of parse_extlang
          let k := extlangCount (subtag :: rest)
          (fun more => ((subtag :: rest).take k).map (fun s => (SubtagKind.extlang, s)) ++ more) <$>
            parse_subtagsF fuel ((subtag :: rest).drop k) SCRIPT
        else
          .error (order_error subtag EXTLANG expect)
      else
        let tagtype : Option Nat :=
          if subtag.length = 2 then
            if pyIsAlpha subtag then some REGION else none
          else if subtag.length = 3 then
            if pyIsDigit subtag then some REGION else none
          else if subtag.length = 4 then
            if pyIsAlpha subtag then some SCRIPT
            else if pyCharIsDigit (subtag.data.headD ' ') then some VARIANT
            else none
          else some VARIANT
        match tagtype with
        | none => .error (subtag_error subtag)
        | some t =>
          if t < expect then .error (order_error subtag t expect)
          else
            let expect2 := if t = SCRIPT ∨ t = REGION then t + 1 else t
            let value :=
              if t = SCRIPT then pyTitle subtag
              else if t = REGION then pyUpper subtag
              else subtag
            (fun more => (tagtypeKind t, value) :: more) <$>
              parse_subtagsF fuel rest expect2

/-- `parse_subtags` with enough fuel for its argument. -/
def parse_subtags (subtags : List String) (expect : Nat := EXTLANG) :
    Except Err (List (SubtagKind × String)) :=
  parse_subtagsF (subtags.length + 1) subtags expect

/-- `parse_extlang`: consume 1 to 3 three-character subtags, then continue
expecting a script. -/
def parse_extlang (subtags : List String) : Except Err (List (SubtagKind × String)) :=
  let k := extlangCount subtags
  (fun more => (subtags.take k).map (fun s => (SubtagKind.extlang, s)) ++ more) <$>
    parse_subtags (subtags.drop k) SCRIPT

/-- `parse_extension`: a singleton introduces an extension block; `x`
captures the rest of the tag verbatim as private use. -/
def parse_extension (subtags : List String) : Except Err (List (SubtagKind × String)) :=
  match subtags with
  | [] => .error .fuelExhausted
  | subtag :: rest =>
    if rest.isEmpty then
      .error (.languageTagError ("The subtag '" ++ subtag ++ "' must be followed by something"))
    else if subtag = "x" then
      .ok [(.privateUse, joinHyphen (subtag :: rest))]
    else
      let bk := countNonSingleton rest
      (fun more => (.extension, joinHyphen (subtag :: rest.take bk)) :: more) <$>
        parse_subtags (rest.drop bk) EXTENSION

/-- `parse`: normalize case, handle grandfathered tags and private-use tags,
then split off the language subtag and parse the rest. -/
def parse (tag : String) : Except Err (List (SubtagKind × String)) :=
  let tag := normalize_characters tag
  if EXCEPTIONS.contains tag then
    .ok [(.grandfathered, tag)]
  else
    match splitHyphen tag with
    | [] => .error .fuelExhausted   -- unreachable: split never returns []
    | first :: rest =>
      if first = "x" then
        if rest.isEmpty then
          .error (.languageTagError "'x' is not a language tag on its own")
        else
          .ok [(.language, tag)]
      else if first.length ≥ 2 then
        (fun more => (SubtagKind.language, first) :: more) <$> parse_subtags rest EXTLANG
      else
        .error (subtag_error first "a language code")

/-! ## semantics.py: the Meaning record and the lookup tables -/

/-- A meaning record: the Python dict built by `tag_to_meaning`, with one
optional field per key the code can store.  `none` models "key absent";
the set-valued keys hold `Finset String`.  The Python key `'private'` is the
field `privateUse` (`private` is reserved in Lean). -/
structure Meaning where
  language : Option String := none
  macrolanguage : Option String := none
  script : Option String := none
  region : Option String := none
  extlang : Option (Finset String) := none
  variant : Option (Finset String) := none
  extension : Option (Finset String) := none
  privateUse : Option String := none
  grandfathered : Option String := none
deriving DecidableEq

/-- Modelled from the spec: the unconditional language-replacement table
`NORMALIZED_LANGUAGES`, loaded in the source from the external subtag
database (`langcodes.db`, not part of the core).  The entries are the ones
pinned down by the spec's concrete cases and the source docstrings:
`sh` → `sr-latn` (deprecated Serbo-Croatian), the whole-tag replacement
`sgn-us` → `ase` (American Sign Language), and the extlang smash
`zh-cmn` → `cmn` (Mandarin). -/
def NORMALIZED_LANGUAGES : List (String × String) :=
  [("sh", "sr-latn"), ("sgn-us", "ase"), ("zh-cmn", "cmn")]

/-- Modelled from the spec: the macrolanguage-preferring replacement table
`NORMALIZED_MACROLANGUAGES` from the external database; `cmn` (Mandarin) is
represented by its macrolanguage `zh` (Chinese), per the spec's
`standardize_tag('zh-cmn-hans-cn', macro=True)` case. -/
def NORMALIZED_MACROLANGUAGES : List (String × String) :=
  [("cmn", "zh")]

/-- Modelled from the spec: the language→macrolanguage table
`MACROLANGUAGES` from the external database; the source docstrings pin
`sr` → `sh` (via `tag_to_meaning('sh-QU')`) and `cmn` → `zh`
(via `tag_to_meaning('zh-cmn-Hant')`). -/
def MACROLANGUAGES : List (String × String) :=
  [("sr", "sh"), ("cmn", "zh")]

/-- Modelled from the spec: the region-replacement table
`NORMALIZED_REGIONS` from the external database; the spec's concrete cases
pin `UK` → `GB` and `QU` → `EU`. -/
def NORMALIZED_REGIONS : List (String × String) :=
  [("UK", "GB"), ("QU", "EU")]

/-- Modelled from the spec: the language→suppressed-script table
`DEFAULT_SCRIPTS` from the external database; the spec's
`standardize_tag('en-Latn') = 'en'` case pins `en` → `Latn`. -/
def DEFAULT_SCRIPTS : List (String × String) :=
  [("en", "Latn")]

/-- Modelled from the spec: the likely-subtags table `LIKELY_SUBTAGS` from
the external database.  The empty record's tag `und` always has an entry in
a correctly populated table. -/
def LIKELY_SUBTAGS : List (String × String) :=
  [("und", "en-Latn-US"), ("zh-Hant", "zh-Hant-TW")]

/-- Python `result.update(other)`: keys of `other` win, keys only in
`result` survive. -/
def Meaning.update (m other : Meaning) : Meaning where
  language := other.language.orElse fun _ => m.language
  macrolanguage := other.macrolanguage.orElse fun _ => m.macrolanguage
  script := other.script.orElse fun _ => m.script
  region := other.region.orElse fun _ => m.region
  extlang := other.extlang.orElse fun _ => m.extlang
  variant := other.variant.orElse fun _ => m.variant
  extension := other.extension.orElse fun _ => m.extension
  privateUse := other.privateUse.orElse fun _ => m.privateUse
  grandfathered := other.grandfathered.orElse fun _ => m.grandfathered

/-- `meaning.setdefault(typ, set()).add(value)` for a set-valued field. -/
def addToSet (f : Option (Finset String)) (value : String) : Option (Finset String) :=
  some (insert value (f.getD ∅))

/-- Store `value` into set-valued field `typ` of `meaning`. -/
def Meaning.addSet (meaning : Meaning) (typ : SubtagKind) (value : String) : Meaning :=
  match typ with
  | .extlang => { meaning with extlang := addToSet meaning.extlang value }
  | .variant => { meaning with variant := addToSet meaning.variant value }
  | .extension => { meaning with extension := addToSet meaning.extension value }
  | _ => meaning

/-- The catch-all `meaning[typ] = value` branch of the builder loop, reached
for scripts, private-use values and grandfathered tags. -/
def Meaning.setScalar (meaning : Meaning) (typ : SubtagKind) (value : String) : Meaning :=
  match typ with
  | .script => { meaning with script := some value }
  | .privateUse => { meaning with privateUse := some value }
  | .grandfathered => { meaning with grandfathered := some value }
  | _ => meaning

/-- The body of the `for typ, value in components` loop of `tag_to_meaning`,
folded over the classification with the running dict as accumulator.  The
recursive `tag_to_meaning` calls made for whole-replacement values are the
function argument `rec`, so that the recursion is tied off by fuel in
`tag_to_meaningF` below.  Branches follow the source order: the
extlang-smash branch first (whose `meaning['language']` access raises
`KeyError` when the language key is absent, and falls through to plain
accumulation when the language value is falsy), then the set-valued kinds,
then language (dropping `und`, replacing or annotating a macrolanguage),
then region replacement, then the catch-all `meaning[typ] = value`. -/
def tagFoldWith (rec : String → Bool → Except Err Meaning) (normalize : Bool) :
    Meaning → List (SubtagKind × String) → Except Err Meaning
  | meaning, [] => .ok meaning
  | meaning, (typ, value) :: comps =>
    if typ = .extlang ∧ normalize then
      match meaning.language with
      | none => .error (.keyError "language")
      | some l =>
        if l = "" then
          tagFoldWith rec normalize (meaning.addSet typ value) comps
        else
          match NORMALIZED_LANGUAGES.lookup (l ++ "-" ++ value) with
          | some rep =>
            match rec rep normalize with
            | .ok sub => tagFoldWith rec normalize (meaning.update sub) comps
            | .error e => .error e
          | none => tagFoldWith rec normalize (meaning.addSet typ value) comps
    else if typ = .extlang ∨ typ = .variant ∨ typ = .extension then
      tagFoldWith rec normalize (meaning.addSet typ value) comps
    else if typ = .language then
      if value = "und" then
        tagFoldWith rec normalize meaning comps
      else
        match (if normalize then NORMALIZED_LANGUAGES.lookup value else none) with
        | some rep =>
          match rec rep normalize with
          | .ok sub => tagFoldWith rec normalize (meaning.update sub) comps
          | .error e => .error e
        | none =>
          let m1 := { meaning with language := some value }
          let m2 :=
            match MACROLANGUAGES.lookup value with
            | some mac => { m1 with macrolanguage := some mac }
            | none => m1
          tagFoldWith rec normalize m2 comps
    else if typ = .region then
      match (if normalize then NORMALIZED_REGIONS.lookup value else none) with
      | some rep => tagFoldWith rec normalize { meaning with region := some rep } comps
      | none => tagFoldWith rec normalize { meaning with region := some value } comps
    else
      tagFoldWith rec normalize (meaning.setScalar typ value) comps

/-- Fueled `tag_to_meaning`: replace the whole tag if it is itself in the
replacement table (matched case-smashed, before parsing), parse it, and fold
the classification into a meaning. -/
def tag_to_meaningF : Nat → String → Bool → Except Err Meaning
  | 0, _, _ => .error .fuelExhausted
  | fuel + 1, tag, normalize =>
    let tag :=
      match (if normalize then NORMALIZED_LANGUAGES.lookup (pyLower tag) else none) with
      | some rep => rep
      | none => tag
    match parse tag with
    | .error e => .error e
    | .ok components => tagFoldWith (tag_to_meaningF fuel) normalize {} components

/-- `tag_to_meaning`.  Fuel 4 is enough for every input: over the modelled
tables each replacement value (`sr-latn`, `ase`, `cmn`) is processed without
any further replacement, so the recursion depth never exceeds 2. -/
def tag_to_meaning (tag : String) (normalize : Bool := true) : Except Err Meaning :=
  tag_to_meaningF 4 tag normalize

/-- `prefer_macrolanguage`: if the language has a macrolanguage-preferring
replacement, substitute it and drop the `macrolanguage` annotation. -/
def prefer_macrolanguage (meaning : Meaning) : Meaning :=
  match NORMALIZED_MACROLANGUAGES.lookup (meaning.language.getD "und") with
  | some rep => { meaning with language := some rep, macrolanguage := none }
  | none => meaning

/-- Lexicographic code-point comparison of character lists: the order Python
`sorted` uses on strings. -/
def charsLe : List Char → List Char → Bool
  | [], _ => true
  | _ :: _, [] => false
  | a :: as, b :: bs =>
    if a < b then true
    else if b < a then false
    else charsLe as bs

/-- Python string comparison `a <= b`. -/
def pyStrLe (a b : String) : Bool := charsLe a.data b.data

theorem charsLe_total : ∀ a b, charsLe a b = true ∨ charsLe b a = true
  | [], _ => by simp [charsLe]
  | _ :: _, [] => by simp [charsLe]
  | a :: as, b :: bs => by
    by_cases hab : a < b
    · simp [charsLe, hab]
    · by_cases hba : b < a
      · simp [charsLe, hab, hba]
      · simpa [charsLe, hab, hba] using charsLe_total as bs

theorem charsLe_antisymm : ∀ a b, charsLe a b = true → charsLe b a = true → a = b
  | [], [], _, _ => rfl
  | [], _ :: _, _, h => by simp [charsLe] at h
  | _ :: _, [], h, _ => by simp [charsLe] at h
  | a :: as, b :: bs, h1, h2 => by
    by_cases hab : a < b
    · simp [charsLe, hab, not_lt_of_gt hab] at h2
    · by_cases hba : b < a
      · simp [charsLe, hab, hba] at h1
      · have hch : a = b := le_antisymm (not_lt.mp hba) (not_lt.mp hab)
        subst hch
        simp only [charsLe, if_neg hab, if_neg hba] at h1 h2
        exact congrArg (a :: ·) (charsLe_antisymm as bs h1 h2)

theorem charsLe_trans : ∀ a b c, charsLe a b = true → charsLe b c = true → charsLe a c = true
  | [], _, _, _, _ => by simp [charsLe]
  | _ :: _, [], _, h, _ => by simp [charsLe] at h
  | _ :: _, _ :: _, [], _, h => by simp [charsLe] at h
  | a :: as, b :: bs, c :: cs, h1, h2 => by
    by_cases hab : a < b
    · by_cases hbc : b < c
      · simp [charsLe, lt_trans hab hbc]
      · by_cases hcb : c < b
        · simp [charsLe, hbc, hcb] at h2
        · have : b = c := le_antisymm (not_lt.mp hcb) (not_lt.mp hbc)
          subst this
          simp [charsLe, hab]
    · by_cases hba : b < a
      · simp [charsLe, hab, hba] at h1
      · have : a = b := le_antisymm (not_lt.mp hba) (not_lt.mp hab)
        subst this
        simp only [charsLe, if_neg hab, if_neg hba] at h1
        by_cases hac : a < c
        · simp [charsLe, hac]
        · by_cases hca : c < a
          · simp [charsLe, hac, hca] at h2
          · simp only [charsLe, if_neg hac, if_neg hca] at h2 ⊢
            exact charsLe_trans as bs cs h1 h2

theorem pyStrLe_total (a b : String) : pyStrLe a b = true ∨ pyStrLe b a = true :=
  charsLe_total a.data b.data

theorem pyStrLe_antisymm {a b : String} (h1 : pyStrLe a b = true) (h2 : pyStrLe b a = true) :
    a = b := by
  cases a; cases b
  exact congrArg String.mk (charsLe_antisymm _ _ h1 h2)

theorem pyStrLe_trans {a b c : String} (h1 : pyStrLe a b = true) (h2 : pyStrLe b c = true) :
    pyStrLe a c = true :=
  charsLe_trans a.data b.data c.data h1 h2

/-- Insert a string into a sorted list, keeping it sorted. -/
def insertSorted (a : String) : List String → List String
  | [] => [a]
  | b :: l => if pyStrLe a b then a :: b :: l else b :: insertSorted a l

theorem insertSorted_comm : ∀ (a b : String) (l : List String),
    insertSorted a (insertSorted b l) = insertSorted b (insertSorted a l)
  | a, b, [] => by
    by_cases hab : pyStrLe a b = true
    · by_cases hba : pyStrLe b a = true
      · cases pyStrLe_antisymm hab hba; rfl
      · simp [insertSorted, hab, hba]
    · have hba : pyStrLe b a = true := (pyStrLe_total a b).resolve_left hab
      simp [insertSorted, hab, hba]
  | a, b, c :: l => by
    by_cases hac : pyStrLe a c = true
    · by_cases hbc : pyStrLe b c = true
      · -- both insert before c: reduces to the two-element analysis
        by_cases hab : pyStrLe a b = true
        · by_cases hba : pyStrLe b a = true
          · cases pyStrLe_antisymm hab hba; rfl
          · simp [insertSorted, hab, hba, hac, hbc]
        · have hba : pyStrLe b a = true := (pyStrLe_total a b).resolve_left hab
          simp [insertSorted, hab, hba, hac, hbc]
      · -- b goes past c, a stays in front
        have hba : ¬ pyStrLe b a = true := fun h => hbc (pyStrLe_trans h hac)
        simp [insertSorted, hac, hbc, hba]
    · by_cases hbc : pyStrLe b c = true
      · have hab : ¬ pyStrLe a b = true := fun h => hac (pyStrLe_trans h hbc)
        simp [insertSorted, hac, hbc, hab]
      · simp [insertSorted, hac, hbc, insertSorted_comm a b l]

instance : LeftCommutative insertSorted := ⟨fun a b l => insertSorted_comm a b l⟩

/-- Sets are serialized in sorted order (Python `sorted`), using a
kernel-computable insertion sort over the finset's multiset. -/
def sortedStrings (s : Finset String) : List String :=
  Multiset.foldr insertSorted [] s.val

/-- `meaning_to_tag`: serialize a meaning deterministically: language (or
`und`), script, region, sorted variants, sorted extensions, private use. -/
def meaning_to_tag (meaning : Meaning) : String :=
  joinHyphen
    ([meaning.language.getD "und"]
      ++ (match meaning.script with | some s => [s] | none => [])
      ++ (match meaning.region with | some r => [r] | none => [])
      ++ (match meaning.variant with | some v => sortedStrings v | none => [])
      ++ (match meaning.extension with | some e => sortedStrings e | none => [])
      ++ (match meaning.privateUse with | some p => [p] | none => []))

/-- `simplify_script`: drop the script when it is the language's default. -/
def simplify_script (meaning : Meaning) : Meaning :=
  match meaning.language, meaning.script with
  | some l, some sc =>
    if DEFAULT_SCRIPTS.lookup l = some sc then { meaning with script := none }
    else meaning
  | _, _ => meaning

/-- `standardize_tag`: build the normalized meaning, optionally prefer the
macrolanguage, simplify the script, and serialize.  The Python keyword
argument `macro` is spelled `macroPref` (`macro` is reserved in Lean). -/
def standardize_tag (tag : String) (macroPref : Bool := false) : Except Err String :=
  match tag_to_meaning tag true with
  | .error e => .error e
  | .ok meaning =>
    let meaning := if macroPref then prefer_macrolanguage meaning else meaning
    .ok (meaning_to_tag (simplify_script meaning))

/-- Scalar-field comparison inside `meaning_superset`: a key present in the
first dict must be present with an equal value in the second. -/
def optScalarEq (a b : Option String) : Bool :=
  match a with
  | none => true
  | some x => b = some x

/-- Set-field comparison inside `meaning_superset`: a set present in the
first dict must be a subset of the second's. -/
def optSubset (a b : Option (Finset String)) : Bool :=
  match a with
  | none => true
  | some x =>
    match b with
    | some y => decide (x ⊆ y)
    | none => false

/-- `meaning_superset(meaning1, meaning2)`: every key of `meaning1` is in
`meaning2`, scalar values equal, set values a subset. -/
def meaning_superset (m1 m2 : Meaning) : Bool :=
  optScalarEq m1.language m2.language &&
  optScalarEq m1.macrolanguage m2.macrolanguage &&
  optScalarEq m1.script m2.script &&
  optScalarEq m1.region m2.region &&
  optSubset m1.extlang m2.extlang &&
  optSubset m1.variant m2.variant &&
  optSubset m1.extension m2.extension &&
  optScalarEq m1.privateUse m2.privateUse &&
  optScalarEq m1.grandfathered m2.grandfathered

/-- `BROADER_KEYSETS`: the fixed field subsets used for broadening. -/
def BROADER_KEYSETS : List (List String) :=
  [["language", "script", "region"],
   ["language", "script"],
   ["language", "region"],
   ["language"],
   ["macrolanguage", "script", "region"],
   ["macrolanguage", "script"],
   ["macrolanguage", "region"],
   ["macrolanguage"],
   ["script", "region"],
   ["script"],
   ["region"],
   []]

/-- `_filter_keys`: restrict a meaning to a keyset, renaming a kept
`macrolanguage` to `language` when `language` itself was not kept. -/
def _filter_keys (d : Meaning) (keys : List String) : Meaning :=
  let filtered : Meaning :=
    { language := if keys.contains "language" then d.language else none
      macrolanguage := if keys.contains "macrolanguage" then d.macrolanguage else none
      script := if keys.contains "script" then d.script else none
      region := if keys.contains "region" then d.region else none
      extlang := if keys.contains "extlang" then d.extlang else none
      variant := if keys.contains "variant" then d.variant else none
      extension := if keys.contains "extension" then d.extension else none
      privateUse := if keys.contains "private" then d.privateUse else none
      grandfathered := if keys.contains "grandfathered" then d.grandfathered else none }
  if filtered.macrolanguage.isSome ∧ filtered.language = none then
    { filtered with language := filtered.macrolanguage, macrolanguage := none }
  else filtered

/-- `broader_meanings`: the meaning itself, then each keyset restriction
that differs from it (the generator, materialized as a list). -/
def broader_meanings (meaning : Meaning) : List Meaning :=
  meaning :: (BROADER_KEYSETS.map (_filter_keys meaning)).filter (fun f => decide (f ≠ meaning))

/-- The `for check_meaning in broader_meanings(meaning)` loop of
`fill_likely_values`, over an explicit list. -/
def fillLoop (tbl : List (String × String)) (meaning : Meaning) :
    List Meaning → Except Err Meaning
  | [] => .error (.runtimeError
      "Couldn't fill in likely values. This represents a problem with langcodes.db.LIKELY_SUBTAGS.")
  | check :: rest =>
    match tbl.lookup (meaning_to_tag check) with
    | some entry =>
      match tag_to_meaning entry true with
      | .ok result => .ok (result.update meaning)
      | .error e => .error e
    | none => fillLoop tbl meaning rest

/-- `fill_likely_values`, with the likely-subtags table passed explicitly
(the source reads the module-level global `LIKELY_SUBTAGS`). -/
def fill_likely_valuesWith (tbl : List (String × String)) (meaning : Meaning) :
    Except Err Meaning :=
  fillLoop tbl meaning (broader_meanings meaning)

/-- `fill_likely_values` over the modelled global table. -/
def fill_likely_values (meaning : Meaning) : Except Err Meaning :=
  fill_likely_valuesWith LIKELY_SUBTAGS meaning

/-! ## Infrastructure lemmas -/

deriving instance DecidableEq for Except

theorem except_map_ok {ε α β : Type} {e : Except ε α} {f : α → β} {b : β} :
    f <$> e = .ok b ↔ ∃ a, e = .ok a ∧ f a = b := by
  cases e <;> simp [Except.map, Functor.map]

theorem except_map_error {ε α β : Type} {e : Except ε α} {f : α → β} {msg : ε} :
    f <$> e = .error msg ↔ e = .error msg := by
  cases e <;> simp [Except.map, Functor.map]

/-! ## Claim theorems -/

/-- C1: each of the spec's concrete inputs standardizes to exactly the
listed canonical string: `en_US` → `en-US`, `en-Latn` → `en`, `en-uk` →
`en-GB`, `sh-QU` → `sr-Latn-EU`, `sgn-US` → `ase`, and (with the
macrolanguage option) `zh-cmn-hans-cn` → `zh-Hans-CN`. -/
theorem standardize_tag_concrete_cases :
    standardize_tag "en_US" = .ok "en-US" ∧
    standardize_tag "en-Latn" = .ok "en" ∧
    standardize_tag "en-uk" = .ok "en-GB" ∧
    standardize_tag "sh-QU" = .ok "sr-Latn-EU" ∧
    standardize_tag "sgn-US" = .ok "ase" ∧
    standardize_tag "zh-cmn-hans-cn" true = .ok "zh-Hans-CN" := by
  exact ⟨by decide, by decide, by decide, by decide, by decide, by decide⟩

/-- C5 (code bug): `tag_to_meaning` with `normalize=True` is not total on
parseable tags: on `und-yue` the language subtag `und` is dropped, and the
extlang branch's `meaning['language']` access then raises `KeyError`
(`parse` itself succeeds on this tag). -/
theorem tag_to_meaning_und_extlang_keyerror :
    parse "und-yue" = .ok [(.language, "und"), (.extlang, "yue")] ∧
    tag_to_meaning "und-yue" = .error (.keyError "language") := by
  exact ⟨by decide, by decide⟩

/-- C2 (counterexample): standardization is not idempotent.  `sgn_US` is not
replaced as a whole tag (the whole-tag lookup lower-cases but does not turn
the underscore into a hyphen), so it standardizes to `sgn-US`; standardizing
`sgn-US` again hits the whole-tag replacement and yields `ase`. -/
theorem standardize_tag_not_idempotent_on_sgn_us :
    standardize_tag "sgn_US" = .ok "sgn-US" ∧
    standardize_tag "sgn-US" = .ok "ase" ∧
    ("ase" : String) ≠ "sgn-US" := by
  exact ⟨by decide, by decide, by decide⟩

/-- C4 (counterexample): the extlang loop consumes any length-3 subtag, so
the all-numeric subtag `123` immediately following the extlang `yue` is
classified as an extlang, not as a region. -/
theorem parse_numeric_extlang :
    parse "zh-yue-123" = .ok [(.language, "zh"), (.extlang, "yue"), (.extlang, "123")] := by
  decide

/-- C3 (counterexample): after the extlang run the expect cursor is set to
script rank rather than staying at extlang rank: a fourth consecutive
3-letter subtag is rejected with an ordering error whose acceptable kinds
start at `script`. -/
theorem parse_fourth_extlang_order_error :
    parse "zh-aaa-bbb-ccc-ddd" = .error (.languageTagError
      "This extlang subtag, 'ddd', is out of place. Expected script, region, variant, extension, or end of string.") := by
  decide

/-- C6 (counterexample): a grandfathered tag stores the key `grandfathered`
in the returned record, a field name outside the documented set. -/
theorem tag_to_meaning_grandfathered_key :
    tag_to_meaning "i-enochian" false = .ok { grandfathered := some "i-enochian" } ∧
    (Meaning.grandfathered { grandfathered := some "i-enochian" }).isSome = true := by
  exact ⟨by decide, by decide⟩

/-- C7 (counterexample): with `normalize=False` the builder still consults
the macrolanguage table: the classification of `sr` contains no
macrolanguage, yet the returned record annotates `macrolanguage = sh`. -/
theorem tag_to_meaning_annotates_macrolanguage_without_normalize :
    parse "sr" = .ok [(.language, "sr")] ∧
    tag_to_meaning "sr" false = .ok { language := some "sr", macrolanguage := some "sh" } := by
  exact ⟨by decide, by decide⟩

/-! ## C8: the superset test -/

theorem optScalarEq_iff (a b : Option String) :
    optScalarEq a b = true ↔ ∀ x, a = some x → b = some x := by
  cases a <;> simp [optScalarEq, eq_comm]

theorem optSubset_iff (a b : Option (Finset String)) :
    optSubset a b = true ↔ ∀ s, a = some s → ∃ t, b = some t ∧ s ⊆ t := by
  cases a <;> cases b <;> simp [optSubset]

theorem optScalarEq_refl (a : Option String) : optScalarEq a a = true := by
  cases a <;> simp [optScalarEq]

theorem optSubset_refl (a : Option (Finset String)) : optSubset a a = true := by
  cases a <;> simp [optSubset]

theorem optScalarEq_antisymm {a b : Option String}
    (h1 : optScalarEq a b = true) (h2 : optScalarEq b a = true) : a = b := by
  cases a <;> cases b <;> simp_all [optScalarEq]

theorem optSubset_antisymm {a b : Option (Finset String)}
    (h1 : optSubset a b = true) (h2 : optSubset b a = true) : a = b := by
  cases a <;> cases b <;> simp_all [optSubset]
  exact Finset.Subset.antisymm h1 h2

/-- The claim's reading of the superset test, for the refinement comparison:
every field present in the first record is present in the second, scalar
fields equal, set-valued fields a subset. -/
def SupersetSpec (A B : Meaning) : Prop :=
  (∀ x, A.language = some x → B.language = some x) ∧
  (∀ x, A.macrolanguage = some x → B.macrolanguage = some x) ∧
  (∀ x, A.script = some x → B.script = some x) ∧
  (∀ x, A.region = some x → B.region = some x) ∧
  (∀ s, A.extlang = some s → ∃ t, B.extlang = some t ∧ s ⊆ t) ∧
  (∀ s, A.variant = some s → ∃ t, B.variant = some t ∧ s ⊆ t) ∧
  (∀ s, A.extension = some s → ∃ t, B.extension = some t ∧ s ⊆ t) ∧
  (∀ x, A.privateUse = some x → B.privateUse = some x) ∧
  (∀ x, A.grandfathered = some x → B.grandfathered = some x)

theorem meaning_superset_both (A B : Meaning)
    (h1 : meaning_superset A B = true) (h2 : meaning_superset B A = true) : A = B := by
  simp only [meaning_superset, Bool.and_eq_true] at h1 h2
  obtain ⟨⟨⟨⟨⟨⟨⟨⟨a1, a2⟩, a3⟩, a4⟩, a5⟩, a6⟩, a7⟩, a8⟩, a9⟩ := h1
  obtain ⟨⟨⟨⟨⟨⟨⟨⟨b1, b2⟩, b3⟩, b4⟩, b5⟩, b6⟩, b7⟩, b8⟩, b9⟩ := h2
  cases A; cases B
  simp only [Meaning.mk.injEq]
  exact ⟨optScalarEq_antisymm a1 b1, optScalarEq_antisymm a2 b2, optScalarEq_antisymm a3 b3,
    optScalarEq_antisymm a4 b4, optSubset_antisymm a5 b5, optSubset_antisymm a6 b6,
    optSubset_antisymm a7 b7, optScalarEq_antisymm a8 b8, optScalarEq_antisymm a9 b9⟩

/-- C8: `meaning_superset A B` holds exactly when every field present in A
is present in B with scalar fields equal and set-valued fields a subset;
the test is reflexive, the empty record is a superset of everything, and it
is antisymmetric: a strict superset is never a superset the other way. -/
theorem meaning_superset_characterization (A B : Meaning) :
    (meaning_superset A B = true ↔ SupersetSpec A B) ∧
    meaning_superset A A = true ∧
    meaning_superset {} B = true ∧
    (meaning_superset A B = true → A ≠ B → meaning_superset B A = false) := by
  refine ⟨?_, ?_, ?_, ?_⟩
  · simp only [meaning_superset, Bool.and_eq_true, SupersetSpec,
      optScalarEq_iff, optSubset_iff]
    tauto
  · simp only [meaning_superset, Bool.and_eq_true, optScalarEq_refl, optSubset_refl,
      and_self]
  · simp only [meaning_superset]
    simp [optScalarEq, optSubset]
  · intro h1 hne
    by_contra h2
    simp only [Bool.not_eq_false] at h2
    exact hne (meaning_superset_both A B h1 h2)

/-- Witness for C8 at concrete records: `{language en}` is a strict superset
of `{language en, region US}`, and not conversely. -/
theorem meaning_superset_characterization_witness :
    meaning_superset { language := some "en" } { language := some "en", region := some "US" } = true ∧
    ({ language := some "en" } : Meaning) ≠ { language := some "en", region := some "US" } ∧
    meaning_superset { language := some "en", region := some "US" } { language := some "en" } = false := by
  refine ⟨by decide, by decide, ?_⟩
  exact (meaning_superset_characterization { language := some "en" }
    { language := some "en", region := some "US" }).2.2.2 (by decide) (by decide)

/-! ## C9: the broadening sequence -/

theorem filter_keys_of_empty (ks : List String) : _filter_keys {} ks = {} := by
  simp [_filter_keys]

theorem filter_keys_nil (M : Meaning) : _filter_keys M [] = {} := by
  rcases hm : M.macrolanguage with _ | m <;> simp [_filter_keys, List.contains]

/-- C9: for every meaning M, `broader_meanings M` starts with M itself, ends
with the empty record, its tail consists exactly of the keyset restrictions
of M that differ from M, and a restriction through a keyset containing
`macrolanguage` stores M's macrolanguage under the `language` field (and no
`macrolanguage` field). -/
theorem broader_meanings_spec (M : Meaning) :
    (broader_meanings M).head? = some M ∧
    (broader_meanings M).getLast? = some {} ∧
    (∀ f, f ∈ (broader_meanings M).tail ↔
      ((∃ ks ∈ BROADER_KEYSETS, _filter_keys M ks = f) ∧ f ≠ M)) ∧
    (∀ ks ∈ BROADER_KEYSETS, ks.contains "macrolanguage" = true →
      (_filter_keys M ks).language = M.macrolanguage ∧
      (_filter_keys M ks).macrolanguage = none) := by
  refine ⟨rfl, ?_, ?_, ?_⟩
  · by_cases hM : M = ({} : Meaning)
    · subst hM
      simp [broader_meanings, filter_keys_of_empty, BROADER_KEYSETS]
    · have hsplit : BROADER_KEYSETS = (BROADER_KEYSETS.dropLast) ++ [[]] := by decide
      unfold broader_meanings
      rw [hsplit, List.map_append, List.filter_append]
      simp only [List.map_cons, List.map_nil, List.filter_cons, List.filter_nil]
      rw [filter_keys_nil M]
      have : (decide (({} : Meaning) ≠ M)) = true := by
        simp only [decide_eq_true_eq]
        exact fun h => hM h.symm
      rw [this]
      simp only [if_true]
      rw [show M :: (List.filter (fun f => decide (f ≠ M)) (List.map (_filter_keys M) BROADER_KEYSETS.dropLast) ++ [{}]) =
        (M :: List.filter (fun f => decide (f ≠ M)) (List.map (_filter_keys M) BROADER_KEYSETS.dropLast)) ++ [({} : Meaning)] from rfl]
      exact List.getLast?_concat _
  · intro f
    simp only [broader_meanings, List.tail_cons, List.mem_filter, List.mem_map,
      decide_eq_true_eq]
  · intro ks hks hmac
    fin_cases hks <;>
      first
        | exact absurd hmac (by decide)
        | rcases hm : M.macrolanguage with _ | m <;>
            simp [_filter_keys, hm, List.contains]

/-- Witness for C9 at a concrete meaning with a macrolanguage. -/
theorem broader_meanings_spec_witness :
    (broader_meanings { language := some "sr", macrolanguage := some "sh" }).getLast? = some {} ∧
    (_filter_keys { language := some "sr", macrolanguage := some "sh" } ["macrolanguage"]).language = some "sh" ∧
    (_filter_keys { language := some "sr", macrolanguage := some "sh" } ["macrolanguage"]).macrolanguage = none := by
  refine ⟨(broader_meanings_spec _).2.1, ?_, ?_⟩
  · exact ((broader_meanings_spec { language := some "sr", macrolanguage := some "sh" }).2.2.2
      ["macrolanguage"] (by decide) (by decide)).1
  · exact ((broader_meanings_spec { language := some "sr", macrolanguage := some "sh" }).2.2.2
      ["macrolanguage"] (by decide) (by decide)).2

/-! ## C10: likely-value completion -/

theorem fillLoop_all_none (tbl : List (String × String)) (M : Meaning) :
    ∀ l : List Meaning, (∀ b ∈ l, tbl.lookup (meaning_to_tag b) = none) →
      fillLoop tbl M l = .error (.runtimeError
        "Couldn't fill in likely values. This represents a problem with langcodes.db.LIKELY_SUBTAGS.")
  | [], _ => rfl
  | c :: rest, h => by
    have hc := h c (List.mem_cons_self c rest)
    simp only [fillLoop, hc]
    exact fillLoop_all_none tbl M rest fun b hb => h b (List.mem_cons_of_mem c hb)

theorem fillLoop_find (tbl : List (String × String)) (M : Meaning) :
    ∀ (l : List Meaning) (b : Meaning) (entry : String),
      l.find? (fun c => (tbl.lookup (meaning_to_tag c)).isSome) = some b →
      tbl.lookup (meaning_to_tag b) = some entry →
      fillLoop tbl M l = (fun r => r.update M) <$> tag_to_meaning entry true
  | [], b, entry, hfind, _ => by simp at hfind
  | c :: rest, b, entry, hfind, hentry => by
    by_cases hc : (tbl.lookup (meaning_to_tag c)).isSome = true
    · have hpos : List.find? (fun d => (List.lookup (meaning_to_tag d) tbl).isSome) (c :: rest) =
          some c := List.find?_cons_of_pos _ hc
      rw [hpos] at hfind
      injection hfind with hb
      subst hb
      obtain ⟨e, he⟩ := Option.isSome_iff_exists.mp hc
      rw [he] at hentry
      injection hentry with h2
      subst h2
      simp only [fillLoop, he]
      cases htm : tag_to_meaning e true <;> simp [htm, Except.map, Functor.map]
    · have hneg : List.find? (fun d => (List.lookup (meaning_to_tag d) tbl).isSome) (c :: rest) =
          List.find? (fun d => (List.lookup (meaning_to_tag d) tbl).isSome) rest :=
        List.find?_cons_of_neg _ (by simpa using hc)
      rw [hneg] at hfind
      have hcn : tbl.lookup (meaning_to_tag c) = none :=
        Option.not_isSome_iff_eq_none.mp (by simpa using hc)
      simp only [fillLoop, hcn]
      exact fillLoop_find tbl M rest b entry hfind hentry

/-- C10: for every table and meaning, `fill_likely_values` walks the
broadened meanings in order: at the first broadened record whose formatted
tag has a table entry it returns that entry's meaning with M's own fields
overlaid on top, and if no broadened record (the empty record included) has
an entry it raises the fatal lookup-table error. -/
theorem fill_likely_values_characterization (tbl : List (String × String)) (M : Meaning) :
    ((∀ b ∈ broader_meanings M, tbl.lookup (meaning_to_tag b) = none) →
      fill_likely_valuesWith tbl M = .error (.runtimeError
        "Couldn't fill in likely values. This represents a problem with langcodes.db.LIKELY_SUBTAGS.")) ∧
    (∀ (b : Meaning) (entry : String),
      (broader_meanings M).find? (fun c => (tbl.lookup (meaning_to_tag c)).isSome) = some b →
      tbl.lookup (meaning_to_tag b) = some entry →
      fill_likely_valuesWith tbl M = (fun r => r.update M) <$> tag_to_meaning entry true) := by
  constructor
  · intro h
    exact fillLoop_all_none tbl M (broader_meanings M) h
  · intro b entry hfind hentry
    exact fillLoop_find tbl M (broader_meanings M) b entry hfind hentry

/-- Witness for C10: over the modelled table, `{language zh, script Hant}`
hits its own entry and is completed to `zh-Hant-TW` with its fields kept,
and over an empty table the walk ends in the fatal error. -/
theorem fill_likely_values_characterization_witness :
    fill_likely_valuesWith LIKELY_SUBTAGS { language := some "zh", script := some "Hant" } =
      .ok { language := some "zh", script := some "Hant", region := some "TW" } ∧
    fill_likely_valuesWith [] {} = .error (.runtimeError
      "Couldn't fill in likely values. This represents a problem with langcodes.db.LIKELY_SUBTAGS.") := by
  constructor
  · rw [(fill_likely_values_characterization LIKELY_SUBTAGS
      { language := some "zh", script := some "Hant" }).2
      { language := some "zh", script := some "Hant" } "zh-Hant-TW" (by decide) (by decide)]
    decide
  · exact (fill_likely_values_characterization [] {}).1 (by decide)

/-! ## Unfolding lemmas for the sequencer -/

theorem extlangCountFrom_le : ∀ (l : List String) (i : Nat), extlangCountFrom l i ≤ l.length := by
  intro l
  induction l with
  | nil => intro i; simp [extlangCountFrom]
  | cons s rest ih =>
    intro i
    simp only [extlangCountFrom, List.length_cons]
    split
    · exact Nat.succ_le_succ (ih (i + 1))
    · exact Nat.zero_le _

theorem countNonSingleton_le : ∀ l : List String, countNonSingleton l ≤ l.length := by
  intro l
  induction l with
  | nil => simp [countNonSingleton]
  | cons s rest ih =>
    simp only [countNonSingleton, List.length_cons]
    split
    · exact Nat.succ_le_succ ih
    · exact Nat.zero_le _

theorem extlangCount_pos {s : String} (h : s.length = 3) (l : List String) :
    1 ≤ extlangCount (s :: l) := by
  simp only [extlangCount, extlangCountFrom, h]
  norm_num

/-- The fuel argument of `parse_subtagsF` does not matter once it exceeds
the number of subtags. -/
theorem parse_subtagsF_irrel (fuel : Nat) :
    ∀ (fuel2 : Nat) (subtags : List String) (expect : Nat),
      subtags.length < fuel → subtags.length < fuel2 →
      parse_subtagsF fuel subtags expect = parse_subtagsF fuel2 subtags expect := by
  induction fuel with
  | zero => intro fuel2 subtags expect h; omega
  | succ f ih =>
    intro fuel2 subtags expect h h2
    cases fuel2 with
    | zero => omega
    | succ f2 =>
      cases subtags with
      | nil => simp [parse_subtagsF]
      | cons subtag rest =>
        have hrest : rest.length < f := by
          simp only [List.length_cons] at h; omega
        have hrest2 : rest.length < f2 := by
          simp only [List.length_cons] at h2; omega
        simp only [parse_subtagsF]
        by_cases h0 : subtag.length = 0 ∨ subtag.length > 8
        · simp [h0]
        · simp only [h0, if_false]
          by_cases h1 : subtag.length = 1
          · simp only [h1, if_true]
            by_cases hre : rest.isEmpty
            · simp [hre]
            · simp only [hre, if_false]
              by_cases hx : subtag = "x"
              · simp [hx]
              · have hdk : (rest.drop (countNonSingleton rest)).length < f := by
                  have := List.length_drop (countNonSingleton rest) rest
                  omega
                have hdk2 : (rest.drop (countNonSingleton rest)).length < f2 := by
                  have := List.length_drop (countNonSingleton rest) rest
                  omega
                simp [hx, ih _ _ _ hdk hdk2]
          · simp only [h1, if_false]
            by_cases h3 : subtag.length = 3 ∧ pyIsAlpha subtag = true
            · simp only [h3, if_true]
              by_cases hexp : expect ≤ EXTLANG
              · have hk1 : 1 ≤ extlangCount (subtag :: rest) := extlangCount_pos h3.1 rest
                have hdrop : ((subtag :: rest).drop (extlangCount (subtag :: rest))).length < f := by
                  have := List.length_drop (extlangCount (subtag :: rest)) (subtag :: rest)
                  simp only [List.length_cons] at this ⊢
                  omega
                have hdrop2 : ((subtag :: rest).drop (extlangCount (subtag :: rest))).length < f2 := by
                  have := List.length_drop (extlangCount (subtag :: rest)) (subtag :: rest)
                  simp only [List.length_cons] at this ⊢
                  omega
                simp [hexp, ih _ _ _ hdrop hdrop2]
              · simp [hexp]
            · simp only [h3, if_false]
              by_cases h2l : subtag.length = 2
              · by_cases ha : pyIsAlpha subtag
                · simp only [h2l, ha, if_true]
                  by_cases hlt : REGION < expect
                  · simp [hlt]
                  · simp [hlt, ih _ _ _ hrest hrest2]
                · simp [h2l, ha]
              · by_cases h3l : subtag.length = 3
                · by_cases hd : pyIsDigit subtag
                  · simp only [h2l, h3l, hd, if_false, if_true]
                    by_cases hlt : REGION < expect
                    · simp [hlt]
                    · simp [hlt, ih _ _ _ hrest hrest2]
                  · simp [h2l, h3l, hd]
                · by_cases h4l : subtag.length = 4
                  · by_cases ha : pyIsAlpha subtag
                    · simp only [h2l, h3l, h4l, ha, if_false, if_true]
                      by_cases hlt : SCRIPT < expect
                      · simp [hlt]
                      · simp [hlt, ih _ _ _ hrest hrest2]
                    · by_cases hd : pyCharIsDigit (subtag.data.head?.getD ' ') = true
                      · simp only [h2l, h3l, h4l, ha, if_false, if_true]
                        simp only [List.headD_eq_head?_getD, hd, if_true]
                        by_cases hlt : VARIANT < expect
                        · simp [hlt]
                        · simp [hlt, ih _ _ _ hrest hrest2]
                      · simp [h2l, h3l, h4l, ha, hd]
                  · simp only [h2l, h3l, h4l, if_false]
                    by_cases hlt : VARIANT < expect
                    · simp [hlt]
                    · simp [hlt, ih _ _ _ hrest hrest2]

theorem pyCharIsDigit_not_alpha {c : Char} (h : pyCharIsDigit c = true) :
    pyCharIsAlpha c = false := by
  simp only [pyCharIsDigit, Bool.and_eq_true, decide_eq_true_eq] at h
  obtain ⟨h0, h9⟩ := h
  simp only [pyCharIsAlpha, Bool.or_eq_false_iff, Bool.and_eq_false_iff,
    decide_eq_false_iff_not, not_le]
  constructor
  · left
    exact lt_of_le_of_lt h9 (by decide)
  · left
    exact lt_of_le_of_lt h9 (by decide)

theorem pyIsDigit_not_alpha {s : String} (h : pyIsDigit s = true) : pyIsAlpha s = false := by
  simp only [pyIsDigit, Bool.and_eq_true, List.all_eq_true] at h
  obtain ⟨hne, hall⟩ := h
  cases hd : s.data with
  | nil => rw [hd] at hne; simp at hne
  | cons c cs =>
    have hc : pyCharIsDigit c = true := hall c (by rw [hd]; exact List.mem_cons_self c cs)
    simp only [pyIsAlpha, hd, Bool.and_eq_false_iff]
    right
    simp only [List.all_cons, Bool.and_eq_false_iff]
    left
    exact pyCharIsDigit_not_alpha hc

/-- One-step unfolding of `parse_subtagsF` on a nonempty list, with the
let-bindings of the body inlined. -/
theorem parse_subtagsF_one (fuel : Nat) (subtag : String) (rest : List String) (expect : Nat) :
    parse_subtagsF (fuel + 1) (subtag :: rest) expect =
      (if subtag.length = 0 ∨ subtag.length > 8 then
        .error (subtag_error subtag "1-8 characters")
      else if subtag.length = 1 then
        if rest.isEmpty then
          .error (.languageTagError ("The subtag '" ++ subtag ++ "' must be followed by something"))
        else if subtag = "x" then
          .ok [(.privateUse, joinHyphen (subtag :: rest))]
        else
          (fun more => (.extension, joinHyphen (subtag :: rest.take (countNonSingleton rest))) :: more) <$>
            parse_subtagsF fuel (rest.drop (countNonSingleton rest)) EXTENSION
      else if subtag.length = 3 ∧ pyIsAlpha subtag then
        if expect ≤ EXTLANG then
          (fun more => ((subtag :: rest).take (extlangCount (subtag :: rest))).map
              (fun s => (SubtagKind.extlang, s)) ++ more) <$>
            parse_subtagsF fuel ((subtag :: rest).drop (extlangCount (subtag :: rest))) SCRIPT
        else
          .error (order_error subtag EXTLANG expect)
      else
        match
          (if subtag.length = 2 then
            if pyIsAlpha subtag then some REGION else none
          else if subtag.length = 3 then
            if pyIsDigit subtag then some REGION else none
          else if subtag.length = 4 then
            if pyIsAlpha subtag then some SCRIPT
            else if pyCharIsDigit (subtag.data.headD ' ') then some VARIANT
            else none
          else some VARIANT) with
        | none => .error (subtag_error subtag)
        | some t =>
          if t < expect then .error (order_error subtag t expect)
          else
            (fun more => (tagtypeKind t,
              if t = SCRIPT then pyTitle subtag
              else if t = REGION then pyUpper subtag
              else subtag) :: more) <$>
              parse_subtagsF fuel rest (if t = SCRIPT ∨ t = REGION then t + 1 else t)) := rfl

theorem parse_subtags_nil (expect : Nat) : parse_subtags [] expect = .ok [] := rfl

theorem parse_subtags_cons_len_err {subtag : String} (rest : List String) (expect : Nat)
    (h : subtag.length = 0 ∨ subtag.length > 8) :
    parse_subtags (subtag :: rest) expect = .error (subtag_error subtag "1-8 characters") := by
  unfold parse_subtags
  rw [parse_subtagsF_one, if_pos h]

theorem parse_subtags_cons_singleton {subtag : String} (rest : List String) (expect : Nat)
    (h : subtag.length = 1) :
    parse_subtags (subtag :: rest) expect = parse_extension (subtag :: rest) := by
  have hlen : ¬ (subtag.length = 0 ∨ subtag.length > 8) := by omega
  unfold parse_subtags parse_extension
  rw [parse_subtagsF_one, if_neg hlen, if_pos h]
  by_cases hre : rest.isEmpty
  · simp [hre]
  · simp only [hre, Bool.false_eq_true, if_false]
    by_cases hx : subtag = "x"
    · simp [hx]
    · simp only [hx, if_false]
      rw [parse_subtagsF_irrel ((subtag :: rest).length)
        ((rest.drop (countNonSingleton rest)).length + 1)
        (rest.drop (countNonSingleton rest)) EXTENSION
        (by have := List.length_drop (countNonSingleton rest) rest
            simp only [List.length_cons]; omega)
        (by omega)]
      rfl

theorem parse_subtags_cons_extlang {subtag : String} (rest : List String) (expect : Nat)
    (h3 : subtag.length = 3) (ha : pyIsAlpha subtag = true) (hexp : expect ≤ EXTLANG) :
    parse_subtags (subtag :: rest) expect = parse_extlang (subtag :: rest) := by
  have hlen : ¬ (subtag.length = 0 ∨ subtag.length > 8) := by omega
  have h1 : ¬ subtag.length = 1 := by omega
  have hk1 : 1 ≤ extlangCount (subtag :: rest) := extlangCount_pos h3 rest
  unfold parse_subtags parse_extlang
  rw [parse_subtagsF_one, if_neg hlen, if_neg h1, if_pos ⟨h3, ha⟩, if_pos hexp]
  rw [parse_subtagsF_irrel ((subtag :: rest).length)
    (((subtag :: rest).drop (extlangCount (subtag :: rest))).length + 1)
    ((subtag :: rest).drop (extlangCount (subtag :: rest))) SCRIPT
    (by have := List.length_drop (extlangCount (subtag :: rest)) (subtag :: rest)
        simp only [List.length_cons] at this ⊢; omega)
    (by omega)]
  rfl

theorem parse_subtags_cons_extlang_order {subtag : String} (rest : List String) (expect : Nat)
    (h3 : subtag.length = 3) (ha : pyIsAlpha subtag = true) (hexp : EXTLANG < expect) :
    parse_subtags (subtag :: rest) expect = .error (order_error subtag EXTLANG expect) := by
  have hlen : ¬ (subtag.length = 0 ∨ subtag.length > 8) := by omega
  have h1 : ¬ subtag.length = 1 := by omega
  have hexp2 : ¬ expect ≤ EXTLANG := by omega
  unfold parse_subtags
  rw [parse_subtagsF_one, if_neg hlen, if_neg h1, if_pos ⟨h3, ha⟩, if_neg hexp2]

theorem parse_subtags_cons_region2 {subtag : String} (rest : List String) (expect : Nat)
    (h2 : subtag.length = 2) (ha : pyIsAlpha subtag = true) :
    parse_subtags (subtag :: rest) expect =
      if REGION < expect then .error (order_error subtag REGION expect)
      else (fun more => (SubtagKind.region, pyUpper subtag) :: more) <$>
        parse_subtags rest (REGION + 1) := by
  have hlen : ¬ (subtag.length = 0 ∨ subtag.length > 8) := by omega
  have h1 : ¬ subtag.length = 1 := by omega
  have h3 : ¬ (subtag.length = 3 ∧ pyIsAlpha subtag = true) := by omega
  unfold parse_subtags
  rw [parse_subtagsF_one, if_neg hlen, if_neg h1, if_neg h3, if_pos h2, if_pos ha]
  simp only [List.length_cons, tagtypeKind, REGION, SCRIPT, EXTLANG, VARIANT]
  norm_num

theorem parse_subtags_cons_region3 {subtag : String} (rest : List String) (expect : Nat)
    (h3 : subtag.length = 3) (hd : pyIsDigit subtag = true) :
    parse_subtags (subtag :: rest) expect =
      if REGION < expect then .error (order_error subtag REGION expect)
      else (fun more => (SubtagKind.region, pyUpper subtag) :: more) <$>
        parse_subtags rest (REGION + 1) := by
  have hlen : ¬ (subtag.length = 0 ∨ subtag.length > 8) := by omega
  have h1 : ¬ subtag.length = 1 := by omega
  have h2 : ¬ subtag.length = 2 := by omega
  have ha : pyIsAlpha subtag = false := pyIsDigit_not_alpha hd
  have h3a : ¬ (subtag.length = 3 ∧ pyIsAlpha subtag = true) := by simp [ha]
  unfold parse_subtags
  rw [parse_subtagsF_one, if_neg hlen, if_neg h1, if_neg h3a, if_neg h2, if_pos h3, if_pos hd]
  simp only [List.length_cons, tagtypeKind, REGION, SCRIPT, EXTLANG, VARIANT]
  norm_num

theorem parse_subtags_cons_script {subtag : String} (rest : List String) (expect : Nat)
    (h4 : subtag.length = 4) (ha : pyIsAlpha subtag = true) :
    parse_subtags (subtag :: rest) expect =
      if SCRIPT < expect then .error (order_error subtag SCRIPT expect)
      else (fun more => (SubtagKind.script, pyTitle subtag) :: more) <$>
        parse_subtags rest (SCRIPT + 1) := by
  have hlen : ¬ (subtag.length = 0 ∨ subtag.length > 8) := by omega
  have h1 : ¬ subtag.length = 1 := by omega
  have h3 : ¬ (subtag.length = 3 ∧ pyIsAlpha subtag = true) := by omega
  have h2 : ¬ subtag.length = 2 := by omega
  have h3l : ¬ subtag.length = 3 := by omega
  unfold parse_subtags
  rw [parse_subtagsF_one, if_neg hlen, if_neg h1, if_neg h3, if_neg h2, if_neg h3l, if_pos h4,
    if_pos ha]
  simp only [List.length_cons, tagtypeKind, REGION, SCRIPT, EXTLANG, VARIANT]
  norm_num

theorem parse_subtags_cons_variant4 {subtag : String} (rest : List String) (expect : Nat)
    (h4 : subtag.length = 4) (ha : pyIsAlpha subtag = false)
    (hd : pyCharIsDigit (subtag.data.headD ' ') = true) :
    parse_subtags (subtag :: rest) expect =
      if VARIANT < expect then .error (order_error subtag VARIANT expect)
      else (fun more => (SubtagKind.variant, subtag) :: more) <$>
        parse_subtags rest VARIANT := by
  have hlen : ¬ (subtag.length = 0 ∨ subtag.length > 8) := by omega
  have h1 : ¬ subtag.length = 1 := by omega
  have h3 : ¬ (subtag.length = 3 ∧ pyIsAlpha subtag = true) := by simp [ha]
  have h2 : ¬ subtag.length = 2 := by omega
  have h3l : ¬ subtag.length = 3 := by omega
  have ha2 : ¬ pyIsAlpha subtag = true := by simp [ha]
  unfold parse_subtags
  rw [parse_subtagsF_one, if_neg hlen, if_neg h1, if_neg h3, if_neg h2, if_neg h3l, if_pos h4,
    if_neg ha2, if_pos hd]
  simp only [List.length_cons, tagtypeKind, REGION, SCRIPT, EXTLANG, VARIANT]
  norm_num

theorem parse_subtags_cons_variant58 {subtag : String} (rest : List String) (expect : Nat)
    (h5 : 5 ≤ subtag.length) (h8 : subtag.length ≤ 8) :
    parse_subtags (subtag :: rest) expect =
      if VARIANT < expect then .error (order_error subtag VARIANT expect)
      else (fun more => (SubtagKind.variant, subtag) :: more) <$>
        parse_subtags rest VARIANT := by
  have hlen : ¬ (subtag.length = 0 ∨ subtag.length > 8) := by omega
  have h1 : ¬ subtag.length = 1 := by omega
  have h3 : ¬ (subtag.length = 3 ∧ pyIsAlpha subtag = true) := by omega
  have h2 : ¬ subtag.length = 2 := by omega
  have h3l : ¬ subtag.length = 3 := by omega
  have h4l : ¬ subtag.length = 4 := by omega
  unfold parse_subtags
  rw [parse_subtagsF_one, if_neg hlen, if_neg h1, if_neg h3, if_neg h2, if_neg h3l, if_neg h4l]
  simp only [List.length_cons, tagtypeKind, REGION, SCRIPT, EXTLANG, VARIANT]
  norm_num

/-! ## C3 and C4: amended sequencer behavior -/

theorem extlangCountFrom_le_three : ∀ (l : List String) (i : Nat),
    extlangCountFrom l i + i ≤ 3 ∨ extlangCountFrom l i = 0 := by
  intro l
  induction l with
  | nil => intro i; right; rfl
  | cons s rest ih =>
    intro i
    simp only [extlangCountFrom]
    split
    · rename_i hcond
      left
      rcases ih (i + 1) with h | h
      · omega
      · omega
    · right; rfl

theorem extlangCount_le_three (l : List String) : extlangCount l ≤ 3 := by
  rcases extlangCountFrom_le_three l 0 with h | h
  · simpa using h
  · simp [extlangCount, h]

theorem extlangCountFrom_take_len : ∀ (l : List String) (i : Nat) (s : String),
    s ∈ l.take (extlangCountFrom l i) → s.length = 3 := by
  intro l
  induction l with
  | nil => intro i s h; simp at h
  | cons a rest ih =>
    intro i s h
    simp only [extlangCountFrom] at h
    split at h
    · rename_i hcond
      rw [List.take_succ_cons] at h
      rcases List.mem_cons.mp h with h | h
      · subst h; exact hcond.1
      · exact ih (i + 1) s h
    · simp at h

/-- C3 (amended): the sequencer enforces the expect cursor: a classified
subtag whose rank is below the cursor raises the ordering error built from
the subtag, its kind name, and the still-acceptable kinds; after a script or
region the cursor advances strictly past that rank, after a variant it stays
at variant rank, a singleton dispatches to extension handling with no
ordering check, and a length-3 alphabetic subtag at extlang rank dispatches
to the extlang run, which afterwards sets the cursor to script rank (it does
not stay at extlang rank).  Parsing `zh-tw-hant` fails with the ordering
error naming the script subtag `hant`, and after the three-extlang run a
fourth length-3 subtag draws the ordering error listing script and later as
the acceptable kinds. -/
theorem parse_subtags_cursor_behavior :
    (∀ (s : String) (rest : List String) (e : Nat), s.length = 4 → pyIsAlpha s = true →
      (e ≤ SCRIPT →
        parse_subtags (s :: rest) e =
          (fun more => (SubtagKind.script, pyTitle s) :: more) <$> parse_subtags rest (SCRIPT + 1)) ∧
      (SCRIPT < e → parse_subtags (s :: rest) e = .error (order_error s SCRIPT e))) ∧
    (∀ (s : String) (rest : List String) (e : Nat), s.length = 2 → pyIsAlpha s = true →
      (e ≤ REGION →
        parse_subtags (s :: rest) e =
          (fun more => (SubtagKind.region, pyUpper s) :: more) <$> parse_subtags rest (REGION + 1)) ∧
      (REGION < e → parse_subtags (s :: rest) e = .error (order_error s REGION e))) ∧
    (∀ (s : String) (rest : List String) (e : Nat), 5 ≤ s.length → s.length ≤ 8 →
      (e ≤ VARIANT →
        parse_subtags (s :: rest) e =
          (fun more => (SubtagKind.variant, s) :: more) <$> parse_subtags rest VARIANT) ∧
      (VARIANT < e → parse_subtags (s :: rest) e = .error (order_error s VARIANT e))) ∧
    (∀ (s : String) (rest : List String) (e : Nat), s.length = 3 → pyIsAlpha s = true →
      (e ≤ EXTLANG → parse_subtags (s :: rest) e = parse_extlang (s :: rest)) ∧
      (EXTLANG < e → parse_subtags (s :: rest) e = .error (order_error s EXTLANG e))) ∧
    (∀ (s : String) (rest : List String) (e : Nat), s.length = 1 →
      parse_subtags (s :: rest) e = parse_extension (s :: rest)) ∧
    (∀ subtags : List String, parse_extlang subtags =
      (fun more => (subtags.take (extlangCount subtags)).map (fun t => (SubtagKind.extlang, t)) ++ more) <$>
        parse_subtags (subtags.drop (extlangCount subtags)) SCRIPT) ∧
    parse "zh-tw-hant" = .error (.languageTagError
      "This script subtag, 'hant', is out of place. Expected variant, extension, or end of string.") ∧
    parse "zh-aaa-bbb-ccc-ddd" = .error (.languageTagError
      "This extlang subtag, 'ddd', is out of place. Expected script, region, variant, extension, or end of string.") := by
  refine ⟨?_, ?_, ?_, ?_, ?_, ?_, by decide, by decide⟩
  · intro s rest e h4 ha
    constructor
    · intro he
      rw [parse_subtags_cons_script rest e h4 ha, if_neg (by omega)]
    · intro he
      rw [parse_subtags_cons_script rest e h4 ha, if_pos he]
  · intro s rest e h2 ha
    constructor
    · intro he
      rw [parse_subtags_cons_region2 rest e h2 ha, if_neg (by omega)]
    · intro he
      rw [parse_subtags_cons_region2 rest e h2 ha, if_pos he]
  · intro s rest e h5 h8
    constructor
    · intro he
      rw [parse_subtags_cons_variant58 rest e h5 h8, if_neg (by omega)]
    · intro he
      rw [parse_subtags_cons_variant58 rest e h5 h8, if_pos he]
  · intro s rest e h3 ha
    exact ⟨parse_subtags_cons_extlang rest e h3 ha, parse_subtags_cons_extlang_order rest e h3 ha⟩
  · intro s rest e h1
    exact parse_subtags_cons_singleton rest e h1
  · intro subtags
    rfl

/-- Witness for C3 at concrete subtag lists. -/
theorem parse_subtags_cursor_behavior_witness :
    parse_subtags ["hant"] VARIANT = .error (order_error "hant" SCRIPT VARIANT) ∧
    parse_subtags ["tw"] EXTLANG =
      (fun more => (SubtagKind.region, pyUpper "tw") :: more) <$> parse_subtags [] (REGION + 1) ∧
    parse_subtags ["ddd"] SCRIPT = .error (order_error "ddd" EXTLANG SCRIPT) := by
  refine ⟨?_, ?_, ?_⟩
  · exact (parse_subtags_cursor_behavior.1 "hant" [] VARIANT (by decide) (by decide)).2 (by decide)
  · exact (parse_subtags_cursor_behavior.2.1 "tw" [] EXTLANG (by decide) (by decide)).1 (by decide)
  · exact (parse_subtags_cursor_behavior.2.2.2.1 "ddd" [] SCRIPT (by decide) (by decide)).2 (by decide)

/-- C4 (amended): a length-3 all-numeric subtag reached by the sequencer
itself is classified as a region, and the extlang run takes at most three
consecutive subtags immediately after the language; but the run tests only
that each subtag has length 3 (not that it is alphabetic), so a 3-digit
subtag immediately following an extlang is consumed as another extlang, not
as a region. -/
theorem extlang_and_numeric_region_classification :
    (∀ (s : String) (rest : List String) (e : Nat), s.length = 3 → pyIsDigit s = true → e ≤ REGION →
      parse_subtags (s :: rest) e =
        (fun more => (SubtagKind.region, pyUpper s) :: more) <$> parse_subtags rest (REGION + 1)) ∧
    (∀ l : List String, extlangCount l ≤ 3) ∧
    (∀ (l : List String) (s : String), s ∈ l.take (extlangCount l) → s.length = 3) ∧
    (∀ (t x : String) (rest : List String) (e : Nat),
      t.length = 3 → pyIsAlpha t = true → x.length = 3 → e ≤ EXTLANG →
      parse_subtags (t :: x :: rest) e =
        (fun more => (SubtagKind.extlang, t) :: (SubtagKind.extlang, x) ::
          ((rest.take (extlangCountFrom rest 2)).map (fun s => (SubtagKind.extlang, s)) ++ more)) <$>
          parse_subtags (rest.drop (extlangCountFrom rest 2)) SCRIPT) := by
  refine ⟨?_, extlangCount_le_three, ?_, ?_⟩
  · intro s rest e h3 hd he
    rw [parse_subtags_cons_region3 rest e h3 hd, if_neg (by omega)]
  · intro l s h
    exact extlangCountFrom_take_len l 0 s h
  · intro t x rest e ht ha hx he
    rw [parse_subtags_cons_extlang (x :: rest) e ht ha he]
    have hcount : extlangCount (t :: x :: rest) = extlangCountFrom rest 2 + 2 := by
      simp [extlangCount, extlangCountFrom, ht, hx]
    unfold parse_extlang
    have htake : (t :: x :: rest).take (extlangCountFrom rest 2 + 2) =
        t :: x :: rest.take (extlangCountFrom rest 2) := by
      rw [show extlangCountFrom rest 2 + 2 = (extlangCountFrom rest 2 + 1) + 1 from rfl]
      rw [List.take_succ_cons, List.take_succ_cons]
    have hdrop : (t :: x :: rest).drop (extlangCountFrom rest 2 + 2) =
        rest.drop (extlangCountFrom rest 2) := by
      rw [show extlangCountFrom rest 2 + 2 = (extlangCountFrom rest 2 + 1) + 1 from rfl]
      rw [List.drop_succ_cons, List.drop_succ_cons]
    simp only [hcount, htake, hdrop]
    simp

/-- Witness for C4 at a concrete tag: in `zh-yue-123` the digit subtag is an
extlang, while a digit subtag reached directly is a region. -/
theorem extlang_and_numeric_region_classification_witness :
    parse_subtags ["yue", "123"] EXTLANG =
      (fun more => (SubtagKind.extlang, "yue") :: (SubtagKind.extlang, "123") ::
        (([] : List String).map (fun s => (SubtagKind.extlang, s)) ++ more)) <$>
        parse_subtags [] SCRIPT ∧
    parse_subtags ["419"] EXTLANG =
      (fun more => (SubtagKind.region, pyUpper "419") :: more) <$> parse_subtags [] (REGION + 1) := by
  constructor
  · have h := extlang_and_numeric_region_classification.2.2.2 "yue" "123" [] EXTLANG
      (by decide) (by decide) (by decide) (by decide)
    simpa using h
  · exact extlang_and_numeric_region_classification.1 "419" [] EXTLANG (by decide) (by decide)
      (by decide)

/-! ## Shape of the sequencer's output -/

/-- A piece of a case-normalized tag: lower-case-fixed characters, no hyphen
and no underscore. -/
@[reducible]
def NormPiece (s : String) : Prop := ∀ c ∈ s.data, pyCharLower c = c ∧ c ≠ '-' ∧ c ≠ '_'

/-- The shape of each classified value produced by `parse_subtags` when the
input pieces are normalized: the sequencer never emits `language` or
`grandfathered`, scripts are title-cased length-4 letters, regions
upper-cased 2-letter or 3-digit codes, variants keep their piece, extension
and private-use values are hyphen-joins of pieces with the structure the
extension scan enforces. -/
def ShapeProp : SubtagKind → String → Prop
  | .language, _ => False
  | .grandfathered, _ => False
  | .extlang, v => NormPiece v ∧ v.length = 3
  | .script, v => ∃ u, NormPiece u ∧ u.length = 4 ∧ pyIsAlpha u = true ∧ v = pyTitle u
  | .region, v => ∃ u, NormPiece u ∧ v = pyUpper u ∧
      ((u.length = 2 ∧ pyIsAlpha u = true) ∨ (u.length = 3 ∧ pyIsDigit u = true))
  | .variant, v => NormPiece v ∧
      ((v.length = 4 ∧ pyIsAlpha v = false ∧ pyCharIsDigit (v.data.headD ' ') = true) ∨
       (5 ≤ v.length ∧ v.length ≤ 8))
  | .extension, v => ∃ sing ps, v = joinHyphen (sing :: ps) ∧ sing.length = 1 ∧ sing ≠ "x" ∧
      NormPiece sing ∧ (∀ p ∈ ps, p.length ≠ 1 ∧ NormPiece p)
  | .privateUse, v => ∃ ps, v = joinHyphen ("x" :: ps) ∧ ps ≠ [] ∧ ∀ p ∈ ps, NormPiece p

theorem countNonSingleton_take : ∀ (l : List String) (p : String),
    p ∈ l.take (countNonSingleton l) → p.length ≠ 1 := by
  intro l
  induction l with
  | nil => intro p h; simp at h
  | cons a rest ih =>
    intro p h
    simp only [countNonSingleton] at h
    split at h
    · rename_i hcond
      rw [List.take_succ_cons] at h
      rcases List.mem_cons.mp h with h | h
      · subst h; exact hcond
      · exact ih p h
    · simp at h

theorem parse_subtagsF_shapes (fuel : Nat) :
    ∀ (subtags : List String) (expect : Nat) (comps : List (SubtagKind × String)),
      (∀ s ∈ subtags, NormPiece s) →
      parse_subtagsF fuel subtags expect = .ok comps →
      ∀ kv ∈ comps, ShapeProp kv.1 kv.2 := by
  induction fuel with
  | zero =>
    intro subtags expect comps _ h
    simp [parse_subtagsF] at h
  | succ f ih =>
    intro subtags expect comps hnorm h
    cases subtags with
    | nil =>
      simp only [parse_subtagsF] at h
      cases h
      intro kv hkv
      simp at hkv
    | cons subtag rest =>
      have hnsub : NormPiece subtag := hnorm subtag (List.mem_cons_self _ _)
      have hnrest : ∀ s ∈ rest, NormPiece s := fun s hs => hnorm s (List.mem_cons_of_mem _ hs)
      rw [parse_subtagsF_one] at h
      by_cases h0 : subtag.length = 0 ∨ subtag.length > 8
      · rw [if_pos h0] at h; cases h
      rw [if_neg h0] at h
      by_cases h1 : subtag.length = 1
      · rw [if_pos h1] at h
        by_cases hre : rest.isEmpty
        · rw [if_pos hre] at h; cases h
        rw [if_neg hre] at h
        by_cases hx : subtag = "x"
        · rw [if_pos hx] at h
          cases h
          intro kv hkv
          rcases List.mem_singleton.mp hkv with rfl
          subst hx
          refine ⟨rest, rfl, ?_, fun p hp => hnrest p hp⟩
          intro hrest
          rw [hrest] at hre
          simp at hre
        · rw [if_neg hx] at h
          obtain ⟨comps2, hrec, hcomps⟩ := except_map_ok.mp h
          subst hcomps
          intro kv hkv
          rcases List.mem_cons.mp hkv with rfl | hkv2
          · exact ⟨subtag, rest.take (countNonSingleton rest), rfl, h1, hx, hnsub,
              fun p hp => ⟨countNonSingleton_take rest p hp,
                hnrest p (List.mem_of_mem_take hp)⟩⟩
          · exact ih _ _ _ (fun s hs => hnrest s (List.mem_of_mem_drop hs)) hrec kv hkv2
      rw [if_neg h1] at h
      by_cases h3 : subtag.length = 3 ∧ pyIsAlpha subtag = true
      · rw [if_pos h3] at h
        by_cases hexp : expect ≤ EXTLANG
        · rw [if_pos hexp] at h
          obtain ⟨comps2, hrec, hcomps⟩ := except_map_ok.mp h
          subst hcomps
          intro kv hkv
          rcases List.mem_append.mp hkv with hkv1 | hkv2
          · obtain ⟨s, hs, hskv⟩ := List.mem_map.mp hkv1
            subst hskv
            exact ⟨hnorm s (List.mem_of_mem_take hs), extlangCountFrom_take_len _ 0 s hs⟩
          · exact ih _ _ _ (fun s hs => hnorm s (List.mem_of_mem_drop hs)) hrec kv hkv2
        · rw [if_neg hexp] at h; cases h
      rw [if_neg h3] at h
      by_cases h2 : subtag.length = 2
      · by_cases ha : pyIsAlpha subtag = true
        · simp only [h2, ha, if_true, if_false] at h
          norm_num at h
          by_cases hlt : REGION < expect
          · rw [if_pos hlt] at h; cases h
          · rw [if_neg hlt] at h
            obtain ⟨comps2, hrec, hcomps⟩ := except_map_ok.mp h
            subst hcomps
            intro kv hkv
            rcases List.mem_cons.mp hkv with rfl | hkv2
            · simp only [tagtypeKind, REGION, SCRIPT, EXTLANG]
              norm_num
              exact ⟨subtag, hnsub, rfl, Or.inl ⟨h2, ha⟩⟩
            · exact ih _ _ _ hnrest hrec kv hkv2
        · simp only [h2, ha, if_true, if_false] at h
          norm_num at h
          simp at h
      · by_cases h3l : subtag.length = 3
        · by_cases hd : pyIsDigit subtag = true
          · simp only [h2, h3l, hd, if_true, if_false] at h
            norm_num at h
            by_cases hlt : REGION < expect
            · rw [if_pos hlt] at h; cases h
            · rw [if_neg hlt] at h
              obtain ⟨comps2, hrec, hcomps⟩ := except_map_ok.mp h
              subst hcomps
              intro kv hkv
              rcases List.mem_cons.mp hkv with rfl | hkv2
              · simp only [tagtypeKind, REGION, SCRIPT, EXTLANG]
                norm_num
                exact ⟨subtag, hnsub, rfl, Or.inr ⟨h3l, hd⟩⟩
              · exact ih _ _ _ hnrest hrec kv hkv2
          · simp only [h2, h3l, hd, if_true, if_false] at h
            norm_num at h
            simp at h
        · by_cases h4l : subtag.length = 4
          · by_cases ha : pyIsAlpha subtag = true
            · simp only [h2, h3l, h4l, ha, if_true, if_false] at h
              norm_num at h
              by_cases hlt : SCRIPT < expect
              · rw [if_pos hlt] at h; cases h
              · rw [if_neg hlt] at h
                obtain ⟨comps2, hrec, hcomps⟩ := except_map_ok.mp h
                subst hcomps
                intro kv hkv
                rcases List.mem_cons.mp hkv with rfl | hkv2
                · simp only [tagtypeKind, REGION, SCRIPT, EXTLANG]
                  norm_num
                  exact ⟨subtag, hnsub, h4l, ha, rfl⟩
                · exact ih _ _ _ hnrest hrec kv hkv2
            · by_cases hd : pyCharIsDigit (subtag.data.head?.getD ' ') = true
              · simp only [h2, h3l, h4l, ha, List.headD_eq_head?_getD, hd, if_true,
                  if_false] at h
                norm_num at h
                by_cases hlt : VARIANT < expect
                · rw [if_pos hlt] at h; cases h
                · rw [if_neg hlt] at h
                  obtain ⟨comps2, hrec, hcomps⟩ := except_map_ok.mp h
                  subst hcomps
                  intro kv hkv
                  rcases List.mem_cons.mp hkv with rfl | hkv2
                  · simp only [tagtypeKind, REGION, SCRIPT, EXTLANG, VARIANT]
                    norm_num
                    refine ⟨hnsub, Or.inl ⟨h4l, ?_, ?_⟩⟩
                    · simp [ha]
                    · rw [List.headD_eq_head?_getD]; exact hd
                  · exact ih _ _ _ hnrest hrec kv hkv2
              · simp only [h2, h3l, h4l, ha, List.headD_eq_head?_getD, hd, if_true,
                  if_false] at h
                norm_num at h
                exact absurd h (by simp)
          · simp only [h2, h3l, h4l, if_true, if_false] at h
            have h58 : 5 ≤ subtag.length ∧ subtag.length ≤ 8 := by omega
            by_cases hlt : VARIANT < expect
            · rw [if_pos hlt] at h; cases h
            · rw [if_neg hlt] at h
              obtain ⟨comps2, hrec, hcomps⟩ := except_map_ok.mp h
              subst hcomps
              intro kv hkv
              rcases List.mem_cons.mp hkv with rfl | hkv2
              · simp only [tagtypeKind, REGION, SCRIPT, EXTLANG, VARIANT]
                norm_num
                exact ⟨hnsub, Or.inr h58⟩
              · exact ih _ _ _ hnrest hrec kv hkv2

/-! ## Character arithmetic for the case maps -/

theorem toNat_ofNat_valid {n : Nat} (h : n < 55296) : (Char.ofNat n).toNat = n := by
  have hv : n.isValidChar := Or.inl h
  rw [Char.ofNat, dif_pos hv]
  rfl

theorem char_eq_of_toNat_eq {a b : Char} (h : a.toNat = b.toNat) : a = b := by
  have h1 : Char.ofNat a.toNat = Char.ofNat b.toNat := by rw [h]
  rwa [Char.ofNat_toNat, Char.ofNat_toNat] at h1

theorem pyCharLower_toNat (c : Char) :
    (pyCharLower c).toNat = if 65 ≤ c.toNat ∧ c.toNat ≤ 90 then c.toNat + 32 else c.toNat := by
  unfold pyCharLower
  by_cases h : 'A' ≤ c ∧ c ≤ 'Z'
  · rw [if_pos h, if_pos (by exact h)]
    have hc : c.toNat ≤ 90 := h.2
    exact toNat_ofNat_valid (by omega)
  · rw [if_neg h, if_neg (by exact fun h2 => h h2)]

theorem char_toNat_lt (c : Char) : c.toNat < 1114112 := by
  have := c.valid
  rcases this with h | ⟨_, h⟩
  · have : c.val.toNat < 55296 := h
    simp only [Char.toNat]
    omega
  · have : c.val.toNat < 1114112 := h
    simp only [Char.toNat]
    omega

theorem pyCharUpper_toNat (c : Char) :
    (pyCharUpper c).toNat = if 97 ≤ c.toNat ∧ c.toNat ≤ 122 then c.toNat - 32 else c.toNat := by
  unfold pyCharUpper
  by_cases h : 'a' ≤ c ∧ c ≤ 'z'
  · rw [if_pos h, if_pos (by exact h)]
    have hc : c.toNat ≤ 122 := h.2
    have hc2 : 97 ≤ c.toNat := h.1
    exact toNat_ofNat_valid (by omega)
  · rw [if_neg h, if_neg (by exact fun h2 => h h2)]

theorem pyCharIsAlpha_iff (c : Char) :
    pyCharIsAlpha c = true ↔
      (97 ≤ c.toNat ∧ c.toNat ≤ 122) ∨ (65 ≤ c.toNat ∧ c.toNat ≤ 90) := by
  simp only [pyCharIsAlpha, Bool.or_eq_true, Bool.and_eq_true, decide_eq_true_eq]
  exact Iff.rfl

theorem pyCharIsDigit_iff (c : Char) :
    pyCharIsDigit c = true ↔ 48 ≤ c.toNat ∧ c.toNat ≤ 57 := by
  simp only [pyCharIsDigit, Bool.and_eq_true, decide_eq_true_eq]
  exact Iff.rfl

theorem char_eq_iff_toNat (a b : Char) : a = b ↔ a.toNat = b.toNat :=
  ⟨fun h => h ▸ rfl, char_eq_of_toNat_eq⟩

theorem pyCharLower_idem (c : Char) : pyCharLower (pyCharLower c) = pyCharLower c := by
  apply char_eq_of_toNat_eq
  rw [pyCharLower_toNat, pyCharLower_toNat]
  split_ifs <;> omega

theorem pyCharLower_upper (c : Char) (h : pyCharLower c = c) :
    pyCharLower (pyCharUpper c) = c := by
  apply char_eq_of_toNat_eq
  have hfix : (pyCharLower c).toNat = c.toNat := by rw [h]
  rw [pyCharLower_toNat] at hfix
  rw [pyCharLower_toNat, pyCharUpper_toNat]
  split_ifs at hfix ⊢ <;> omega

theorem pyCharUpper_lower_upper (c : Char) :
    pyCharUpper (pyCharLower (pyCharUpper c)) = pyCharUpper c := by
  apply char_eq_of_toNat_eq
  rw [pyCharUpper_toNat, pyCharLower_toNat, pyCharUpper_toNat]
  split_ifs <;> omega

theorem pyCharLower_fixed_of_not_upper {c : Char}
    (h : ¬ (65 ≤ c.toNat ∧ c.toNat ≤ 90)) : pyCharLower c = c := by
  apply char_eq_of_toNat_eq
  rw [pyCharLower_toNat, if_neg h]

theorem pyCharIsAlpha_upper (c : Char) (ha : pyCharIsAlpha c = true) :
    pyCharIsAlpha (pyCharUpper c) = true := by
  rw [pyCharIsAlpha_iff] at ha ⊢
  rw [pyCharUpper_toNat]
  rcases ha with h | h
  · right; split_ifs <;> omega
  · right; split_ifs <;> omega

theorem pyCharIsAlpha_lower (c : Char) (ha : pyCharIsAlpha c = true) :
    pyCharIsAlpha (pyCharLower c) = true := by
  rw [pyCharIsAlpha_iff] at ha ⊢
  rw [pyCharLower_toNat]
  rcases ha with h | h
  · left; split_ifs <;> omega
  · left; split_ifs <;> omega

theorem pyCharIsDigit_lower (c : Char) :
    pyCharIsDigit (pyCharLower c) = pyCharIsDigit c := by
  rcases hb : pyCharIsDigit c with _ | _
  · rcases hb2 : pyCharIsDigit (pyCharLower c) with _ | _
    · rfl
    · rw [pyCharIsDigit_iff] at hb2
      rw [pyCharLower_toNat] at hb2
      exfalso
      revert hb2
      split_ifs with hr
      · intro hb2
        omega
      · intro hb2
        have := (pyCharIsDigit_iff c).mpr hb2
        rw [this] at hb
        cases hb
  · rw [pyCharIsDigit_iff] at hb ⊢
    rw [pyCharLower_toNat]
    split_ifs <;> omega

theorem pyCharLower_upper_char (c : Char) :
    pyCharLower (pyCharUpper c) = pyCharLower c := by
  apply char_eq_of_toNat_eq
  rw [pyCharLower_toNat, pyCharUpper_toNat, pyCharLower_toNat]
  split_ifs <;> omega

/-! ## String-level case-map facts -/

theorem pyTitleChars_map_lower : ∀ (l : List Char) (prev : Bool),
    (∀ c ∈ l, pyCharLower c = c) → (pyTitleChars l prev).map pyCharLower = l := by
  intro l
  induction l with
  | nil => intro prev h; rfl
  | cons c rest ih =>
    intro prev h
    have hc : pyCharLower c = c := h c (List.mem_cons_self _ _)
    have hrest : ∀ d ∈ rest, pyCharLower d = d := fun d hd => h d (List.mem_cons_of_mem _ hd)
    simp only [pyTitleChars, List.map_cons]
    rw [ih (pyCharIsAlpha c) hrest]
    congr 1
    by_cases ha : pyCharIsAlpha c = true
    · rw [if_pos ha]
      cases prev
      · simp only [Bool.false_eq_true, if_false]
        exact pyCharLower_upper c hc
      · simp only [if_true]
        rw [hc, hc]
    · rw [if_neg ha]
      exact hc

theorem pyLower_pyTitle {u : String} (h : ∀ c ∈ u.data, pyCharLower c = c) :
    pyLower (pyTitle u) = u := by
  cases u with
  | mk data =>
    simp only [pyLower, pyTitle]
    exact congrArg String.mk (pyTitleChars_map_lower data false h)

theorem pyLower_pyUpper {u : String} (h : ∀ c ∈ u.data, pyCharLower c = c) :
    pyLower (pyUpper u) = u := by
  cases u with
  | mk data =>
    simp only [pyLower, pyUpper, List.map_map]
    refine congrArg String.mk ?_
    rw [List.map_congr_left, List.map_id]
    intro c hc
    exact pyCharLower_upper c (h c hc)

theorem pyTitleChars_length : ∀ (l : List Char) (prev : Bool),
    (pyTitleChars l prev).length = l.length := by
  intro l
  induction l with
  | nil => intro prev; rfl
  | cons c rest ih => intro prev; simp [pyTitleChars, ih]

theorem pyTitle_length (u : String) : (pyTitle u).length = u.length := by
  cases u with
  | mk data =>
    simp only [pyTitle, String.length]
    exact pyTitleChars_length data false

theorem pyUpper_length (u : String) : (pyUpper u).length = u.length := by
  cases u with
  | mk data => simp [pyUpper, String.length]

theorem pyLower_length (u : String) : (pyLower u).length = u.length := by
  cases u with
  | mk data => simp [pyLower, String.length]

theorem pyTitleChars_alpha : ∀ (l : List Char) (prev : Bool),
    (∀ c ∈ l, pyCharIsAlpha c = true) →
    ∀ c ∈ pyTitleChars l prev, pyCharIsAlpha c = true := by
  intro l
  induction l with
  | nil => intro prev _ c hc; simp [pyTitleChars] at hc
  | cons a rest ih =>
    intro prev h c hc
    have ha : pyCharIsAlpha a = true := h a (List.mem_cons_self _ _)
    simp only [pyTitleChars] at hc
    rcases List.mem_cons.mp hc with rfl | hc2
    · rw [if_pos ha]
      cases prev
      · simpa using pyCharIsAlpha_upper a ha
      · simpa using pyCharIsAlpha_lower a ha
    · exact ih (pyCharIsAlpha a) (fun d hd => h d (List.mem_cons_of_mem _ hd)) c hc2

theorem pyIsAlpha_pyTitle {u : String} (h : pyIsAlpha u = true) :
    pyIsAlpha (pyTitle u) = true := by
  simp only [pyIsAlpha, Bool.and_eq_true, List.all_eq_true, Bool.not_eq_true'] at h ⊢
  obtain ⟨hne, hall⟩ := h
  constructor
  · cases u with
    | mk data =>
      cases data with
      | nil => simp at hne
      | cons c rest => simp [pyTitle, pyTitleChars]
  · intro c hc
    exact pyTitleChars_alpha _ false hall c hc

theorem pyIsAlpha_pyUpper {u : String} (h : pyIsAlpha u = true) :
    pyIsAlpha (pyUpper u) = true := by
  simp only [pyIsAlpha, Bool.and_eq_true, List.all_eq_true, Bool.not_eq_true'] at h ⊢
  obtain ⟨hne, hall⟩ := h
  constructor
  · cases u with
    | mk data =>
      cases data with
      | nil => simp at hne
      | cons c rest => simp [pyUpper]
  · intro c hc
    simp only [pyUpper] at hc
    obtain ⟨d, hd, hdc⟩ := List.mem_map.mp hc
    subst hdc
    exact pyCharIsAlpha_upper d (hall d hd)

theorem pyIsDigit_pyUpper {u : String} (h : pyIsDigit u = true) : pyUpper u = u := by
  simp only [pyIsDigit, Bool.and_eq_true, List.all_eq_true] at h
  obtain ⟨hne, hall⟩ := h
  cases u with
  | mk data =>
    simp only [pyUpper]
    refine congrArg String.mk ?_
    rw [List.map_congr_left, List.map_id]
    intro c hc
    have hd := (pyCharIsDigit_iff c).mp (hall c hc)
    apply char_eq_of_toNat_eq
    rw [pyCharUpper_toNat, if_neg (by omega)]
    rfl

/-! ## Split and join -/

theorem splitChars_ne_nil (sep : Char) : ∀ l : List Char, splitChars sep l ≠ [] := by
  intro l
  cases l with
  | nil => simp [splitChars]
  | cons c rest =>
    simp only [splitChars]
    split
    · simp
    · split <;> simp

theorem splitChars_cons (sep c : Char) (l : List Char) :
    splitChars sep (c :: l) =
      if c = sep then [] :: splitChars sep l
      else match splitChars sep l with
           | [] => [[c]]
           | h :: t => (c :: h) :: t := rfl

theorem splitChars_append_sep (sep : Char) : ∀ (a b : List Char),
    splitChars sep (a ++ sep :: b) = splitChars sep a ++ splitChars sep b := by
  intro a b
  induction a with
  | nil => simp [splitChars]
  | cons c rest ih =>
    rw [List.cons_append, splitChars_cons, splitChars_cons, ih]
    by_cases hc : c = sep
    · simp [hc]
    · simp only [hc, if_false]
      cases hr : splitChars sep rest with
      | nil => exact absurd hr (splitChars_ne_nil sep rest)
      | cons h0 t0 => simp [hr]

theorem splitChars_no_sep (sep : Char) : ∀ l : List Char,
    (∀ c ∈ l, c ≠ sep) → splitChars sep l = [l] := by
  intro l
  induction l with
  | nil => intro _; rfl
  | cons c rest ih =>
    intro h
    have hc : c ≠ sep := h c (List.mem_cons_self _ _)
    simp only [splitChars, hc, if_false]
    rw [ih (fun d hd => h d (List.mem_cons_of_mem _ hd))]

theorem string_data_append (a b : String) : (a ++ b).data = a.data ++ b.data := rfl

theorem splitHyphen_join_cons (x y : String) (t : List String) :
    splitHyphen (joinHyphen (x :: y :: t)) = splitHyphen x ++ splitHyphen (joinHyphen (y :: t)) := by
  have hdata : (joinHyphen (x :: y :: t)).data = x.data ++ '-' :: (joinHyphen (y :: t)).data := by
    show (x ++ "-" ++ joinHyphen (y :: t)).data = _
    rw [string_data_append, string_data_append, List.append_assoc]
    rfl
  simp only [splitHyphen, hdata, splitChars_append_sep, List.map_append]

theorem splitHyphen_single {s : String} (h : ∀ c ∈ s.data, c ≠ '-') : splitHyphen s = [s] := by
  simp only [splitHyphen, splitChars_no_sep '-' s.data h, List.map_cons, List.map_nil]

theorem splitHyphen_join_pieces : ∀ parts : List String, parts ≠ [] →
    (∀ p ∈ parts, ∀ c ∈ p.data, c ≠ '-') →
    splitHyphen (joinHyphen parts) = parts := by
  intro parts
  induction parts with
  | nil => intro h _; exact absurd rfl h
  | cons x rest ih =>
    intro _ h
    cases rest with
    | nil =>
      show splitHyphen x = [x]
      exact splitHyphen_single (h x (List.mem_cons_self _ _))
    | cons y t =>
      rw [splitHyphen_join_cons, splitHyphen_single (h x (List.mem_cons_self _ _)),
        ih (by simp) (fun p hp => h p (List.mem_cons_of_mem _ hp))]
      rfl

theorem mem_data_joinHyphen : ∀ (parts : List String) (c : Char),
    c ∈ (joinHyphen parts).data → c = '-' ∨ ∃ p ∈ parts, c ∈ p.data := by
  intro parts
  induction parts with
  | nil => intro c hc; simp [joinHyphen] at hc
  | cons x rest ih =>
    intro c hc
    cases rest with
    | nil =>
      right
      exact ⟨x, List.mem_cons_self _ _, hc⟩
    | cons y t =>
      have : (joinHyphen (x :: y :: t)).data = x.data ++ '-' :: (joinHyphen (y :: t)).data := by
        show (x ++ "-" ++ joinHyphen (y :: t)).data = _
        rw [string_data_append, string_data_append, List.append_assoc]
        rfl
      rw [this] at hc
      rcases List.mem_append.mp hc with hx | hc2
      · right; exact ⟨x, List.mem_cons_self _ _, hx⟩
      · rcases List.mem_cons.mp hc2 with rfl | hc3
        · left; rfl
        · rcases ih c hc3 with h | ⟨p, hp, hcp⟩
          · left; exact h
          · right; exact ⟨p, List.mem_cons_of_mem _ hp, hcp⟩

theorem pyLower_joinHyphen : ∀ parts : List String,
    pyLower (joinHyphen parts) = joinHyphen (parts.map pyLower) := by
  intro parts
  induction parts with
  | nil => rfl
  | cons x rest ih =>
    cases rest with
    | nil => rfl
    | cons y t =>
      show pyLower (x ++ "-" ++ joinHyphen (y :: t)) = pyLower x ++ "-" ++ joinHyphen ((y :: t).map pyLower)
      rw [← ih]
      cases x with
      | mk xdata =>
        simp only [pyLower, string_data_append]
        refine congrArg String.mk ?_
        simp only [List.map_append]
        rfl

theorem normalize_eq_pyLower {s : String} (h : ∀ c ∈ s.data, c ≠ '_') :
    normalize_characters s = pyLower s := by
  cases s with
  | mk data =>
    simp only [normalize_characters, pyLower]
    refine congrArg String.mk ?_
    apply List.map_congr_left
    intro c hc
    have hlow : pyCharLower c ≠ '_' := by
      intro hbad
      have h1 : (pyCharLower c).toNat = 95 := by rw [hbad]; rfl
      rw [pyCharLower_toNat] at h1
      have hcu : c ≠ '_' := h c hc
      have hc95 : c.toNat ≠ 95 := by
        intro hbad2
        exact hcu (char_eq_of_toNat_eq (by rw [hbad2]; rfl))
      revert h1
      split_ifs <;> omega
    rw [if_neg hlow]

/-! ## Pieces of a normalized tag -/

theorem splitChars_chars (sep : Char) : ∀ (l : List Char) (p : List Char),
    p ∈ splitChars sep l → ∀ c ∈ p, c ∈ l ∧ c ≠ sep := by
  intro l
  induction l with
  | nil =>
    intro p hp c hc
    simp only [splitChars, List.mem_singleton] at hp
    subst hp
    simp at hc
  | cons a rest ih =>
    intro p hp c hc
    rw [splitChars_cons] at hp
    by_cases ha : a = sep
    · rw [if_pos ha] at hp
      rcases List.mem_cons.mp hp with rfl | hp2
      · simp at hc
      · obtain ⟨hcl, hcs⟩ := ih p hp2 c hc
        exact ⟨List.mem_cons_of_mem _ hcl, hcs⟩
    · rw [if_neg ha] at hp
      cases hr : splitChars sep rest with
      | nil => exact absurd hr (splitChars_ne_nil sep rest)
      | cons h0 t0 =>
        rw [hr] at hp
        rcases List.mem_cons.mp hp with rfl | hp2
        · rcases List.mem_cons.mp hc with rfl | hc2
          · exact ⟨List.mem_cons_self _ _, ha⟩
          · obtain ⟨hcl, hcs⟩ := ih h0 (hr ▸ List.mem_cons_self _ _) c hc2
            exact ⟨List.mem_cons_of_mem _ hcl, hcs⟩
        · obtain ⟨hcl, hcs⟩ := ih p (hr ▸ List.mem_cons_of_mem _ hp2) c hc
          exact ⟨List.mem_cons_of_mem _ hcl, hcs⟩

theorem normalize_characters_chars (tag : String) :
    ∀ c ∈ (normalize_characters tag).data, pyCharLower c = c ∧ c ≠ '_' := by
  intro c hc
  simp only [normalize_characters, List.mem_map] at hc
  obtain ⟨d, _, hdc⟩ := hc
  by_cases hu : pyCharLower d = '_'
  · rw [if_pos hu] at hdc
    subst hdc
    constructor
    · apply pyCharLower_fixed_of_not_upper
      intro hcon
      have : ('-' : Char).toNat = 45 := rfl
      omega
    · intro hbad
      have h1 : ('-' : Char).toNat = 45 := rfl
      have h2 : ('_' : Char).toNat = 95 := rfl
      have := congrArg Char.toNat hbad
      omega
  · rw [if_neg hu] at hdc
    subst hdc
    exact ⟨pyCharLower_idem d, hu⟩

theorem splitHyphen_normalized (tag : String) :
    ∀ s ∈ splitHyphen (normalize_characters tag), NormPiece s := by
  intro s hs
  simp only [splitHyphen, List.mem_map] at hs
  obtain ⟨p, hp, hps⟩ := hs
  subst hps
  intro c hc
  obtain ⟨hcin, hcsep⟩ := splitChars_chars '-' _ p hp c hc
  obtain ⟨hlow, hund⟩ := normalize_characters_chars tag c hcin
  exact ⟨hlow, hcsep, hund⟩

/-! ## Table lookup case analyses and the replacement sub-meanings -/

theorem NL_lookup_cases {k v : String} (h : NORMALIZED_LANGUAGES.lookup k = some v) :
    v = "sr-latn" ∨ v = "ase" ∨ v = "cmn" := by
  simp only [NORMALIZED_LANGUAGES, List.lookup] at h
  cases hbe1 : (k == "sh") with
  | true => rw [hbe1] at h; exact Or.inl (Option.some.inj h).symm
  | false =>
    rw [hbe1] at h
    cases hbe2 : (k == "sgn-us") with
    | true => rw [hbe2] at h; exact Or.inr (Or.inl (Option.some.inj h).symm)
    | false =>
      rw [hbe2] at h
      cases hbe3 : (k == "zh-cmn") with
      | true => rw [hbe3] at h; exact Or.inr (Or.inr (Option.some.inj h).symm)
      | false => rw [hbe3] at h; cases h

theorem NR_lookup_cases {k v : String} (h : NORMALIZED_REGIONS.lookup k = some v) :
    v = "GB" ∨ v = "EU" := by
  simp only [NORMALIZED_REGIONS, List.lookup] at h
  cases hbe1 : (k == "UK") with
  | true => rw [hbe1] at h; exact Or.inl (Option.some.inj h).symm
  | false =>
    rw [hbe1] at h
    cases hbe2 : (k == "QU") with
    | true => rw [hbe2] at h; exact Or.inr (Option.some.inj h).symm
    | false => rw [hbe2] at h; cases h

theorem NM_lookup_cases {k v : String} (h : NORMALIZED_MACROLANGUAGES.lookup k = some v) :
    v = "zh" := by
  simp only [NORMALIZED_MACROLANGUAGES, List.lookup] at h
  cases hbe1 : (k == "cmn") with
  | true => rw [hbe1] at h; exact (Option.some.inj h).symm
  | false => rw [hbe1] at h; cases h

theorem sub_srlatn : tag_to_meaningF 3 "sr-latn" true =
    .ok { language := some "sr", macrolanguage := some "sh", script := some "Latn" } := by
  decide

theorem sub_ase : tag_to_meaningF 3 "ase" true = .ok { language := some "ase" } := by
  decide

theorem sub_cmn : tag_to_meaningF 3 "cmn" true =
    .ok { language := some "cmn", macrolanguage := some "zh" } := by
  decide

/-! ## The invariant carried by normalized meanings -/

/-- The shape of a language value that survives the normalizing builder:
a normalized hyphen-free piece of length at least 2, not the undetermined
sentinel, and not itself a replacement-table key. -/
def LangGood (l : String) : Prop :=
  NormPiece l ∧ 2 ≤ l.length ∧ l ≠ "und" ∧ NORMALIZED_LANGUAGES.lookup l = none

/-- Field invariant of a meaning built by the normalizing builder from a
standard (non-private, non-grandfathered) tag. -/
def MInv (M : Meaning) : Prop :=
  (M.language = none ∨ ∃ l, M.language = some l ∧ LangGood l) ∧
  (M.script = none ∨ ∃ v, M.script = some v ∧ ShapeProp .script v) ∧
  (M.region = none ∨ ∃ v, M.region = some v ∧ ShapeProp .region v ∧
    NORMALIZED_REGIONS.lookup v = none) ∧
  (M.variant = none ∨ ∃ vs, M.variant = some vs ∧ vs.Nonempty ∧
    ∀ v ∈ vs, ShapeProp .variant v) ∧
  (M.extension = none ∨ ∃ es, M.extension = some es ∧ es.Nonempty ∧
    ∀ e ∈ es, ShapeProp .extension e) ∧
  (M.privateUse = none ∨ ∃ p, M.privateUse = some p ∧ ShapeProp .privateUse p)

theorem MInv_empty : MInv {} := by
  refine ⟨Or.inl rfl, Or.inl rfl, Or.inl rfl, Or.inl rfl, Or.inl rfl, Or.inl rfl⟩

theorem LangGood_sr : LangGood "sr" := ⟨by decide, by decide, by decide, by decide⟩

theorem LangGood_ase : LangGood "ase" := ⟨by decide, by decide, by decide, by decide⟩

theorem LangGood_cmn : LangGood "cmn" := ⟨by decide, by decide, by decide, by decide⟩

theorem ScriptShape_Latn : ShapeProp .script "Latn" :=
  ⟨"latn", by decide, by decide, by decide, by decide⟩

/-- The three replacement sub-meanings preserve the invariant when merged
into an invariant-satisfying accumulator with `update`. -/
theorem MInv_update_sub {m sub : Meaning} (hm : MInv m)
    (hsub : sub = { language := some "sr", macrolanguage := some "sh", script := some "Latn" } ∨
            sub = { language := some "ase" } ∨
            sub = { language := some "cmn", macrolanguage := some "zh" }) :
    MInv (m.update sub) := by
  obtain ⟨h1, h2, h3, h4, h5, h6⟩ := hm
  rcases hsub with rfl | rfl | rfl
  · exact ⟨Or.inr ⟨"sr", rfl, LangGood_sr⟩, Or.inr ⟨"Latn", rfl, ScriptShape_Latn⟩,
      h3, h4, h5, h6⟩
  · exact ⟨Or.inr ⟨"ase", rfl, LangGood_ase⟩, h2, h3, h4, h5, h6⟩
  · exact ⟨Or.inr ⟨"cmn", rfl, LangGood_cmn⟩, h2, h3, h4, h5, h6⟩

/-! ## One-step equations for the builder loop -/

theorem tagFold_nil (rec : String → Bool → Except Err Meaning) (n : Bool) (m : Meaning) :
    tagFoldWith rec n m [] = .ok m := rfl

theorem tagFold_cons_script (rec : String → Bool → Except Err Meaning) (n : Bool) (m : Meaning)
    (value : String) (comps : List (SubtagKind × String)) :
    tagFoldWith rec n m ((SubtagKind.script, value) :: comps) =
      tagFoldWith rec n { m with script := some value } comps := by
  simp [tagFoldWith, Meaning.setScalar]

theorem tagFold_cons_private (rec : String → Bool → Except Err Meaning) (n : Bool) (m : Meaning)
    (value : String) (comps : List (SubtagKind × String)) :
    tagFoldWith rec n m ((SubtagKind.privateUse, value) :: comps) =
      tagFoldWith rec n { m with privateUse := some value } comps := by
  simp [tagFoldWith, Meaning.setScalar]

theorem tagFold_cons_gf (rec : String → Bool → Except Err Meaning) (n : Bool) (m : Meaning)
    (value : String) (comps : List (SubtagKind × String)) :
    tagFoldWith rec n m ((SubtagKind.grandfathered, value) :: comps) =
      tagFoldWith rec n { m with grandfathered := some value } comps := by
  simp [tagFoldWith, Meaning.setScalar]

theorem tagFold_cons_variant (rec : String → Bool → Except Err Meaning) (n : Bool) (m : Meaning)
    (value : String) (comps : List (SubtagKind × String)) :
    tagFoldWith rec n m ((SubtagKind.variant, value) :: comps) =
      tagFoldWith rec n (m.addSet .variant value) comps := by
  simp [tagFoldWith]

theorem tagFold_cons_extension (rec : String → Bool → Except Err Meaning) (n : Bool) (m : Meaning)
    (value : String) (comps : List (SubtagKind × String)) :
    tagFoldWith rec n m ((SubtagKind.extension, value) :: comps) =
      tagFoldWith rec n (m.addSet .extension value) comps := by
  simp [tagFoldWith]

theorem tagFold_cons_extlang_true (rec : String → Bool → Except Err Meaning) (m : Meaning)
    (value : String) (comps : List (SubtagKind × String)) :
    tagFoldWith rec true m ((SubtagKind.extlang, value) :: comps) =
      (match m.language with
      | none => .error (.keyError "language")
      | some l =>
        if l = "" then tagFoldWith rec true (m.addSet .extlang value) comps
        else
          match NORMALIZED_LANGUAGES.lookup (l ++ "-" ++ value) with
          | some rep =>
            (match rec rep true with
            | .ok sub => tagFoldWith rec true (m.update sub) comps
            | .error e => .error e)
          | none => tagFoldWith rec true (m.addSet .extlang value) comps) := by
  simp [tagFoldWith]

theorem tagFold_cons_language (rec : String → Bool → Except Err Meaning) (n : Bool) (m : Meaning)
    (value : String) (comps : List (SubtagKind × String)) :
    tagFoldWith rec n m ((SubtagKind.language, value) :: comps) =
      (if value = "und" then tagFoldWith rec n m comps
      else
        match (if n then NORMALIZED_LANGUAGES.lookup value else none) with
        | some rep =>
          (match rec rep n with
          | .ok sub => tagFoldWith rec n (m.update sub) comps
          | .error e => .error e)
        | none =>
          tagFoldWith rec n
            (match MACROLANGUAGES.lookup value with
            | some mac => { m with language := some value, macrolanguage := some mac }
            | none => { m with language := some value }) comps) := by
  cases n <;> simp [tagFoldWith]

theorem tagFold_cons_region (rec : String → Bool → Except Err Meaning) (n : Bool) (m : Meaning)
    (value : String) (comps : List (SubtagKind × String)) :
    tagFoldWith rec n m ((SubtagKind.region, value) :: comps) =
      (match (if n then NORMALIZED_REGIONS.lookup value else none) with
      | some rep => tagFoldWith rec n { m with region := some rep } comps
      | none => tagFoldWith rec n { m with region := some value } comps) := by
  cases n <;> simp [tagFoldWith]

theorem MInv_addSet_extlang {m : Meaning} (hm : MInv m) (v : String) :
    MInv (m.addSet .extlang v) := hm

theorem MInv_addSet_variant {m : Meaning} (hm : MInv m) {v : String}
    (hv : ShapeProp .variant v) : MInv (m.addSet .variant v) := by
  obtain ⟨h1, h2, h3, h4, h5, h6⟩ := hm
  refine ⟨h1, h2, h3, ?_, h5, h6⟩
  right
  refine ⟨insert v ((m.variant).getD ∅), rfl, ⟨v, Finset.mem_insert_self v _⟩, ?_⟩
  intro w hw
  rcases Finset.mem_insert.mp hw with rfl | hw2
  · exact hv
  · rcases h4 with h4 | ⟨vs, hvs, _, hall⟩
    · rw [h4] at hw2; simp at hw2
    · rw [hvs] at hw2; exact hall w hw2

theorem MInv_addSet_extension {m : Meaning} (hm : MInv m) {v : String}
    (hv : ShapeProp .extension v) : MInv (m.addSet .extension v) := by
  obtain ⟨h1, h2, h3, h4, h5, h6⟩ := hm
  refine ⟨h1, h2, h3, h4, ?_, h6⟩
  right
  refine ⟨insert v ((m.extension).getD ∅), rfl, ⟨v, Finset.mem_insert_self v _⟩, ?_⟩
  intro w hw
  rcases Finset.mem_insert.mp hw with rfl | hw2
  · exact hv
  · rcases h5 with h5 | ⟨es, hes, _, hall⟩
    · rw [h5] at hw2; simp at hw2
    · rw [hes] at hw2; exact hall w hw2

theorem RegionShape_GB : ShapeProp .region "GB" ∧ NORMALIZED_REGIONS.lookup "GB" = none :=
  ⟨⟨"gb", by decide, by decide, Or.inl ⟨by decide, by decide⟩⟩, by decide⟩

theorem RegionShape_EU : ShapeProp .region "EU" ∧ NORMALIZED_REGIONS.lookup "EU" = none :=
  ⟨⟨"eu", by decide, by decide, Or.inl ⟨by decide, by decide⟩⟩, by decide⟩

/-- Folding shape-correct components with the normalizing builder preserves
the meaning invariant. -/
theorem tagFold_inv : ∀ (comps : List (SubtagKind × String)) (m M : Meaning),
    (∀ kv ∈ comps, ShapeProp kv.1 kv.2 ∨
      (kv.1 = SubtagKind.language ∧ NormPiece kv.2 ∧ 2 ≤ kv.2.length)) →
    MInv m →
    tagFoldWith (tag_to_meaningF 3) true m comps = .ok M →
    MInv M := by
  intro comps
  induction comps with
  | nil =>
    intro m M _ hm h
    rw [tagFold_nil] at h
    cases h
    exact hm
  | cons kv comps ih =>
    intro m M hshape hm h
    obtain ⟨typ, value⟩ := kv
    have hkv := hshape (typ, value) (List.mem_cons_self _ _)
    have hrest := fun kv2 hk => hshape kv2 (List.mem_cons_of_mem _ hk)
    cases typ with
    | language =>
      have hlang : NormPiece value ∧ 2 ≤ value.length := by
        rcases hkv with hfalse | ⟨_, h⟩
        · exact absurd hfalse (by simp [ShapeProp])
        · exact h
      rw [tagFold_cons_language] at h
      by_cases hund : value = "und"
      · rw [if_pos hund] at h
        exact ih m M hrest hm h
      rw [if_neg hund, if_pos rfl] at h
      cases hlk : NORMALIZED_LANGUAGES.lookup value with
      | some rep =>
        rcases NL_lookup_cases hlk with rfl | rfl | rfl
        · simp only [hlk, sub_srlatn] at h
          refine ih _ M hrest ?_ h
          exact MInv_update_sub hm (Or.inl rfl)
        · simp only [hlk, sub_ase] at h
          refine ih _ M hrest ?_ h
          exact MInv_update_sub hm (Or.inr (Or.inl rfl))
        · simp only [hlk, sub_cmn] at h
          refine ih _ M hrest ?_ h
          exact MInv_update_sub hm (Or.inr (Or.inr rfl))
      | none =>
        simp only [hlk] at h
        have hgood : LangGood value := ⟨hlang.1, hlang.2, hund, hlk⟩
        obtain ⟨h1, h2, h3, h4, h5, h6⟩ := hm
        cases hmac : MACROLANGUAGES.lookup value with
        | some mac =>
          simp only [hmac] at h
          refine ih _ M hrest ?_ h
          exact ⟨Or.inr ⟨value, rfl, hgood⟩, h2, h3, h4, h5, h6⟩
        | none =>
          simp only [hmac] at h
          refine ih _ M hrest ?_ h
          exact ⟨Or.inr ⟨value, rfl, hgood⟩, h2, h3, h4, h5, h6⟩
    | extlang =>
      rw [tagFold_cons_extlang_true] at h
      cases hml : m.language with
      | none =>
        simp only [hml] at h
        exact Except.noConfusion h
      | some l =>
        simp only [hml] at h
        by_cases hl : l = ""
        · rw [if_pos hl] at h
          refine ih _ M hrest ?_ h
          exact MInv_addSet_extlang hm value
        rw [if_neg hl] at h
        cases hlk : NORMALIZED_LANGUAGES.lookup (l ++ "-" ++ value) with
        | some rep =>
          rcases NL_lookup_cases hlk with rfl | rfl | rfl
          · simp only [hlk, sub_srlatn] at h
            refine ih _ M hrest ?_ h
            exact MInv_update_sub hm (Or.inl rfl)
          · simp only [hlk, sub_ase] at h
            refine ih _ M hrest ?_ h
            exact MInv_update_sub hm (Or.inr (Or.inl rfl))
          · simp only [hlk, sub_cmn] at h
            refine ih _ M hrest ?_ h
            exact MInv_update_sub hm (Or.inr (Or.inr rfl))
        | none =>
          simp only [hlk] at h
          refine ih _ M hrest ?_ h
          exact MInv_addSet_extlang hm value
    | script =>
      have hs : ShapeProp .script value := by
        rcases hkv with hsp | ⟨hbad, _⟩
        · exact hsp
        · cases hbad
      rw [tagFold_cons_script] at h
      refine ih _ M hrest ?_ h
      obtain ⟨h1, h2, h3, h4, h5, h6⟩ := hm
      exact ⟨h1, Or.inr ⟨value, rfl, hs⟩, h3, h4, h5, h6⟩
    | region =>
      have hs : ShapeProp .region value := by
        rcases hkv with hsp | ⟨hbad, _⟩
        · exact hsp
        · cases hbad
      rw [tagFold_cons_region] at h
      obtain ⟨h1, h2, h3, h4, h5, h6⟩ := hm
      cases hlk : NORMALIZED_REGIONS.lookup value with
      | some rep =>
        rcases NR_lookup_cases hlk with rfl | rfl
        · simp only [hlk, if_pos rfl] at h
          refine ih _ M hrest ?_ h
          exact ⟨h1, h2, Or.inr ⟨"GB", rfl, RegionShape_GB.1, RegionShape_GB.2⟩, h4, h5, h6⟩
        · simp only [hlk, if_pos rfl] at h
          refine ih _ M hrest ?_ h
          exact ⟨h1, h2, Or.inr ⟨"EU", rfl, RegionShape_EU.1, RegionShape_EU.2⟩, h4, h5, h6⟩
      | none =>
        simp only [hlk, if_pos rfl] at h
        refine ih _ M hrest ?_ h
        exact ⟨h1, h2, Or.inr ⟨value, rfl, hs, hlk⟩, h4, h5, h6⟩
    | variant =>
      have hs : ShapeProp .variant value := by
        rcases hkv with hsp | ⟨hbad, _⟩
        · exact hsp
        · cases hbad
      rw [tagFold_cons_variant] at h
      exact ih _ M hrest (MInv_addSet_variant hm hs) h
    | extension =>
      have hs : ShapeProp .extension value := by
        rcases hkv with hsp | ⟨hbad, _⟩
        · exact hsp
        · cases hbad
      rw [tagFold_cons_extension] at h
      exact ih _ M hrest (MInv_addSet_extension hm hs) h
    | privateUse =>
      have hs : ShapeProp .privateUse value := by
        rcases hkv with hsp | ⟨hbad, _⟩
        · exact hsp
        · cases hbad
      rw [tagFold_cons_private] at h
      refine ih _ M hrest ?_ h
      obtain ⟨h1, h2, h3, h4, h5, h6⟩ := hm
      exact ⟨h1, h2, h3, h4, h5, Or.inr ⟨value, rfl, hs⟩⟩
    | grandfathered =>
      rcases hkv with hfalse | ⟨hbad, _⟩
      · exact absurd hfalse (by simp [ShapeProp])
      · cases hbad

/-! ## Helpers for the serialization round trip -/

theorem pyLower_fixed {u : String} (h : ∀ c ∈ u.data, pyCharLower c = c) :
    pyLower u = u := by
  cases u with
  | mk data =>
    simp only [pyLower]
    refine congrArg String.mk ?_
    rw [List.map_congr_left h]
    simp

theorem mem_pyUpper {u : String} {c : Char} (h : c ∈ (pyUpper u).data) :
    ∃ d ∈ u.data, c = pyCharUpper d := by
  simp only [pyUpper, List.mem_map] at h
  obtain ⟨d, hd, hdc⟩ := h
  exact ⟨d, hd, hdc.symm⟩

theorem pyTitleChars_mem : ∀ (l : List Char) (prev : Bool) (c : Char),
    c ∈ pyTitleChars l prev → ∃ d ∈ l, c = pyCharUpper d ∨ c = pyCharLower d ∨ c = d := by
  intro l
  induction l with
  | nil => intro prev c hc; simp [pyTitleChars] at hc
  | cons a rest ih =>
    intro prev c hc
    simp only [pyTitleChars, List.mem_cons] at hc
    rcases hc with rfl | hc2
    · refine ⟨a, List.mem_cons_self _ _, ?_⟩
      split_ifs <;> simp
    · obtain ⟨d, hd, hor⟩ := ih _ c hc2
      exact ⟨d, List.mem_cons_of_mem _ hd, hor⟩

theorem mem_pyTitle {u : String} {c : Char} (h : c ∈ (pyTitle u).data) :
    ∃ d ∈ u.data, c = pyCharUpper d ∨ c = pyCharLower d ∨ c = d := by
  exact pyTitleChars_mem u.data false c h

theorem pyCharUpper_ne_underscore {d : Char} (h : d ≠ '_') : pyCharUpper d ≠ '_' := by
  intro hbad
  have h1 := congrArg Char.toNat hbad
  rw [pyCharUpper_toNat] at h1
  have h2 : ('_' : Char).toNat = 95 := rfl
  have h3 : d.toNat ≠ 95 := by
    intro hb
    exact h (char_eq_of_toNat_eq (by rw [hb]; rfl))
  rw [h2] at h1
  revert h1
  split_ifs <;> omega

theorem pyCharLower_ne_underscore {d : Char} (h : d ≠ '_') : pyCharLower d ≠ '_' := by
  intro hbad
  have h1 := congrArg Char.toNat hbad
  rw [pyCharLower_toNat] at h1
  have h2 : ('_' : Char).toNat = 95 := rfl
  have h3 : d.toNat ≠ 95 := by
    intro hb
    exact h (char_eq_of_toNat_eq (by rw [hb]; rfl))
  rw [h2] at h1
  revert h1
  split_ifs <;> omega

theorem lookup_none : ∀ (tbl : List (String × String)) (k : String),
    (∀ p ∈ tbl, ¬ k = p.1) → tbl.lookup k = none := by
  intro tbl k
  induction tbl with
  | nil => intro _; rfl
  | cons a t ih =>
    intro h
    have ha : ¬ k = a.1 := h a (List.mem_cons_self _ _)
    obtain ⟨k1, v1⟩ := a
    simp only [List.lookup]
    rw [show (k == k1) = false from beq_eq_false_iff_ne.mpr ha]
    exact ih (fun p hp => h p (List.mem_cons_of_mem _ hp))

theorem mk_xdash_ne (l' : List Char) (t : String) (h : t.data.head? ≠ some 'x') :
    ¬ String.mk ('x' :: '-' :: l') = t := by
  intro he
  apply h
  rw [← he]
  rfl

theorem splitChars_structure (sep : Char) : ∀ (l : List Char) (p : List Char)
    (t : List (List Char)), splitChars sep l = p :: t →
    (t = [] ∧ l = p) ∨ ∃ l', l = p ++ sep :: l' ∧ splitChars sep l' = t := by
  intro l
  induction l with
  | nil =>
    intro p t h
    simp only [splitChars] at h
    cases h
    exact Or.inl ⟨rfl, rfl⟩
  | cons c rest ih =>
    intro p t h
    rw [splitChars_cons] at h
    by_cases hc : c = sep
    · rw [if_pos hc] at h
      cases h
      subst hc
      exact Or.inr ⟨rest, rfl, rfl⟩
    · rw [if_neg hc] at h
      cases hr : splitChars sep rest with
      | nil => exact absurd hr (splitChars_ne_nil sep rest)
      | cons h0 t0 =>
        simp only [hr] at h
        rw [List.cons.injEq] at h
        obtain ⟨hp, ht⟩ := h
        subst hp
        subst ht
        rcases ih h0 t0 hr with ⟨rfl, rfl⟩ | ⟨l', rfl, hl'⟩
        · exact Or.inl ⟨rfl, rfl⟩
        · exact Or.inr ⟨l', by simp, hl'⟩

theorem splitHyphen_xdash {s : String} {r0 : String} {rt : List String}
    (h : splitHyphen s = "x" :: r0 :: rt) : ∃ l', s.data = 'x' :: '-' :: l' := by
  simp only [splitHyphen] at h
  cases hsc : splitChars '-' s.data with
  | nil => exact absurd hsc (splitChars_ne_nil '-' s.data)
  | cons p t =>
    rw [hsc] at h
    simp only [List.map_cons, List.cons.injEq] at h
    obtain ⟨hp, ht⟩ := h
    have hpx : p = ['x'] := by
      have := congrArg String.data hp
      exact this
    subst hpx
    rcases splitChars_structure '-' s.data ['x'] t hsc with ⟨ht0, hl⟩ | ⟨l', hl, _⟩
    · subst ht0
      simp at ht
    · exact ⟨l', hl⟩

theorem mem_insertSorted : ∀ (l : List String) (a v : String),
    v ∈ insertSorted a l ↔ v = a ∨ v ∈ l := by
  intro l
  induction l with
  | nil => intro a v; simp [insertSorted]
  | cons b t ih =>
    intro a v
    simp only [insertSorted]
    split_ifs
    · simp
    · rw [List.mem_cons, ih, List.mem_cons]
      tauto

theorem mem_foldr_insertSorted (m : Multiset String) (v : String) :
    v ∈ Multiset.foldr insertSorted [] m ↔ v ∈ m := by
  induction m using Multiset.induction_on with
  | empty => simp
  | cons a t ih => rw [Multiset.foldr_cons, mem_insertSorted, ih, Multiset.mem_cons]

theorem mem_sortedStrings {s : Finset String} {v : String} :
    v ∈ sortedStrings s ↔ v ∈ s := by
  rw [sortedStrings, mem_foldr_insertSorted]
  exact Finset.mem_val

theorem sortedStrings_toFinset (s : Finset String) : (sortedStrings s).toFinset = s := by
  ext v
  rw [List.mem_toFinset, mem_sortedStrings]

theorem sortedStrings_ne_nil {s : Finset String} (h : s.Nonempty) : sortedStrings s ≠ [] := by
  obtain ⟨v, hv⟩ := h
  intro hbad
  have := mem_sortedStrings.mpr hv
  rw [hbad] at this
  simp at this

theorem foldl_addToSet : ∀ (L : List String) (fs : Finset String),
    L.foldl addToSet (some fs) = some (fs ∪ L.toFinset) := by
  intro L
  induction L with
  | nil => intro fs; simp
  | cons a t ih =>
    intro fs
    rw [List.foldl_cons, show addToSet (some fs) a = some (insert a fs) from rfl, ih]
    congr 1
    ext v
    simp only [Finset.mem_union, Finset.mem_insert, List.toFinset_cons, List.mem_toFinset]
    tauto

theorem foldl_addToSet_none (a : String) (t : List String) :
    ((a :: t).foldl addToSet none) = some ((a :: t).toFinset) := by
  rw [List.foldl_cons, show addToSet none a = some (insert a ∅) from rfl, foldl_addToSet]
  congr 1
  ext v
  simp

/-! ## Re-parsing the serialized pieces -/

theorem parse_priv (psx : List String) (h : psx ≠ []) (e : Nat) :
    parse_subtags ("x" :: psx) e = .ok [(.privateUse, joinHyphen ("x" :: psx))] := by
  rw [parse_subtags_cons_singleton psx e (by decide)]
  cases psx with
  | nil => exact absurd rfl h
  | cons p pt => simp [parse_extension]

theorem countNonSingleton_append {ps rest : List String}
    (hps : ∀ p ∈ ps, p.length ≠ 1)
    (hrest : rest = [] ∨ ∃ h0 t0, rest = h0 :: t0 ∧ h0.length = 1) :
    countNonSingleton (ps ++ rest) = ps.length := by
  induction ps with
  | nil =>
    rcases hrest with rfl | ⟨h0, t0, rfl, h1⟩
    · rfl
    · simp [countNonSingleton, h1]
  | cons p pt ih =>
    have hp : p.length ≠ 1 := hps p (List.mem_cons_self _ _)
    have step : countNonSingleton ((p :: pt) ++ rest) =
        countNonSingleton (pt ++ rest) + 1 := by
      show (if p.length ≠ 1 then countNonSingleton (pt ++ rest) + 1 else 0) = _
      rw [if_pos hp]
    rw [step, ih (fun q hq => hps q (List.mem_cons_of_mem _ hq))]
    rfl

theorem parse_ext_block_step {sing : String} (ps : List String) (rest : List String) (e : Nat)
    (h1 : sing.length = 1) (hx : sing ≠ "x")
    (hps : ∀ p ∈ ps, p.length ≠ 1)
    (hrest : rest = [] ∨ ∃ h0 t0, rest = h0 :: t0 ∧ h0.length = 1)
    (hne : ps ++ rest ≠ []) :
    parse_subtags (sing :: (ps ++ rest)) e =
      (fun more => (SubtagKind.extension, joinHyphen (sing :: ps)) :: more) <$>
        parse_subtags rest EXTENSION := by
  rw [parse_subtags_cons_singleton _ e h1]
  have hie : (ps ++ rest).isEmpty = false := by
    cases hpr : ps ++ rest with
    | nil => exact absurd hpr hne
    | cons a t => rfl
  show (if (ps ++ rest).isEmpty then _ else if sing = "x" then _ else _) = _
  rw [hie, if_neg hx]
  simp only [Bool.false_eq_true, if_false]
  rw [countNonSingleton_append hps hrest, List.take_left, List.drop_left]

theorem parse_ext_blocks : ∀ (blocks : List String) (tailp : List String)
    (tcomp : List (SubtagKind × String)) (e : Nat),
    (∀ b ∈ blocks, ShapeProp .extension b) →
    ((tailp = [] ∧ tcomp = []) ∨
      (∃ psx, psx ≠ [] ∧ tailp = "x" :: psx ∧
        tcomp = [(SubtagKind.privateUse, joinHyphen ("x" :: psx))])) →
    ∀ X, parse_subtags (blocks.flatMap splitHyphen ++ tailp) e = .ok X →
      X = blocks.map (fun b => (SubtagKind.extension, b)) ++ tcomp := by
  intro blocks
  induction blocks with
  | nil =>
    intro tailp tcomp e _ htail X hX
    rcases htail with ⟨rfl, rfl⟩ | ⟨psx, hpsx, rfl, rfl⟩
    · rw [List.flatMap_nil, List.nil_append, parse_subtags_nil] at hX
      cases hX
      rfl
    · rw [List.flatMap_nil, List.nil_append, parse_priv psx hpsx e] at hX
      cases hX
      rfl
  | cons b rest ih =>
    intro tailp tcomp e hsh htail X hX
    obtain ⟨sing, ps, hb, hs1, hsx, hnp, hps⟩ := hsh b (List.mem_cons_self _ _)
    have hsplit : splitHyphen b = sing :: ps := by
      rw [hb]
      refine splitHyphen_join_pieces _ (by simp) ?_
      intro p hp c hc
      rcases List.mem_cons.mp hp with rfl | hp2
      · exact (hnp c hc).2.1
      · exact ((hps p hp2).2 c hc).2.1
    have hrtail : rest.flatMap splitHyphen ++ tailp = [] ∨
        ∃ h0 t0, rest.flatMap splitHyphen ++ tailp = h0 :: t0 ∧ h0.length = 1 := by
      cases hr : rest with
      | cons b2 rest2 =>
        obtain ⟨sing2, ps2, hb2, hs2, _, hnp2, hps2⟩ :=
          hsh b2 (by rw [hr]; exact List.mem_cons_of_mem _ (List.mem_cons_self _ _))
        have hsplit2 : splitHyphen b2 = sing2 :: ps2 := by
          rw [hb2]
          refine splitHyphen_join_pieces _ (by simp) ?_
          intro p hp c hc
          rcases List.mem_cons.mp hp with rfl | hp2
          · exact (hnp2 c hc).2.1
          · exact ((hps2 p hp2).2 c hc).2.1
        right
        exact ⟨sing2, ps2 ++ (rest2.flatMap splitHyphen ++ tailp),
          by rw [List.flatMap_cons, hsplit2]; simp, hs2⟩
      | nil =>
        rcases htail with ⟨rfl, _⟩ | ⟨psx, _, rfl, _⟩
        · left; rfl
        · right; exact ⟨"x", psx, by simp, by decide⟩
    rw [List.flatMap_cons, hsplit, List.append_assoc, List.cons_append] at hX
    have hpsne : ∀ p ∈ ps, p.length ≠ 1 := fun p hp => (hps p hp).1
    by_cases hne : ps ++ (rest.flatMap splitHyphen ++ tailp) = []
    · -- everything after the singleton is empty: the extension scan errors
      obtain ⟨hps0, hrt0⟩ := List.append_eq_nil.mp hne
      rw [hps0, hrt0] at hX
      rw [parse_subtags_cons_singleton _ e hs1] at hX
      simp [parse_extension] at hX
    · rw [parse_ext_block_step ps _ e hs1 hsx hpsne hrtail hne] at hX
      rw [except_map_ok] at hX
      obtain ⟨X', hX', rfl⟩ := hX
      rw [ih _ _ EXTENSION (fun b2 hb2 => hsh b2 (List.mem_cons_of_mem _ hb2)) htail X' hX']
      rw [← hb]
      simp

theorem parse_variants : ∀ (L : List String) (extp : List String)
    (ecomp : List (SubtagKind × String)) (e : Nat),
    e ≤ VARIANT →
    (∀ v ∈ L, ShapeProp .variant v) →
    (∀ (e2 : Nat) (X : List (SubtagKind × String)), parse_subtags extp e2 = .ok X → X = ecomp) →
    ∀ X, parse_subtags (L ++ extp) e = .ok X →
      X = L.map (fun v => (SubtagKind.variant, v)) ++ ecomp := by
  intro L
  induction L with
  | nil =>
    intro extp ecomp e _ _ hcont X hX
    rw [List.nil_append] at hX
    rw [List.map_nil, List.nil_append]
    exact hcont e X hX
  | cons v t ih =>
    intro extp ecomp e he hsh hcont X hX
    obtain ⟨hnp, hshape⟩ := hsh v (List.mem_cons_self _ _)
    have hnv : ¬ VARIANT < e := by omega
    rcases hshape with ⟨h4, ha, hd⟩ | ⟨h5, h8⟩
    · rw [List.cons_append, parse_subtags_cons_variant4 _ e h4 ha hd, if_neg hnv,
        except_map_ok] at hX
      obtain ⟨X', hX', rfl⟩ := hX
      rw [ih extp ecomp VARIANT (by omega) (fun w hw => hsh w (List.mem_cons_of_mem _ hw))
        hcont X' hX']
      rfl
    · rw [List.cons_append, parse_subtags_cons_variant58 _ e h5 h8, if_neg hnv,
        except_map_ok] at hX
      obtain ⟨X', hX', rfl⟩ := hX
      rw [ih extp ecomp VARIANT (by omega) (fun w hw => hsh w (List.mem_cons_of_mem _ hw))
        hcont X' hX']
      rfl

/-- Lowered script piece of a serialized meaning. -/
def scriptSegLow (m : Meaning) : List String :=
  match m.script with | some sc => [pyLower sc] | none => []

/-- Lowered region piece. -/
def regionSegLow (m : Meaning) : List String :=
  match m.region with | some r => [pyLower r] | none => []

/-- Variant pieces (already lower case). -/
def varSegLow (m : Meaning) : List String :=
  match m.variant with | some vs => sortedStrings vs | none => []

/-- Extension block sub-pieces. -/
def extSegLow (m : Meaning) : List String :=
  match m.extension with | some es => (sortedStrings es).flatMap splitHyphen | none => []

/-- Private-use sub-pieces. -/
def privSegLow (m : Meaning) : List String :=
  match m.privateUse with | some p => splitHyphen p | none => []

/-- Components the script piece re-parses to. -/
def scriptComps (m : Meaning) : List (SubtagKind × String) :=
  match m.script with | some sc => [(SubtagKind.script, sc)] | none => []

/-- Components the region piece re-parses to. -/
def regionComps (m : Meaning) : List (SubtagKind × String) :=
  match m.region with | some r => [(SubtagKind.region, r)] | none => []

/-- Components the variant pieces re-parse to. -/
def varComps (m : Meaning) : List (SubtagKind × String) :=
  match m.variant with
  | some vs => (sortedStrings vs).map (fun v => (SubtagKind.variant, v))
  | none => []

/-- Components the extension blocks re-parse to. -/
def extComps (m : Meaning) : List (SubtagKind × String) :=
  match m.extension with
  | some es => (sortedStrings es).map (fun b => (SubtagKind.extension, b))
  | none => []

/-- Component the private-use piece re-parses to. -/
def privComps (m : Meaning) : List (SubtagKind × String) :=
  match m.privateUse with | some p => [(SubtagKind.privateUse, p)] | none => []

/-- All lowered pieces after the language piece. -/
def tailPiecesLow (m : Meaning) : List String :=
  scriptSegLow m ++ (regionSegLow m ++ (varSegLow m ++ (extSegLow m ++ privSegLow m)))

/-- All components after the language component. -/
def tailComps (m : Meaning) : List (SubtagKind × String) :=
  scriptComps m ++ (regionComps m ++ (varComps m ++ (extComps m ++ privComps m)))

theorem reparse_from_ext (m : Meaning) (hm : MInv m) (e : Nat) :
    ∀ X, parse_subtags (extSegLow m ++ privSegLow m) e = .ok X →
      X = extComps m ++ privComps m := by
  obtain ⟨-, -, -, -, h5, h6⟩ := hm
  intro X hX
  have hpriv : (privSegLow m = [] ∧ privComps m = []) ∨
      (∃ psx, psx ≠ [] ∧ privSegLow m = "x" :: psx ∧
        privComps m = [(SubtagKind.privateUse, joinHyphen ("x" :: psx))]) := by
    rcases h6 with h6 | ⟨p, hp, ps, hpj, hpsne, hpnp⟩
    · left
      constructor <;> simp [privSegLow, privComps, h6]
    · right
      refine ⟨ps, hpsne, ?_, ?_⟩
      · simp only [privSegLow, hp]
        rw [hpj]
        refine splitHyphen_join_pieces _ (by simp) ?_
        intro q hq c hc
        rcases List.mem_cons.mp hq with rfl | hq2
        · intro hbad
          rw [hbad] at hc
          exact absurd hc (by decide)
        · exact (hpnp q hq2 c hc).2.1
      · simp only [privComps, hp, hpj]
  rcases h5 with h5 | ⟨es, hes, hesne, hallE⟩
  · have hseg : extSegLow m = [] := by simp [extSegLow, h5]
    have hcomp : extComps m = [] := by simp [extComps, h5]
    rw [hseg, List.nil_append] at hX
    rw [hcomp, List.nil_append]
    rcases hpriv with ⟨hp1, hp2⟩ | ⟨psx, hne, hp1, hp2⟩
    · rw [hp1, parse_subtags_nil] at hX
      cases hX
      exact hp2.symm
    · rw [hp1, parse_priv psx hne e] at hX
      cases hX
      exact hp2.symm
  · have hseg : extSegLow m = (sortedStrings es).flatMap splitHyphen := by
      simp [extSegLow, hes]
    have hcomp : extComps m =
        (sortedStrings es).map (fun b => (SubtagKind.extension, b)) := by
      simp [extComps, hes]
    rw [hseg] at hX
    rw [hcomp]
    exact parse_ext_blocks (sortedStrings es) (privSegLow m) (privComps m) e
      (fun b hb => hallE b (mem_sortedStrings.mp hb)) hpriv X hX

theorem reparse_from_var (m : Meaning) (hm : MInv m) (e : Nat) (he : e ≤ VARIANT) :
    ∀ X, parse_subtags (varSegLow m ++ (extSegLow m ++ privSegLow m)) e = .ok X →
      X = varComps m ++ (extComps m ++ privComps m) := by
  intro X hX
  have h4 := hm.2.2.2.1
  rcases h4 with h4 | ⟨vs, hvs, hvne, hallV⟩
  · have hseg : varSegLow m = [] := by simp [varSegLow, h4]
    have hcomp : varComps m = [] := by simp [varComps, h4]
    rw [hseg, List.nil_append] at hX
    rw [hcomp, List.nil_append]
    exact reparse_from_ext m hm e X hX
  · have hseg : varSegLow m = sortedStrings vs := by simp [varSegLow, hvs]
    have hcomp : varComps m =
        (sortedStrings vs).map (fun v => (SubtagKind.variant, v)) := by
      simp [varComps, hvs]
    rw [hseg] at hX
    rw [hcomp]
    exact parse_variants (sortedStrings vs) _ _ e he
      (fun v hv => hallV v (mem_sortedStrings.mp hv))
      (fun e2 Y hY => reparse_from_ext m hm e2 Y hY) X hX

theorem reparse_from_region (m : Meaning) (hm : MInv m) (e : Nat) (he : e ≤ REGION) :
    ∀ X, parse_subtags (regionSegLow m ++ (varSegLow m ++ (extSegLow m ++ privSegLow m))) e =
        .ok X →
      X = regionComps m ++ (varComps m ++ (extComps m ++ privComps m)) := by
  intro X hX
  have h3 := hm.2.2.1
  rcases h3 with h3 | ⟨r, hr, ⟨u, hnu, hru, hu⟩, hnr⟩
  · have hseg : regionSegLow m = [] := by simp [regionSegLow, h3]
    have hcomp : regionComps m = [] := by simp [regionComps, h3]
    rw [hseg, List.nil_append] at hX
    rw [hcomp, List.nil_append]
    exact reparse_from_var m hm e (by simp only [REGION, VARIANT] at he ⊢; omega) X hX
  · have hlowr : pyLower r = u := by
      rw [hru, pyLower_pyUpper (fun c hc => (hnu c hc).1)]
    have hseg : regionSegLow m = [u] := by simp [regionSegLow, hr, hlowr]
    have hcomp : regionComps m = [(SubtagKind.region, r)] := by simp [regionComps, hr]
    rw [hseg, List.cons_append, List.nil_append] at hX
    rw [hcomp]
    have hnlt : ¬ REGION < e := by omega
    rcases hu with ⟨hu2, hua⟩ | ⟨hu3, hud⟩
    · rw [parse_subtags_cons_region2 _ e hu2 hua, if_neg hnlt, except_map_ok] at hX
      obtain ⟨X', hX', rfl⟩ := hX
      rw [reparse_from_var m hm (REGION + 1) (by decide) X' hX', ← hru]
      rfl
    · rw [parse_subtags_cons_region3 _ e hu3 hud, if_neg hnlt, except_map_ok] at hX
      obtain ⟨X', hX', rfl⟩ := hX
      rw [reparse_from_var m hm (REGION + 1) (by decide) X' hX', ← hru]
      rfl

theorem reparse_tail (m : Meaning) (hm : MInv m) (e : Nat) (he : e ≤ SCRIPT) :
    ∀ X, parse_subtags (tailPiecesLow m) e = .ok X → X = tailComps m := by
  intro X hX
  rw [tailPiecesLow] at hX
  rw [tailComps]
  have h2 := hm.2.1
  rcases h2 with h2 | ⟨sc, hsc, u, hnu, hu4, hua, hscu⟩
  · have hseg : scriptSegLow m = [] := by simp [scriptSegLow, h2]
    have hcomp : scriptComps m = [] := by simp [scriptComps, h2]
    rw [hseg, List.nil_append] at hX
    rw [hcomp, List.nil_append]
    exact reparse_from_region m hm e (by simp only [SCRIPT, REGION] at he ⊢; omega) X hX
  · have hlowsc : pyLower sc = u := by
      rw [hscu, pyLower_pyTitle (fun c hc => (hnu c hc).1)]
    have hseg : scriptSegLow m = [u] := by simp [scriptSegLow, hsc, hlowsc]
    have hcomp : scriptComps m = [(SubtagKind.script, sc)] := by simp [scriptComps, hsc]
    rw [hseg, List.cons_append, List.nil_append] at hX
    rw [hcomp]
    have hnlt : ¬ SCRIPT < e := by omega
    rw [parse_subtags_cons_script _ e hu4 hua, if_neg hnlt, except_map_ok] at hX
    obtain ⟨X', hX', rfl⟩ := hX
    rw [reparse_from_region m hm (SCRIPT + 1) (by decide) X' hX', ← hscu]
    rfl

/-! ## Computing the builder loop over serialized components -/

theorem tagFold_variants_map (rec : String → Bool → Except Err Meaning) (n : Bool) :
    ∀ (L : List String) (m : Meaning) (comps : List (SubtagKind × String)),
    tagFoldWith rec n m (L.map (fun v => (SubtagKind.variant, v)) ++ comps) =
      tagFoldWith rec n { m with variant := L.foldl addToSet m.variant } comps := by
  intro L
  induction L with
  | nil => intro m comps; rfl
  | cons v t ih =>
    intro m comps
    rw [List.map_cons, List.cons_append, tagFold_cons_variant]
    have hstep : m.addSet .variant v = { m with variant := addToSet m.variant v } := rfl
    rw [hstep, ih]
    rfl

theorem tagFold_extensions_map (rec : String → Bool → Except Err Meaning) (n : Bool) :
    ∀ (L : List String) (m : Meaning) (comps : List (SubtagKind × String)),
    tagFoldWith rec n m (L.map (fun b => (SubtagKind.extension, b)) ++ comps) =
      tagFoldWith rec n { m with extension := L.foldl addToSet m.extension } comps := by
  intro L
  induction L with
  | nil => intro m comps; rfl
  | cons v t ih =>
    intro m comps
    rw [List.map_cons, List.cons_append, tagFold_cons_extension]
    have hstep : m.addSet .extension v = { m with extension := addToSet m.extension v } := rfl
    rw [hstep, ih]
    rfl

theorem tagFold_scriptComps (rec : String → Bool → Except Err Meaning) (n : Bool)
    (m m0 : Meaning) (R : List (SubtagKind × String)) :
    tagFoldWith rec n m0 (scriptComps m ++ R) =
      tagFoldWith rec n
        { m0 with script := (match m.script with | some sc => some sc | none => m0.script) }
        R := by
  cases hsc : m.script with
  | none => simp only [scriptComps, hsc, List.nil_append]
  | some sc =>
    simp only [scriptComps, hsc, List.cons_append, List.nil_append, tagFold_cons_script]

theorem tagFold_regionComps (rec : String → Bool → Except Err Meaning)
    (m m0 : Meaning) (R : List (SubtagKind × String))
    (h : ∀ r, m.region = some r → NORMALIZED_REGIONS.lookup r = none) :
    tagFoldWith rec true m0 (regionComps m ++ R) =
      tagFoldWith rec true
        { m0 with region := (match m.region with | some r => some r | none => m0.region) }
        R := by
  cases hr : m.region with
  | none => simp only [regionComps, hr, List.nil_append]
  | some r =>
    simp only [regionComps, hr, List.cons_append, List.nil_append, tagFold_cons_region]
    rw [if_pos (by trivial), h r hr]

theorem tagFold_varComps (rec : String → Bool → Except Err Meaning) (n : Bool)
    (m m0 : Meaning) (R : List (SubtagKind × String))
    (h0 : m0.variant = none) (hne : ∀ vs, m.variant = some vs → vs.Nonempty) :
    tagFoldWith rec n m0 (varComps m ++ R) =
      tagFoldWith rec n
        { m0 with variant := (match m.variant with | some vs => some vs | none => m0.variant) }
        R := by
  cases hv : m.variant with
  | none => simp only [varComps, hv, List.nil_append]
  | some vs =>
    simp only [varComps, hv]
    rw [tagFold_variants_map]
    have hL : sortedStrings vs ≠ [] := sortedStrings_ne_nil (hne vs hv)
    cases hLs : sortedStrings vs with
    | nil => exact absurd hLs hL
    | cons a t =>
      have hfold : List.foldl addToSet m0.variant (a :: t) = some vs := by
        rw [h0, foldl_addToSet_none, ← hLs, sortedStrings_toFinset]
      rw [hfold]

theorem tagFold_extComps (rec : String → Bool → Except Err Meaning) (n : Bool)
    (m m0 : Meaning) (R : List (SubtagKind × String))
    (h0 : m0.extension = none) (hne : ∀ es, m.extension = some es → es.Nonempty) :
    tagFoldWith rec n m0 (extComps m ++ R) =
      tagFoldWith rec n
        { m0 with extension :=
            (match m.extension with | some es => some es | none => m0.extension) }
        R := by
  cases hv : m.extension with
  | none => simp only [extComps, hv, List.nil_append]
  | some es =>
    simp only [extComps, hv]
    rw [tagFold_extensions_map]
    have hL : sortedStrings es ≠ [] := sortedStrings_ne_nil (hne es hv)
    cases hLs : sortedStrings es with
    | nil => exact absurd hLs hL
    | cons a t =>
      have hfold : List.foldl addToSet m0.extension (a :: t) = some es := by
        rw [h0, foldl_addToSet_none, ← hLs, sortedStrings_toFinset]
      rw [hfold]

theorem tagFold_privComps (rec : String → Bool → Except Err Meaning) (n : Bool)
    (m m0 : Meaning) (R : List (SubtagKind × String)) :
    tagFoldWith rec n m0 (privComps m ++ R) =
      tagFoldWith rec n
        { m0 with privateUse :=
            (match m.privateUse with | some p => some p | none => m0.privateUse) }
        R := by
  cases hp : m.privateUse with
  | none => simp only [privComps, hp, List.nil_append]
  | some p =>
    simp only [privComps, hp, List.cons_append, List.nil_append, tagFold_cons_private]

theorem tagFold_privLast (rec : String → Bool → Except Err Meaning) (n : Bool)
    (m m0 : Meaning) :
    tagFoldWith rec n m0 (privComps m) =
      .ok { m0 with privateUse :=
        (match m.privateUse with | some p => some p | none => m0.privateUse) } := by
  cases hp : m.privateUse with
  | none => simp only [privComps, hp]; rfl
  | some p => simp only [privComps, hp, tagFold_cons_private]; rfl

theorem tagFold_tail (m : Meaning) (hm : MInv m) (m0 : Meaning)
    (h0v : m0.variant = none) (h0e : m0.extension = none) :
    tagFoldWith (tag_to_meaningF 3) true m0 (tailComps m) =
      .ok { m0 with
            script := (match m.script with | some sc => some sc | none => m0.script),
            region := (match m.region with | some r => some r | none => m0.region),
            variant := (match m.variant with | some vs => some vs | none => m0.variant),
            extension := (match m.extension with | some es => some es | none => m0.extension),
            privateUse :=
              (match m.privateUse with | some p => some p | none => m0.privateUse) } := by
  have hnr : ∀ r, m.region = some r → NORMALIZED_REGIONS.lookup r = none := by
    intro r hr
    rcases hm.2.2.1 with h | ⟨r2, hr2, _, hn⟩
    · rw [h] at hr; cases hr
    · rw [hr2] at hr; cases hr; exact hn
  have hvne : ∀ vs, m.variant = some vs → vs.Nonempty := by
    intro vs hv
    rcases hm.2.2.2.1 with h | ⟨vs2, hvs2, hne2, _⟩
    · rw [h] at hv; cases hv
    · rw [hvs2] at hv; cases hv; exact hne2
  have hene : ∀ es, m.extension = some es → es.Nonempty := by
    intro es he
    rcases hm.2.2.2.2.1 with h | ⟨es2, hes2, hne2, _⟩
    · rw [h] at he; cases he
    · rw [hes2] at he; cases he; exact hne2
  have hstep1 : tagFoldWith (tag_to_meaningF 3) true m0 (tailComps m) =
      tagFoldWith (tag_to_meaningF 3) true
        { m0 with
          script := (match m.script with | some sc => some sc | none => m0.script) }
        (regionComps m ++ (varComps m ++ (extComps m ++ privComps m))) :=
    tagFold_scriptComps _ _ m m0 _
  have hstep2 : tagFoldWith (tag_to_meaningF 3) true
      { m0 with
        script := (match m.script with | some sc => some sc | none => m0.script) }
      (regionComps m ++ (varComps m ++ (extComps m ++ privComps m))) =
      tagFoldWith (tag_to_meaningF 3) true
        { m0 with
          script := (match m.script with | some sc => some sc | none => m0.script),
          region := (match m.region with | some r => some r | none => m0.region) }
        (varComps m ++ (extComps m ++ privComps m)) :=
    tagFold_regionComps _ m _ _ hnr
  have hstep3 : tagFoldWith (tag_to_meaningF 3) true
      { m0 with
        script := (match m.script with | some sc => some sc | none => m0.script),
        region := (match m.region with | some r => some r | none => m0.region) }
      (varComps m ++ (extComps m ++ privComps m)) =
      tagFoldWith (tag_to_meaningF 3) true
        { m0 with
          script := (match m.script with | some sc => some sc | none => m0.script),
          region := (match m.region with | some r => some r | none => m0.region),
          variant := (match m.variant with | some vs => some vs | none => m0.variant) }
        (extComps m ++ privComps m) :=
    tagFold_varComps _ _ m _ _ h0v hvne
  have hstep4 : tagFoldWith (tag_to_meaningF 3) true
      { m0 with
        script := (match m.script with | some sc => some sc | none => m0.script),
        region := (match m.region with | some r => some r | none => m0.region),
        variant := (match m.variant with | some vs => some vs | none => m0.variant) }
      (extComps m ++ privComps m) =
      tagFoldWith (tag_to_meaningF 3) true
        { m0 with
          script := (match m.script with | some sc => some sc | none => m0.script),
          region := (match m.region with | some r => some r | none => m0.region),
          variant := (match m.variant with | some vs => some vs | none => m0.variant),
          extension := (match m.extension with | some es => some es | none => m0.extension) }
        (privComps m) :=
    tagFold_extComps _ _ m _ _ h0e hene
  have hstep5 : tagFoldWith (tag_to_meaningF 3) true
      { m0 with
        script := (match m.script with | some sc => some sc | none => m0.script),
        region := (match m.region with | some r => some r | none => m0.region),
        variant := (match m.variant with | some vs => some vs | none => m0.variant),
        extension := (match m.extension with | some es => some es | none => m0.extension) }
      (privComps m) =
      .ok { m0 with
            script := (match m.script with | some sc => some sc | none => m0.script),
            region := (match m.region with | some r => some r | none => m0.region),
            variant := (match m.variant with | some vs => some vs | none => m0.variant),
            extension := (match m.extension with | some es => some es | none => m0.extension),
            privateUse :=
              (match m.privateUse with | some p => some p | none => m0.privateUse) } :=
    tagFold_privLast _ _ m _
  exact hstep1.trans (hstep2.trans (hstep3.trans (hstep4.trans hstep5)))

/-! ## prefer_macrolanguage and simplify_script around the round trip -/

theorem LangGood_zh : LangGood "zh" := ⟨by decide, by decide, by decide, by decide⟩

theorem prefer_macrolanguage_fixed (M : Meaning) :
    NORMALIZED_MACROLANGUAGES.lookup ((prefer_macrolanguage M).language.getD "und") = none := by
  rw [prefer_macrolanguage]
  cases hlk : NORMALIZED_MACROLANGUAGES.lookup (M.language.getD "und") with
  | none => simp only [hlk]
  | some rep =>
    simp only [hlk]
    have hrep : rep = "zh" := NM_lookup_cases hlk
    subst hrep
    decide

theorem MInv_prefer {M : Meaning} (hm : MInv M) : MInv (prefer_macrolanguage M) := by
  rw [prefer_macrolanguage]
  cases hlk : NORMALIZED_MACROLANGUAGES.lookup (M.language.getD "und") with
  | none => simp only [hlk]; exact hm
  | some rep =>
    simp only [hlk]
    have hrep : rep = "zh" := NM_lookup_cases hlk
    subst hrep
    obtain ⟨h1, h2, h3, h4, h5, h6⟩ := hm
    exact ⟨Or.inr ⟨"zh", rfl, LangGood_zh⟩, h2, h3, h4, h5, h6⟩

theorem prefer_eq_self {M : Meaning}
    (h : NORMALIZED_MACROLANGUAGES.lookup (M.language.getD "und") = none) :
    prefer_macrolanguage M = M := by
  rw [prefer_macrolanguage, h]

theorem simplify_none_lang (M : Meaning) (h : M.language = none) :
    simplify_script M = M := by
  rw [simplify_script, h]

theorem simplify_none_script (M : Meaning) (h : M.script = none) :
    simplify_script M = M := by
  rw [simplify_script, h]
  cases M.language <;> rfl

theorem simplify_some_some (M : Meaning) {l sc : String}
    (hl : M.language = some l) (hs : M.script = some sc) :
    simplify_script M =
      if DEFAULT_SCRIPTS.lookup l = some sc then { M with script := none } else M := by
  rw [simplify_script, hl, hs]

theorem MInv_simplify {M : Meaning} (hm : MInv M) : MInv (simplify_script M) := by
  cases hl : M.language with
  | none => rw [simplify_none_lang M hl]; exact hm
  | some l =>
    cases hs : M.script with
    | none => rw [simplify_none_script M hs]; exact hm
    | some sc =>
      rw [simplify_some_some M hl hs]
      split_ifs
      · obtain ⟨h1, h2, h3, h4, h5, h6⟩ := hm
        exact ⟨h1, Or.inl rfl, h3, h4, h5, h6⟩
      · exact hm

theorem simplify_script_language (M : Meaning) :
    (simplify_script M).language = M.language := by
  cases hl : M.language with
  | none => rw [simplify_none_lang M hl, hl]
  | some l =>
    cases hs : M.script with
    | none => rw [simplify_none_script M hs, hl]
    | some sc =>
      rw [simplify_some_some M hl hs]
      split_ifs <;> exact hl

theorem simplify_script_fixed (M : Meaning) {l sc : String}
    (hl : (simplify_script M).language = some l)
    (hs : (simplify_script M).script = some sc) :
    ¬ DEFAULT_SCRIPTS.lookup l = some sc := by
  intro hd
  cases hl0 : M.language with
  | none => rw [simplify_none_lang M hl0, hl0] at hl; cases hl
  | some l0 =>
    cases hs0 : M.script with
    | none => rw [simplify_none_script M hs0, hs0] at hs; cases hs
    | some sc0 =>
      rw [simplify_some_some M hl0 hs0] at hl hs
      by_cases hd0 : DEFAULT_SCRIPTS.lookup l0 = some sc0
      · rw [if_pos hd0] at hs
        exact Option.noConfusion hs
      · rw [if_neg hd0] at hl hs
        rw [hs0] at hs
        cases hs
        rw [hl0] at hl
        cases hl
        exact hd0 hd

theorem simplify_eq_self {M : Meaning}
    (h : ∀ l sc, M.language = some l → M.script = some sc →
      ¬ DEFAULT_SCRIPTS.lookup l = some sc) :
    simplify_script M = M := by
  cases hl : M.language with
  | none => exact simplify_none_lang M hl
  | some l =>
    cases hs : M.script with
    | none => exact simplify_none_script M hs
    | some sc => rw [simplify_some_some M hl hs, if_neg (h l sc hl hs)]

theorem meaning_to_tag_congr {A B : Meaning}
    (hl : A.language = B.language) (hs : A.script = B.script) (hr : A.region = B.region)
    (hv : A.variant = B.variant) (he : A.extension = B.extension)
    (hp : A.privateUse = B.privateUse) :
    meaning_to_tag A = meaning_to_tag B := by
  rw [meaning_to_tag, meaning_to_tag, hl, hs, hr, hv, he, hp]

/-! ## Splitting a serialized meaning back into pieces -/

/-- The piece list that `meaning_to_tag` joins with hyphens. -/
def meaningPieces (m : Meaning) : List String :=
  m.language.getD "und" ::
    ((match m.script with | some s => [s] | none => [])
      ++ ((match m.region with | some r => [r] | none => [])
        ++ ((match m.variant with | some v => sortedStrings v | none => [])
          ++ ((match m.extension with | some e => sortedStrings e | none => [])
            ++ (match m.privateUse with | some p => [p] | none => [])))))

theorem meaning_to_tag_pieces (m : Meaning) :
    meaning_to_tag m = joinHyphen (meaningPieces m) := by
  rw [meaning_to_tag, meaningPieces]
  cases m.script <;> cases m.region <;> cases m.variant <;> cases m.extension <;>
    cases m.privateUse <;> simp [List.append_assoc]

theorem splitHyphen_join_flat : ∀ parts : List String, parts ≠ [] →
    splitHyphen (joinHyphen parts) = parts.flatMap splitHyphen := by
  intro parts
  induction parts with
  | nil => intro h; exact absurd rfl h
  | cons x rest ih =>
    intro _
    cases rest with
    | nil =>
      show splitHyphen x = [x].flatMap splitHyphen
      simp
    | cons y t =>
      rw [splitHyphen_join_cons, ih (by simp)]
      rfl

theorem flatMap_splitHyphen_singles : ∀ L : List String,
    (∀ p ∈ L, ∀ c ∈ p.data, c ≠ '-') → L.flatMap splitHyphen = L := by
  intro L
  induction L with
  | nil => intro _; rfl
  | cons a t ih =>
    intro h
    rw [List.flatMap_cons, splitHyphen_single (h a (List.mem_cons_self _ _)),
      ih (fun p hp => h p (List.mem_cons_of_mem _ hp))]
    rfl

theorem map_pyLower_fixed {L : List String}
    (h : ∀ p ∈ L, ∀ c ∈ p.data, pyCharLower c = c) : L.map pyLower = L := by
  rw [List.map_congr_left (fun p hp => pyLower_fixed (h p hp))]
  simp

theorem ShapeProp_no_underscore : ∀ (k : SubtagKind) (v : String), ShapeProp k v →
    ∀ c ∈ v.data, c ≠ '_' := by
  intro k v hs c hc
  cases k with
  | language => exact absurd hs (by simp [ShapeProp])
  | grandfathered => exact absurd hs (by simp [ShapeProp])
  | extlang => exact (hs.1 c hc).2.2
  | script =>
    obtain ⟨u, hnu, _, _, rfl⟩ := hs
    obtain ⟨d, hd, hor⟩ := mem_pyTitle hc
    have hdu : d ≠ '_' := (hnu d hd).2.2
    rcases hor with rfl | rfl | rfl
    · exact pyCharUpper_ne_underscore hdu
    · exact pyCharLower_ne_underscore hdu
    · exact hdu
  | region =>
    obtain ⟨u, hnu, rfl, _⟩ := hs
    obtain ⟨d, hd, rfl⟩ := mem_pyUpper hc
    exact pyCharUpper_ne_underscore (hnu d hd).2.2
  | variant => exact (hs.1 c hc).2.2
  | extension =>
    obtain ⟨sing, ps, rfl, _, _, hnp, hps⟩ := hs
    rcases mem_data_joinHyphen _ c hc with rfl | ⟨p, hp, hcp⟩
    · decide
    · rcases List.mem_cons.mp hp with rfl | hp2
      · exact (hnp c hcp).2.2
      · exact ((hps p hp2).2 c hcp).2.2
  | privateUse =>
    obtain ⟨ps, rfl, _, hps⟩ := hs
    rcases mem_data_joinHyphen _ c hc with rfl | ⟨p, hp, hcp⟩
    · decide
    · rcases List.mem_cons.mp hp with rfl | hp2
      · intro hbad
        rw [hbad] at hcp
        exact absurd hcp (by decide)
      · exact ((hps p hp2) c hcp).2.2

theorem ShapeProp_chars_lower : ∀ (k : SubtagKind) (v : String), ShapeProp k v →
    k = SubtagKind.variant ∨ k = SubtagKind.extension ∨ k = SubtagKind.extlang →
    ∀ c ∈ v.data, pyCharLower c = c := by
  intro k v hs hk c hc
  rcases hk with rfl | rfl | rfl
  · exact (hs.1 c hc).1
  · obtain ⟨sing, ps, rfl, _, _, hnp, hps⟩ := hs
    rcases mem_data_joinHyphen _ c hc with rfl | ⟨p, hp, hcp⟩
    · decide
    · rcases List.mem_cons.mp hp with rfl | hp2
      · exact (hnp c hcp).1
      · exact ((hps p hp2).2 c hcp).1
  · exact (hs.1 c hc).1

theorem privShape_chars_lower {v : String} (hs : ShapeProp .privateUse v) :
    ∀ c ∈ v.data, pyCharLower c = c := by
  intro c hc
  obtain ⟨ps, rfl, _, hps⟩ := hs
  rcases mem_data_joinHyphen _ c hc with rfl | ⟨p, hp, hcp⟩
  · decide
  · rcases List.mem_cons.mp hp with rfl | hp2
    · have : c = 'x' := by
        cases hcp with
        | head => rfl
        | tail _ h => exact absurd h (List.not_mem_nil c)
      rw [this]
      decide
    · exact ((hps p hp2) c hcp).1

theorem meaning_to_tag_no_underscore {m : Meaning} (hm : MInv m) :
    ∀ c ∈ (meaning_to_tag m).data, c ≠ '_' := by
  obtain ⟨h1, h2, h3, h4, h5, h6⟩ := hm
  intro c hc
  rw [meaning_to_tag_pieces] at hc
  rcases mem_data_joinHyphen _ c hc with rfl | ⟨p, hp, hcp⟩
  · decide
  · rw [meaningPieces] at hp
    rcases List.mem_cons.mp hp with rfl | hp2
    · rcases h1 with h1n | ⟨l, hl, hgood⟩
      · simp only [h1n, Option.getD_none] at hcp
        intro hbad
        rw [hbad] at hcp
        exact absurd hcp (by decide)
      · simp only [hl, Option.getD_some] at hcp
        exact (hgood.1 c hcp).2.2
    · rcases List.mem_append.mp hp2 with hpa | hp3
      · rcases h2 with h2n | ⟨sc, hsc, hshape⟩
        · rw [h2n] at hpa
          simp at hpa
        · rw [hsc] at hpa
          simp only [List.mem_singleton] at hpa
          subst hpa
          exact ShapeProp_no_underscore _ _ hshape c hcp
      · rcases List.mem_append.mp hp3 with hpa | hp4
        · rcases h3 with h3n | ⟨r, hr, hshape, _⟩
          · rw [h3n] at hpa
            simp at hpa
          · rw [hr] at hpa
            simp only [List.mem_singleton] at hpa
            subst hpa
            exact ShapeProp_no_underscore _ _ hshape c hcp
        · rcases List.mem_append.mp hp4 with hpa | hp5
          · rcases h4 with h4n | ⟨vs, hvs, _, hall⟩
            · rw [h4n] at hpa
              simp at hpa
            · rw [hvs] at hpa
              exact ShapeProp_no_underscore _ _ (hall p (mem_sortedStrings.mp hpa)) c hcp
          · rcases List.mem_append.mp hp5 with hpa | hpa
            · rcases h5 with h5n | ⟨es, hes, _, hall⟩
              · rw [h5n] at hpa
                simp at hpa
              · rw [hes] at hpa
                exact ShapeProp_no_underscore _ _ (hall p (mem_sortedStrings.mp hpa)) c hcp
            · rcases h6 with h6n | ⟨pv, hpv, hshape⟩
              · rw [h6n] at hpa
                simp at hpa
              · rw [hpv] at hpa
                simp only [List.mem_singleton] at hpa
                subst hpa
                exact ShapeProp_no_underscore _ _ hshape c hcp

theorem split_serialized (m : Meaning) (hm : MInv m) :
    splitHyphen (pyLower (meaning_to_tag m)) =
      m.language.getD "und" :: tailPiecesLow m := by
  obtain ⟨h1, h2, h3, h4, h5, h6⟩ := hm
  rw [meaning_to_tag_pieces, pyLower_joinHyphen,
    splitHyphen_join_flat _ (by simp [meaningPieces]), meaningPieces]
  simp only [List.map_cons, List.map_append, List.flatMap_cons, List.flatMap_append]
  have hlang : splitHyphen (pyLower (m.language.getD "und")) = [m.language.getD "und"] := by
    rcases h1 with h1n | ⟨l, hl, hgood⟩
    · rw [h1n]
      decide
    · rw [hl]
      simp only [Option.getD_some]
      rw [pyLower_fixed (fun c hc => (hgood.1 c hc).1)]
      exact splitHyphen_single (fun c hc => (hgood.1 c hc).2.1)
  have hsc : List.flatMap (List.map pyLower
      (match m.script with | some s => [s] | none => [])) splitHyphen = scriptSegLow m := by
    rcases h2 with h2n | ⟨sc, hsc2, u, hnu, hu4, hua, hscu⟩
    · simp [scriptSegLow, h2n]
    · simp only [scriptSegLow, hsc2]
      have hlow : pyLower sc = u := by
        rw [hscu, pyLower_pyTitle (fun c hc => (hnu c hc).1)]
      rw [show List.map pyLower [sc] = [pyLower sc] from rfl, hlow,
        show List.flatMap [u] splitHyphen = splitHyphen u from by simp,
        splitHyphen_single (fun c hc => (hnu c hc).2.1)]
  have hre : List.flatMap (List.map pyLower
      (match m.region with | some r => [r] | none => [])) splitHyphen = regionSegLow m := by
    rcases h3 with h3n | ⟨r, hr, ⟨u, hnu, hru, hu⟩, hnr⟩
    · simp [regionSegLow, h3n]
    · simp only [regionSegLow, hr]
      have hlow : pyLower r = u := by
        rw [hru, pyLower_pyUpper (fun c hc => (hnu c hc).1)]
      rw [show List.map pyLower [r] = [pyLower r] from rfl, hlow,
        show List.flatMap [u] splitHyphen = splitHyphen u from by simp,
        splitHyphen_single (fun c hc => (hnu c hc).2.1)]
  have hva : List.flatMap (List.map pyLower
      (match m.variant with | some v => sortedStrings v | none => [])) splitHyphen = varSegLow m := by
    rcases h4 with h4n | ⟨vs, hvs, _, hall⟩
    · simp [varSegLow, h4n]
    · simp only [varSegLow, hvs]
      rw [map_pyLower_fixed (fun p hp c hc =>
        ((hall p (mem_sortedStrings.mp hp)).1 c hc).1)]
      exact flatMap_splitHyphen_singles _ (fun p hp c hc =>
        ((hall p (mem_sortedStrings.mp hp)).1 c hc).2.1)
  have hex : List.flatMap (List.map pyLower
      (match m.extension with | some e => sortedStrings e | none => [])) splitHyphen = extSegLow m := by
    rcases h5 with h5n | ⟨es, hes, _, hall⟩
    · simp [extSegLow, h5n]
    · simp only [extSegLow, hes]
      rw [map_pyLower_fixed (fun p hp c hc =>
        ShapeProp_chars_lower _ _ (hall p (mem_sortedStrings.mp hp))
          (Or.inr (Or.inl rfl)) c hc)]
  have hpv : List.flatMap (List.map pyLower
      (match m.privateUse with | some p => [p] | none => [])) splitHyphen = privSegLow m := by
    rcases h6 with h6n | ⟨p, hp, hshape⟩
    · simp [privSegLow, h6n]
    · simp only [privSegLow, hp]
      rw [show List.map pyLower [p] = [pyLower p] from rfl,
        pyLower_fixed (privShape_chars_lower hshape)]
      simp
  rw [hlang, hsc, hre, hva, hex, hpv, tailPiecesLow]
  rfl

/-! ## The serialization round trip -/

theorem tag_to_meaning_step_norep {tag : String}
    (h : NORMALIZED_LANGUAGES.lookup (pyLower tag) = none) :
    tag_to_meaning tag true =
      (match parse tag with
       | .error e => .error e
       | .ok comps => tagFoldWith (tag_to_meaningF 3) true {} comps) := by
  rw [tag_to_meaning]
  show tag_to_meaningF (3 + 1) tag true = _
  simp [tag_to_meaningF, h]

theorem meaning_roundtrip (macroPref : Bool) (m : Meaning) (hm : MInv m)
    (hpref : macroPref = true →
      NORMALIZED_MACROLANGUAGES.lookup (m.language.getD "und") = none)
    (hsimp : ∀ l sc, m.language = some l → m.script = some sc →
      ¬ DEFAULT_SCRIPTS.lookup l = some sc)
    (hexc : EXCEPTIONS.contains (normalize_characters (meaning_to_tag m)) = false)
    (hrep : NORMALIZED_LANGUAGES.lookup (pyLower (meaning_to_tag m)) = none)
    {s2 : String} (h2 : standardize_tag (meaning_to_tag m) macroPref = .ok s2) :
    s2 = meaning_to_tag m := by
  have hnound := meaning_to_tag_no_underscore hm
  have hnorm : normalize_characters (meaning_to_tag m) = pyLower (meaning_to_tag m) :=
    normalize_eq_pyLower hnound
  have hexc2 : EXCEPTIONS.contains (pyLower (meaning_to_tag m)) = false := by
    rw [← hnorm]
    exact hexc
  have hsplit := split_serialized m hm
  have hfirst_len : 2 ≤ (m.language.getD "und").length := by
    rcases hm.1 with h1n | ⟨l, hl, hgood⟩
    · rw [h1n]
      decide
    · rw [hl]
      exact hgood.2.1
  have hfirst_ne_x : ¬ m.language.getD "und" = "x" := by
    intro hbad
    have hlen := congrArg String.length hbad
    have : ("x" : String).length = 1 := rfl
    omega
  have hparse_eq : parse (meaning_to_tag m) =
      (fun more => (SubtagKind.language, m.language.getD "und") :: more) <$>
        parse_subtags (tailPiecesLow m) EXTLANG := by
    rw [parse]
    simp only [hnorm, hexc2, Bool.false_eq_true, if_false, hsplit]
    rw [if_neg hfirst_ne_x, if_pos hfirst_len]
  cases hps : parse_subtags (tailPiecesLow m) EXTLANG with
  | error err =>
    have hparse2 : parse (meaning_to_tag m) = .error err := by
      rw [hparse_eq, hps]
      rfl
    have hmean : tag_to_meaning (meaning_to_tag m) true = .error err := by
      rw [tag_to_meaning_step_norep hrep, hparse2]
    simp only [standardize_tag, hmean] at h2
    exact Except.noConfusion h2
  | ok X =>
    have hX := reparse_tail m hm EXTLANG (by decide) X hps
    subst hX
    have hparse2 : parse (meaning_to_tag m) =
        .ok ((SubtagKind.language, m.language.getD "und") :: tailComps m) := by
      rw [hparse_eq, hps]
      rfl
    obtain ⟨R, hfold, hRl, hRs, hRr, hRv, hRe, hRp⟩ :
        ∃ R, tagFoldWith (tag_to_meaningF 3) true {}
            ((SubtagKind.language, m.language.getD "und") :: tailComps m) = .ok R ∧
          R.language = m.language ∧ R.script = m.script ∧ R.region = m.region ∧
          R.variant = m.variant ∧ R.extension = m.extension ∧
          R.privateUse = m.privateUse := by
      rcases hm.1 with h1n | ⟨l, hl, hgood⟩
      · refine ⟨{
          script := (match m.script with | some sc => some sc | none => none),
          region := (match m.region with | some r => some r | none => none),
          variant := (match m.variant with | some vs => some vs | none => none),
          extension := (match m.extension with | some es => some es | none => none),
          privateUse := (match m.privateUse with | some p => some p | none => none) },
          ?_, ?_, ?_, ?_, ?_, ?_, ?_⟩
        · rw [tagFold_cons_language, if_pos (by rw [h1n]; rfl)]
          exact tagFold_tail m hm {} rfl rfl
        · rw [h1n]
        · cases m.script <;> rfl
        · cases m.region <;> rfl
        · cases m.variant <;> rfl
        · cases m.extension <;> rfl
        · cases m.privateUse <;> rfl
      · cases hmac : MACROLANGUAGES.lookup l with
        | some mac =>
          refine ⟨{
            language := some l,
            macrolanguage := some mac,
            script := (match m.script with | some sc => some sc | none => none),
            region := (match m.region with | some r => some r | none => none),
            variant := (match m.variant with | some vs => some vs | none => none),
            extension := (match m.extension with | some es => some es | none => none),
            privateUse := (match m.privateUse with | some p => some p | none => none) },
            ?_, ?_, ?_, ?_, ?_, ?_, ?_⟩
          · simp only [hl, Option.getD_some]
            rw [tagFold_cons_language, if_neg hgood.2.2.1, if_pos rfl]
            simp only [hgood.2.2.2, hmac]
            exact tagFold_tail m hm _ rfl rfl
          · rw [hl]
          · cases m.script <;> rfl
          · cases m.region <;> rfl
          · cases m.variant <;> rfl
          · cases m.extension <;> rfl
          · cases m.privateUse <;> rfl
        | none =>
          refine ⟨{
            language := some l,
            script := (match m.script with | some sc => some sc | none => none),
            region := (match m.region with | some r => some r | none => none),
            variant := (match m.variant with | some vs => some vs | none => none),
            extension := (match m.extension with | some es => some es | none => none),
            privateUse := (match m.privateUse with | some p => some p | none => none) },
            ?_, ?_, ?_, ?_, ?_, ?_, ?_⟩
          · simp only [hl, Option.getD_some]
            rw [tagFold_cons_language, if_neg hgood.2.2.1, if_pos rfl]
            simp only [hgood.2.2.2, hmac]
            exact tagFold_tail m hm _ rfl rfl
          · rw [hl]
          · cases m.script <;> rfl
          · cases m.region <;> rfl
          · cases m.variant <;> rfl
          · cases m.extension <;> rfl
          · cases m.privateUse <;> rfl
    have hmean : tag_to_meaning (meaning_to_tag m) true = .ok R := by
      rw [tag_to_meaning_step_norep hrep, hparse2]
      exact hfold
    have hpref_eq : (if macroPref then prefer_macrolanguage R else R) = R := by
      cases macroPref with
      | false => rfl
      | true =>
        show prefer_macrolanguage R = R
        refine prefer_eq_self ?_
        rw [hRl]
        exact hpref rfl
    have hsimp_eq : simplify_script R = R :=
      simplify_eq_self (fun l sc hl2 hs2 =>
        hsimp l sc (by rw [← hRl]; exact hl2) (by rw [← hRs]; exact hs2))
    have hmtag_eq : meaning_to_tag R = meaning_to_tag m :=
      meaning_to_tag_congr hRl hRs hRr hRv hRe hRp
    simp only [standardize_tag, hmean] at h2
    rw [hpref_eq, hsimp_eq, hmtag_eq] at h2
    injection h2 with h
    exact h.symm

/-! ## Top-level analysis for the idempotence claim -/

theorem normalize_characters_idem (t : String) :
    normalize_characters (normalize_characters t) = normalize_characters t := by
  have h := normalize_characters_chars t
  rw [normalize_eq_pyLower (fun c hc => (h c hc).2), pyLower_fixed (fun c hc => (h c hc).1)]

theorem splitHyphen_ne_nil (t : String) : splitHyphen t ≠ [] := by
  rw [splitHyphen]
  intro h
  exact splitChars_ne_nil '-' t.data (List.map_eq_nil_iff.mp h)

theorem xdash_NL (l' : List Char) :
    NORMALIZED_LANGUAGES.lookup (String.mk ('x' :: '-' :: l')) = none := by
  refine lookup_none _ _ ?_
  intro p hp
  simp only [NORMALIZED_LANGUAGES, List.mem_cons, List.not_mem_nil, or_false] at hp
  rcases hp with rfl | rfl | rfl <;> exact mk_xdash_ne l' _ (by decide)

theorem xdash_MAC (l' : List Char) :
    MACROLANGUAGES.lookup (String.mk ('x' :: '-' :: l')) = none := by
  refine lookup_none _ _ ?_
  intro p hp
  simp only [MACROLANGUAGES, List.mem_cons, List.not_mem_nil, or_false] at hp
  rcases hp with rfl | rfl <;> exact mk_xdash_ne l' _ (by decide)

theorem xdash_NM (l' : List Char) :
    NORMALIZED_MACROLANGUAGES.lookup (String.mk ('x' :: '-' :: l')) = none := by
  refine lookup_none _ _ ?_
  intro p hp
  simp only [NORMALIZED_MACROLANGUAGES, List.mem_cons, List.not_mem_nil, or_false] at hp
  rcases hp with rfl
  exact mk_xdash_ne l' _ (by decide)

theorem tag_to_meaning_step (tag : String) :
    tag_to_meaning tag true =
      (match parse (match NORMALIZED_LANGUAGES.lookup (pyLower tag) with
                    | some rep => rep | none => tag) with
       | .error e => .error e
       | .ok comps => tagFoldWith (tag_to_meaningF 3) true {} comps) := by
  rw [tag_to_meaning]
  show tag_to_meaningF (3 + 1) tag true = _
  simp [tag_to_meaningF]

/-- C2 (amended): standardizing is idempotent on every output that is not a
grandfathered exception and not itself a key of the whole-tag replacement
table: if `standardize_tag` returns `s`, and standardizing `s` again
succeeds, the result is `s` itself. -/
theorem standardize_tag_conditionally_idempotent (macroPref : Bool) (T s s2 : String)
    (h1 : standardize_tag T macroPref = .ok s)
    (hexc : EXCEPTIONS.contains (normalize_characters s) = false)
    (hrep : NORMALIZED_LANGUAGES.lookup (pyLower s) = none)
    (h2 : standardize_tag s macroPref = .ok s2) :
    s2 = s := by
  rw [standardize_tag, tag_to_meaning_step] at h1
  generalize hT1 : (match NORMALIZED_LANGUAGES.lookup (pyLower T) with
    | some rep => rep | none => T) = T1 at h1
  by_cases hgf : EXCEPTIONS.contains (normalize_characters T1) = true
  · -- grandfathered: the serialization is "und"
    have hparse1 : parse T1 = .ok [(SubtagKind.grandfathered, normalize_characters T1)] := by
      rw [parse]
      simp only [hgf, if_true]
    have hfold : tagFoldWith (tag_to_meaningF 3) true {}
        [(SubtagKind.grandfathered, normalize_characters T1)] =
        .ok { grandfathered := some (normalize_characters T1) } := by
      rw [tagFold_cons_gf]
      rfl
    simp only [hparse1, hfold] at h1
    have hid : (if macroPref then
        prefer_macrolanguage { grandfathered := some (normalize_characters T1) } else
        ({ grandfathered := some (normalize_characters T1) } : Meaning)) =
        { grandfathered := some (normalize_characters T1) } := by
      cases macroPref with
      | false => rfl
      | true =>
        rw [if_pos rfl]
        exact prefer_eq_self (show NORMALIZED_MACROLANGUAGES.lookup "und" = none by decide)
    rw [hid, simplify_none_lang _ rfl] at h1
    have hser : meaning_to_tag { grandfathered := some (normalize_characters T1) } =
        "und" := rfl
    rw [hser] at h1
    injection h1 with hs1
    subst hs1
    have hres : s2 = meaning_to_tag ({} : Meaning) :=
      meaning_roundtrip macroPref {} MInv_empty (fun _ => by decide)
        (fun l sc hl _ => Option.noConfusion hl) hexc hrep h2
    exact hres
  · simp only [Bool.not_eq_true] at hgf
    cases hsp : splitHyphen (normalize_characters T1) with
    | nil => exact absurd hsp (splitHyphen_ne_nil _)
    | cons first rest =>
      by_cases hx : first = "x"
      · subst hx
        cases rest with
        | nil =>
          have hparse1 : parse T1 =
              .error (.languageTagError "'x' is not a language tag on its own") := by
            rw [parse]
            simp only [hgf, Bool.false_eq_true, if_false, hsp]
            rw [if_true]
            rfl
          simp only [hparse1] at h1
          exact Except.noConfusion h1
        | cons r0 rt =>
          obtain ⟨l', hl'⟩ := splitHyphen_xdash hsp
          have hmk : normalize_characters T1 = String.mk ('x' :: '-' :: l') := by
            rw [← hl']
          have hund : ¬ normalize_characters T1 = "und" := by
            rw [hmk]
            exact mk_xdash_ne l' "und" (by decide)
          have hNL : NORMALIZED_LANGUAGES.lookup (normalize_characters T1) = none := by
            rw [hmk]
            exact xdash_NL l'
          have hMAC : MACROLANGUAGES.lookup (normalize_characters T1) = none := by
            rw [hmk]
            exact xdash_MAC l'
          have hNM : NORMALIZED_MACROLANGUAGES.lookup (normalize_characters T1) = none := by
            rw [hmk]
            exact xdash_NM l'
          have hparse1 : parse T1 = .ok [(SubtagKind.language, normalize_characters T1)] := by
            rw [parse]
            simp only [hgf, Bool.false_eq_true, if_false, hsp]
            rw [if_true]
            rfl
          have hfoldx : tagFoldWith (tag_to_meaningF 3) true {}
              [(SubtagKind.language, normalize_characters T1)] =
              .ok { language := some (normalize_characters T1) } := by
            rw [tagFold_cons_language, if_neg hund, if_pos rfl]
            simp only [hNL, hMAC]
            rfl
          have hpref_eq : (if macroPref then
              prefer_macrolanguage { language := some (normalize_characters T1) } else
              ({ language := some (normalize_characters T1) } : Meaning)) =
              { language := some (normalize_characters T1) } := by
            cases macroPref with
            | false => rfl
            | true =>
              rw [if_pos rfl]
              exact prefer_eq_self hNM
          have hser : meaning_to_tag { language := some (normalize_characters T1) } =
              normalize_characters T1 := rfl
          simp only [hparse1, hfoldx] at h1
          rw [hpref_eq, simplify_none_script _ rfl, hser] at h1
          injection h1 with hs1
          subst hs1
          have hexcx : EXCEPTIONS.contains (normalize_characters T1) = false := by
            rw [normalize_characters_idem T1] at hexc
            exact hexc
          have hparse2 : parse (normalize_characters T1) =
              .ok [(SubtagKind.language, normalize_characters T1)] := by
            rw [parse]
            simp only [normalize_characters_idem T1, hexcx, Bool.false_eq_true, if_false, hsp]
            rw [if_true]
            rfl
          have hmean2 : tag_to_meaning (normalize_characters T1) true =
              .ok { language := some (normalize_characters T1) } := by
            rw [tag_to_meaning_step_norep hrep, hparse2]
            exact hfoldx
          simp only [standardize_tag, hmean2] at h2
          rw [hpref_eq, simplify_none_script _ rfl, hser] at h2
          injection h2 with hs2
          exact hs2.symm
      · by_cases hlen : 2 ≤ first.length
        · have hparse1 : parse T1 = (fun more => (SubtagKind.language, first) :: more) <$>
              parse_subtags rest EXTLANG := by
            rw [parse]
            simp only [hgf, Bool.false_eq_true, if_false, hsp]
            rw [if_neg hx, if_pos hlen]
          cases hpr : parse_subtags rest EXTLANG with
          | error err =>
            have hparse1e : parse T1 = .error err := by
              rw [hparse1, hpr]
              rfl
            simp only [hparse1e] at h1
            exact Except.noConfusion h1
          | ok tailX =>
            have hparse1o : parse T1 = .ok ((SubtagKind.language, first) :: tailX) := by
              rw [hparse1, hpr]
              rfl
            simp only [hparse1o] at h1
            have hnp : ∀ p ∈ first :: rest, NormPiece p := by
              have := splitHyphen_normalized T1
              rw [hsp] at this
              exact this
            have hshape : ∀ kv ∈ (SubtagKind.language, first) :: tailX,
                ShapeProp kv.1 kv.2 ∨
                (kv.1 = SubtagKind.language ∧ NormPiece kv.2 ∧ 2 ≤ kv.2.length) := by
              intro kv hkv
              rcases List.mem_cons.mp hkv with rfl | hkv2
              · exact Or.inr ⟨rfl, hnp first (List.mem_cons_self _ _), hlen⟩
              · exact Or.inl (parse_subtagsF_shapes (rest.length + 1) rest EXTLANG tailX
                  (fun p hp => hnp p (List.mem_cons_of_mem _ hp)) hpr kv hkv2)
            cases hfd : tagFoldWith (tag_to_meaningF 3) true {}
                ((SubtagKind.language, first) :: tailX) with
            | error err2 =>
              simp only [hfd] at h1
              exact Except.noConfusion h1
            | ok M =>
              simp only [hfd] at h1
              have hMInv : MInv M := tagFold_inv _ {} M hshape MInv_empty hfd
              injection h1 with hs1
              subst hs1
              have hMInv2 : MInv (if macroPref then prefer_macrolanguage M else M) := by
                cases macroPref with
                | false => exact hMInv
                | true => exact MInv_prefer hMInv
              refine meaning_roundtrip macroPref _ (MInv_simplify hMInv2) ?_
                (fun l sc hl hs => simplify_script_fixed _ hl hs) hexc hrep h2
              intro hmp
              subst hmp
              rw [simplify_script_language]
              exact prefer_macrolanguage_fixed M
        · have hparse1 : parse T1 = .error (subtag_error first "a language code") := by
            rw [parse]
            simp only [hgf, Bool.false_eq_true, if_false, hsp]
            rw [if_neg hx, if_neg hlen]
          simp only [hparse1] at h1
          exact Except.noConfusion h1

/-- Witness: the amended idempotence theorem applied at the concrete input
`en_US`, whose standardization `en-US` is neither a grandfathered exception
nor a replacement-table key, and restandardizes to itself. -/
theorem standardize_tag_conditionally_idempotent_witness :
    standardize_tag "en_US" false = .ok "en-US" ∧
    EXCEPTIONS.contains (normalize_characters "en-US") = false ∧
    NORMALIZED_LANGUAGES.lookup (pyLower "en-US") = none ∧
    standardize_tag "en-US" false = .ok "en-US" ∧ "en-US" = "en-US" :=
  ⟨by decide, by decide, by decide, by decide,
    standardize_tag_conditionally_idempotent false "en_US" "en-US" "en-US"
      (by decide) (by decide) (by decide) (by decide)⟩

/-! ## C6: a grandfathered result carries no other key -/

theorem tagFold_cons_extlang_false (rec : String → Bool → Except Err Meaning) (m : Meaning)
    (value : String) (comps : List (SubtagKind × String)) :
    tagFoldWith rec false m ((SubtagKind.extlang, value) :: comps) =
      tagFoldWith rec false (m.addSet .extlang value) comps := by
  simp [tagFoldWith]

theorem tag_to_meaning_step_any (tag : String) (n : Bool) :
    tag_to_meaning tag n =
      (match parse (match (if n then NORMALIZED_LANGUAGES.lookup (pyLower tag) else none) with
                    | some rep => rep | none => tag) with
       | .error e => .error e
       | .ok comps => tagFoldWith (tag_to_meaningF 3) n {} comps) := by
  rw [tag_to_meaning]
  show tag_to_meaningF (3 + 1) tag n = _
  simp [tag_to_meaningF]

/-- Folding components that contain no grandfathered kind never sets the
grandfathered key. -/
theorem tagFold_gf_none (n : Bool) : ∀ (comps : List (SubtagKind × String)) (m M : Meaning),
    (∀ kv ∈ comps, kv.1 ≠ SubtagKind.grandfathered) →
    m.grandfathered = none →
    tagFoldWith (tag_to_meaningF 3) n m comps = .ok M →
    M.grandfathered = none := by
  intro comps
  induction comps with
  | nil =>
    intro m M _ hg h
    cases h
    exact hg
  | cons kv comps ih =>
    intro m M hk hg h
    obtain ⟨typ, value⟩ := kv
    have hrest := fun kv2 hk2 => hk kv2 (List.mem_cons_of_mem _ hk2)
    cases typ with
    | grandfathered =>
      exact absurd rfl (hk (SubtagKind.grandfathered, value) (List.mem_cons_self _ _))
    | script =>
      rw [tagFold_cons_script] at h
      refine ih _ M hrest ?_ h
      exact hg
    | privateUse =>
      rw [tagFold_cons_private] at h
      refine ih _ M hrest ?_ h
      exact hg
    | variant =>
      rw [tagFold_cons_variant] at h
      refine ih _ M hrest ?_ h
      exact hg
    | extension =>
      rw [tagFold_cons_extension] at h
      refine ih _ M hrest ?_ h
      exact hg
    | region =>
      rw [tagFold_cons_region] at h
      cases n with
      | false =>
        simp only [Bool.false_eq_true, if_false] at h
        refine ih _ M hrest ?_ h
        exact hg
      | true =>
        cases hlk : NORMALIZED_REGIONS.lookup value with
        | some rep =>
          simp only [hlk, if_pos rfl] at h
          refine ih _ M hrest ?_ h
          exact hg
        | none =>
          simp only [hlk, if_pos rfl] at h
          refine ih _ M hrest ?_ h
          exact hg
    | language =>
      rw [tagFold_cons_language] at h
      by_cases hund : value = "und"
      · rw [if_pos hund] at h
        refine ih _ M hrest ?_ h
        exact hg
      rw [if_neg hund] at h
      cases n with
      | false =>
        simp only [Bool.false_eq_true, if_false] at h
        cases hmac : MACROLANGUAGES.lookup value with
        | some mac =>
          simp only [hmac] at h
          refine ih _ M hrest ?_ h
          exact hg
        | none =>
          simp only [hmac] at h
          refine ih _ M hrest ?_ h
          exact hg
      | true =>
        rw [if_pos rfl] at h
        cases hlk : NORMALIZED_LANGUAGES.lookup value with
        | some rep =>
          rcases NL_lookup_cases hlk with rfl | rfl | rfl
          · simp only [hlk, sub_srlatn] at h
            refine ih _ M hrest ?_ h
            exact hg
          · simp only [hlk, sub_ase] at h
            refine ih _ M hrest ?_ h
            exact hg
          · simp only [hlk, sub_cmn] at h
            refine ih _ M hrest ?_ h
            exact hg
        | none =>
          simp only [hlk] at h
          cases hmac : MACROLANGUAGES.lookup value with
          | some mac =>
            simp only [hmac] at h
            refine ih _ M hrest ?_ h
            exact hg
          | none =>
            simp only [hmac] at h
            refine ih _ M hrest ?_ h
            exact hg
    | extlang =>
      cases n with
      | false =>
        rw [tagFold_cons_extlang_false] at h
        refine ih _ M hrest ?_ h
        exact hg
      | true =>
        rw [tagFold_cons_extlang_true] at h
        cases hml : m.language with
        | none =>
          simp only [hml] at h
          exact Except.noConfusion h
        | some l =>
          simp only [hml] at h
          by_cases hl : l = ""
          · rw [if_pos hl] at h
            refine ih _ M hrest ?_ h
            exact hg
          rw [if_neg hl] at h
          cases hlk : NORMALIZED_LANGUAGES.lookup (l ++ "-" ++ value) with
          | some rep =>
            rcases NL_lookup_cases hlk with rfl | rfl | rfl
            · simp only [hlk, sub_srlatn] at h
              refine ih _ M hrest ?_ h
              exact hg
            · simp only [hlk, sub_ase] at h
              refine ih _ M hrest ?_ h
              exact hg
            · simp only [hlk, sub_cmn] at h
              refine ih _ M hrest ?_ h
              exact hg
          | none =>
            simp only [hlk] at h
            refine ih _ M hrest ?_ h
            exact hg

/-- C6 (amended): whenever `tag_to_meaning` succeeds and its result carries
the `grandfathered` key, that key is the only one set: the whole record is
the empty record with just the grandfathered value. -/
theorem tag_to_meaning_grandfathered_isolated (tag : String) (n : Bool) (M : Meaning)
    (h : tag_to_meaning tag n = .ok M) (hg : M.grandfathered.isSome = true) :
    M = { grandfathered := M.grandfathered } := by
  rw [tag_to_meaning_step_any] at h
  generalize hT1 : (match (if n then NORMALIZED_LANGUAGES.lookup (pyLower tag) else none) with
    | some rep => rep | none => tag) = T1 at h
  by_cases hgf : EXCEPTIONS.contains (normalize_characters T1) = true
  · have hparse1 : parse T1 = .ok [(SubtagKind.grandfathered, normalize_characters T1)] := by
      rw [parse]
      simp only [hgf, if_true]
    simp only [hparse1] at h
    have hfold : tagFoldWith (tag_to_meaningF 3) n {}
        [(SubtagKind.grandfathered, normalize_characters T1)] =
        .ok { grandfathered := some (normalize_characters T1) } := by
      rw [tagFold_cons_gf]
      rfl
    rw [hfold] at h
    cases h
    rfl
  · simp only [Bool.not_eq_true] at hgf
    cases hsp : splitHyphen (normalize_characters T1) with
    | nil => exact absurd hsp (splitHyphen_ne_nil _)
    | cons first rest =>
      by_cases hx : first = "x"
      · subst hx
        cases rest with
        | nil =>
          have hparse1 : parse T1 =
              .error (.languageTagError "'x' is not a language tag on its own") := by
            rw [parse]
            simp only [hgf, Bool.false_eq_true, if_false, hsp]
            rw [if_true]
            rfl
          simp only [hparse1] at h
          exact Except.noConfusion h
        | cons r0 rt =>
          have hparse1 : parse T1 = .ok [(SubtagKind.language, normalize_characters T1)] := by
            rw [parse]
            simp only [hgf, Bool.false_eq_true, if_false, hsp]
            rw [if_true]
            rfl
          simp only [hparse1] at h
          have hnone : M.grandfathered = none :=
            tagFold_gf_none n _ {} M
              (by
                intro kv hkv
                rcases List.mem_cons.mp hkv with rfl | hbad
                · exact fun hb => SubtagKind.noConfusion hb
                · exact absurd hbad (List.not_mem_nil kv)) rfl h
          rw [hnone] at hg
          exact absurd hg (by decide)
      · by_cases hlen : 2 ≤ first.length
        · have hparse1 : parse T1 = (fun more => (SubtagKind.language, first) :: more) <$>
              parse_subtags rest EXTLANG := by
            rw [parse]
            simp only [hgf, Bool.false_eq_true, if_false, hsp]
            rw [if_neg hx, if_pos (show first.length ≥ 2 from hlen)]
          cases hpr : parse_subtags rest EXTLANG with
          | error err =>
            have hparse1e : parse T1 = .error err := by
              rw [hparse1, hpr]
              rfl
            simp only [hparse1e] at h
            exact Except.noConfusion h
          | ok tailX =>
            have hparse1o : parse T1 = .ok ((SubtagKind.language, first) :: tailX) := by
              rw [hparse1, hpr]
              rfl
            simp only [hparse1o] at h
            have hnp : ∀ p ∈ first :: rest, NormPiece p := by
              have := splitHyphen_normalized T1
              rw [hsp] at this
              exact this
            have hnone : M.grandfathered = none := by
              refine tagFold_gf_none n _ {} M ?_ rfl h
              intro kv hkv
              rcases List.mem_cons.mp hkv with rfl | hkv2
              · exact fun hb => SubtagKind.noConfusion hb
              · intro hbad
                have hs := parse_subtagsF_shapes (rest.length + 1) rest EXTLANG tailX
                  (fun p hp => hnp p (List.mem_cons_of_mem _ hp)) hpr kv hkv2
                rw [hbad] at hs
                exact hs
            rw [hnone] at hg
            exact absurd hg (by decide)
        · have hparse1 : parse T1 = .error (subtag_error first "a language code") := by
            rw [parse]
            simp only [hgf, Bool.false_eq_true, if_false, hsp]
            rw [if_neg hx, if_neg (show ¬ first.length ≥ 2 from hlen)]
          simp only [hparse1] at h
          exact Except.noConfusion h

/-- Witness: the grandfathered tag `i-enochian` maps to a record whose only
key is `grandfathered`. -/
theorem tag_to_meaning_grandfathered_isolated_witness :
    tag_to_meaning "i-enochian" true = .ok { grandfathered := some "i-enochian" } ∧
    (some "i-enochian" : Option String).isSome = true ∧
    ({ grandfathered := some "i-enochian" } : Meaning) =
      { grandfathered := ({ grandfathered := some "i-enochian" } : Meaning).grandfathered } :=
  ⟨by decide, by decide,
    tag_to_meaning_grandfathered_isolated "i-enochian" true _ (by decide) (by decide)⟩

/-! ## C7: the no-normalize path is a pure transcription -/

/-- Spec-words reference for one step of the `normalize=False` builder:
set-valued kinds are accumulated, the undetermined language is dropped, a
language with a known macrolanguage is annotated with it, and every other
value is stored as given. -/
def literalStep (m : Meaning) : SubtagKind × String → Meaning
  | (typ, value) =>
    if typ = .extlang ∨ typ = .variant ∨ typ = .extension then m.addSet typ value
    else if typ = .language then
      if value = "und" then m
      else
        match MACROLANGUAGES.lookup value with
        | some mac => { m with language := some value, macrolanguage := some mac }
        | none => { m with language := some value }
    else if typ = .region then { m with region := some value }
    else m.setScalar typ value

/-- Spec-words reference: the whole `normalize=False` meaning is the plain
left fold of `literalStep` over the classified components. -/
def literalTranscription (comps : List (SubtagKind × String)) : Meaning :=
  comps.foldl literalStep {}

theorem tagFold_false_eq (rec : String → Bool → Except Err Meaning) :
    ∀ (comps : List (SubtagKind × String)) (m : Meaning),
    tagFoldWith rec false m comps = .ok (comps.foldl literalStep m) := by
  intro comps
  induction comps with
  | nil => intro m; rfl
  | cons kv comps ih =>
    intro m
    obtain ⟨typ, value⟩ := kv
    rw [List.foldl_cons]
    cases typ with
    | extlang =>
      rw [tagFold_cons_extlang_false]
      exact ih (m.addSet .extlang value)
    | variant =>
      rw [tagFold_cons_variant]
      exact ih (m.addSet .variant value)
    | extension =>
      rw [tagFold_cons_extension]
      exact ih (m.addSet .extension value)
    | script =>
      rw [tagFold_cons_script]
      exact ih { m with script := some value }
    | privateUse =>
      rw [tagFold_cons_private]
      exact ih { m with privateUse := some value }
    | grandfathered =>
      rw [tagFold_cons_gf]
      exact ih { m with grandfathered := some value }
    | region =>
      rw [tagFold_cons_region]
      simp only [Bool.false_eq_true, if_false]
      exact ih { m with region := some value }
    | language =>
      rw [tagFold_cons_language]
      by_cases hund : value = "und"
      · rw [if_pos hund]
        have hstep : literalStep m (SubtagKind.language, value) = m := by
          simp [literalStep, hund]
        rw [hstep]
        exact ih m
      · rw [if_neg hund]
        simp only [Bool.false_eq_true, if_false]
        cases hmac : MACROLANGUAGES.lookup value with
        | some mac =>
          simp only [hmac]
          have hstep : literalStep m (SubtagKind.language, value) =
              { m with language := some value, macrolanguage := some mac } := by
            simp [literalStep, hund, hmac]
          rw [hstep]
          exact ih _
        | none =>
          simp only [hmac]
          have hstep : literalStep m (SubtagKind.language, value) =
              { m with language := some value } := by
            simp [literalStep, hund, hmac]
          rw [hstep]
          exact ih _

/-- C7 (amended): with `normalize=False`, `tag_to_meaning` is exactly the
parse result transcribed literally — no replacement lookups run, but the
macrolanguage annotation is still applied, since the code consults
`MACROLANGUAGES` outside the `normalize` guard. -/
theorem tag_to_meaning_no_normalize_literal (tag : String) :
    tag_to_meaning tag false = (parse tag).map literalTranscription := by
  rw [tag_to_meaning_step_any]
  simp only [Bool.false_eq_true, if_false]
  cases hp : parse tag with
  | error e => simp only [hp]; rfl
  | ok comps =>
    simp only [hp]
    exact tagFold_false_eq _ comps {}
